import Mathlib

/-!
# Lexicon beam-search decoder (`LexiconDecoder.cpp`)

A shallow embedding of `flashlight/lib/text/decoder/LexiconDecoder.cpp`.

Conventions of the embedding.

* Scores (`float`/`double` in the source) are exact rationals; `-∞` is
  `none` in an `Option Score`.  A step that would leave exact arithmetic
  (the integer division by zero and the division by a zero quotient of the
  custom-vocabulary boost) is an error of the step, and so is a step that
  throws (the index vector of a negative length).
* Trie nodes live in a flat arena and are named by their index; pointer
  equality on nodes is equality of indices.
* A hypothesis refers to its parent by `(frame, slot)`: the frame key in
  `hyp_` and the position in that frame's vector.
* `hyp_` (an `unordered_map<int, vector<LexiconDecoderState>>`) is an
  association list with `emplace`, `operator[]` and `find`.
* The language model, the trie and the options are read-only inputs
  (`DecoderEnv`); `updateLMCache` only touches the LM's private cache and has
  no counterpart here.
-/

namespace Flashlight

/-- Scores are exact rationals. -/
abbrev Score := ℚ

/-- An LM state handle (`LMStatePtr`), compared by identity. -/
abbrev LMStatePtr := Nat

/-- A reference to a stored hypothesis: frame key and slot. -/
abbrev HypRef := Int × Nat

/-- The acoustic criterion (`CriterionType`). -/
inductive CriterionType where
  | ASG
  | CTC
deriving DecidableEq, Repr

/-- The ways a call can leave the model: a division of integers by zero, a
score divided by zero, `hyp_.find` of a frame that is not there, and the
`std::length_error` of a vector of negative length. -/
inductive DecodeError where
  | intDivByZero
  | nonFiniteScore
  | missingFrame
  | lengthError
deriving DecidableEq, Repr

/-- A lexicon trie node (`TrieNode`, declared in `Trie.h`): the members the
decoder reads, children by token, word labels, depth and look-ahead score. -/
structure TrieNode where
  children : List (Int × Nat)
  labels : List Int
  depth : Int
  maxScore : Score

/-- The lexicon trie: an arena of nodes and the index of the root. -/
structure Trie where
  node : Nat → TrieNode
  root : Nat

/-- The language model interface (`lm_`, declared in `LM.h`): the three calls
the decoder makes. -/
structure LM where
  start : Bool → LMStatePtr
  score : LMStatePtr → Int → LMStatePtr × Score
  finish : LMStatePtr → LMStatePtr × Score

/-- The decoder options (`opt_`, declared in `LexiconDecoder.h`); an
`unkScore` of `-∞` is `none`. -/
structure LexiconDecoderOptions where
  beamSize : Int
  beamSizeToken : Int
  beamThreshold : Score
  lmWeight : Score
  wordScore : Score
  unkScore : Option Score
  silScore : Score
  logAdd : Bool
  criterionType : CriterionType
  customWordFactor : Score

/-- A hypothesis (`LexiconDecoderState`, declared in `LexiconDecoder.h`), with
the members the decoder reads and writes. -/
structure LexiconDecoderState where
  score : Score
  lmState : LMStatePtr
  lex : Nat
  parent : Option HypRef
  token : Int
  word : Int
  prevBlank : Bool
  emittingModelScore : Score
  lmScore : Score
deriving DecidableEq, Repr

/-- The hypothesis buffer `hyp_`: frame key to the vector of that frame. -/
abbrev HypMap := List (Int × List LexiconDecoderState)

/-- The read-only members of the decoder. `logSumExp a b` stands for
`max a b + log1p (exp (min a b - max a b))`. -/
structure DecoderEnv where
  opt : LexiconDecoderOptions
  lexicon : Trie
  lm : LM
  sil : Int
  blank : Int
  unk : Int
  transitions : Int → Score
  isLmToken : Bool
  dictCustomVocab : Int → Bool
  logSumExp : Score → Score → Score

/-- The mutable members of the decoder. -/
structure LexiconDecoder where
  hyp : HypMap
  nDecodedFrames : Int
  nPrunedFrames : Int
deriving DecidableEq, Repr

/-- Modelled from the spec: the candidate buffer (`candidates_` with
`candidatesBestScore_`), whose type and operations are declared in `Utils.h`. -/
structure CandidateBuffer where
  bestScore : Option Score
  candidates : List LexiconDecoderState

/-- Modelled from the spec: the result record `DecodeResult` of `Utils.h`: total
score, its AM and LM parts, the word ids (states with `word ≥ 0`) and the token
ids along the backtracked path. -/
structure DecodeResult where
  score : Score
  emittingModelScore : Score
  lmScore : Score
  words : List Int
  tokens : List Int
deriving DecidableEq, Repr

/-! ## `hyp_` as a map -/

/-- The vector stored under `k` (`hyp_.find(k)`), if any. -/
def HypMap.find (h : HypMap) (k : Int) : Option (List LexiconDecoderState) :=
  match h with
  | [] => none
  | (k', v) :: rest => if k' = k then some v else HypMap.find rest k

/-- Insert `(k, v)` unless `k` is present (`hyp_.emplace(k, v)`). -/
def HypMap.emplace (h : HypMap) (k : Int) (v : List LexiconDecoderState) : HypMap :=
  match HypMap.find h k with
  | some _ => h
  | none => h ++ [(k, v)]

/-- The vector read through `hyp_[k]` (empty when the key is new). -/
def HypMap.get (h : HypMap) (k : Int) : List LexiconDecoderState :=
  (HypMap.find h k).getD []

/-- Overwrite the vector of a present key. -/
def HypMap.replace (h : HypMap) (k : Int) (v : List LexiconDecoderState) : HypMap :=
  match h with
  | [] => []
  | (k', v') :: rest =>
    if k' = k then (k', v) :: rest else (k', v') :: HypMap.replace rest k v

/-- Write through the reference `hyp_[k]`: the key is created when absent. -/
def HypMap.set (h : HypMap) (k : Int) (v : List LexiconDecoderState) : HypMap :=
  HypMap.replace (HypMap.emplace h k []) k v

/-- The hypothesis a reference points to. -/
def HypMap.resolve (h : HypMap) (r : HypRef) : Option LexiconDecoderState :=
  (HypMap.find h r.1).bind (fun v => v.get? r.2)

/-- The buffer extension at the head of `decodeStep`: keys `size, …, upTo - 1`
are emplaced with empty vectors. -/
def HypMap.extend (h : HypMap) (upTo : Int) : HypMap :=
  (List.range (upTo - (h.length : Int)).toNat).foldl
    (fun (m : HypMap) (j : Nat) => HypMap.emplace m ((h.length : Int) + (j : Int)) []) h

/-! ## Trie access -/

/-- Look a token up in a children table (`children.find(n)`). -/
def findChild (children : List (Int × Nat)) (n : Int) : Option Nat :=
  match children with
  | [] => none
  | (k, c) :: rest => if k = n then some c else findChild rest n

/-! ## `decodeBegin` -/

/-- The seed hypothesis of frame 0. The constructor of `LexiconDecoderState`
defaults `prevBlank`, `emittingModelScore` and `lmScore`. -/
def seedState (env : DecoderEnv) : LexiconDecoderState :=
  { score := 0, lmState := env.lm.start false, lex := env.lexicon.root,
    parent := none, token := env.sil, word := -1, prevBlank := false,
    emittingModelScore := 0, lmScore := 0 }

/-- The method `LexiconDecoder::decodeBegin`. -/
def decodeBegin (env : DecoderEnv) (_d : LexiconDecoder) : LexiconDecoder :=
  { hyp := HypMap.set (HypMap.emplace [] 0 []) 0 [seedState env],
    nDecodedFrames := 0, nPrunedFrames := 0 }

/-! ## The candidate buffer -/

/-- Modelled from the spec: `candidatesReset` of `Utils.h`: the buffer is
cleared and the best score is `-∞`. -/
def candidatesReset : CandidateBuffer :=
  { bestScore := none, candidates := [] }

/-- Modelled from the spec: the merge key of the candidate buffer of `Utils.h`:
identical `(lm_state, lex, word)`, plus `prev_blank` for CTC. -/
def sameKey (env : DecoderEnv) (a b : LexiconDecoderState) : Bool :=
  a.lmState == b.lmState && a.lex == b.lex && a.word == b.word &&
    (env.opt.criterionType != CriterionType.CTC || a.prevBlank == b.prevBlank)

/-- Modelled from the spec: the merge of two candidates with the same key in
the candidate buffer of `Utils.h`: log-sum-exp of the scores when `log_add`,
their maximum otherwise; the other components are those of the higher-scoring
candidate. -/
def mergeCandidate (env : DecoderEnv) (e c : LexiconDecoderState) : LexiconDecoderState :=
  let s := if env.opt.logAdd then env.logSumExp e.score c.score else max e.score c.score
  if e.score < c.score then { c with score := s } else { e with score := s }

/-- Modelled from the spec: insertion with merging into the candidate list of
`Utils.h`, which keeps insertion order. -/
def mergeInto (env : DecoderEnv) (c : LexiconDecoderState) :
    List LexiconDecoderState → List LexiconDecoderState
  | [] => [c]
  | e :: rest =>
    if sameKey env e c then mergeCandidate env e c :: rest
    else e :: mergeInto env c rest

/-- Modelled from the spec: `candidatesAdd` of `Utils.h`: drop when
`score < best_score - beam_threshold`, else raise `best_score` and merge. -/
def candidatesAdd (env : DecoderEnv) (buf : CandidateBuffer) (c : LexiconDecoderState) :
    CandidateBuffer :=
  match buf.bestScore with
  | none => { bestScore := some c.score, candidates := mergeInto env c buf.candidates }
  | some b =>
    if c.score < b - env.opt.beamThreshold then buf
    else { bestScore := some (max b c.score), candidates := mergeInto env c buf.candidates }

/-- The floor passed to `candidatesStore`:
`candidatesBestScore_ - opt_.beamThreshold`. -/
def scoreFloor (env : DecoderEnv) (buf : CandidateBuffer) : Option Score :=
  buf.bestScore.map (fun b => b - env.opt.beamThreshold)

/-- Whether a score passes a floor (`-∞` lets everything pass). -/
def aboveFloor (floor : Option Score) (s : Score) : Bool :=
  match floor with
  | none => true
  | some f => decide (f ≤ s)

/-- Modelled from the spec: `candidatesStore` of `Utils.h`: the top `beamSize`
candidates with `score ≥ threshold`, by descending score, ties by insertion
order, appended to the target frame list. -/
def candidatesStore (candidates : List LexiconDecoderState)
    (outputs : List LexiconDecoderState) (beamSize : Int) (threshold : Option Score)
    (_logAdd : Bool) (_returnSorted : Bool) : List LexiconDecoderState :=
  outputs ++
    ((candidates.filter (fun c => aboveFloor threshold c.score)).insertionSort
      (fun a b => a.score ≥ b.score)).take beamSize.toNat

/-! ## `decodeStep` -/

/-- The token beam of frame `t`: `idx[0 .. min(beamSizeToken, N))` after the
`iota` and the `partial_sort` by descending emission (ties: lower index first). -/
def tokenBeam (env : DecoderEnv) (emissions : Int → Score) (t N : Int) : List Int :=
  let idx : List Int := (List.range N.toNat).map (fun (i : Nat) => (i : Int))
  let sorted :=
    if N > env.opt.beamSizeToken then
      idx.insertionSort (fun l r => emissions (t * N + l) ≥ emissions (t * N + r))
    else idx
  sorted.take (min env.opt.beamSizeToken N).toNat

/-- The look-ahead score already added on the branch:
`prevLex == root ? 0 : prevLex->maxScore`. -/
def lexMaxScore (env : DecoderEnv) (prevLex : Nat) : Score :=
  if prevLex = env.lexicon.root then 0 else (env.lexicon.node prevLex).maxScore

/-- The emitting-model score of token `n` after `prevIdx` at frame `t`, with
the ASG transition when `nDecodedFrames_ + t > 0`. -/
def emittingScore (env : DecoderEnv) (nDecodedFrames : Int) (emissions : Int → Score)
    (t N : Int) (n prevIdx : Int) : Score :=
  if nDecodedFrames + t > 0 ∧ env.opt.criterionType = CriterionType.ASG then
    emissions (t * N + n) + env.transitions (n * N + prevIdx)
  else emissions (t * N + n)

/-- The custom-vocabulary increment
`fabs(total_score * customWordFactor / (15 / word_len))` with
`word_len = depth - 1`; `15 / word_len` is a division of `int`s. -/
def scoreIncrement (env : DecoderEnv) (totalScore : Score) (depth : Int) :
    Except DecodeError Score :=
  let wordLen := depth - 1
  if wordLen = 0 then Except.error DecodeError.intDivByZero
  else if Int.tdiv 15 wordLen = 0 then Except.error DecodeError.nonFiniteScore
  else Except.ok |totalScore * env.opt.customWordFactor / ((Int.tdiv 15 wordLen : Int) : Score)|

/-- The child-extension candidate, lines 91-113. -/
def childCandidate (env : DecoderEnv) (prevRef : HypRef) (prevHyp : LexiconDecoderState)
    (n : Int) (lexId : Nat) (ems score : Score) (lmIn : LMStatePtr × Score) :
    List (Except DecodeError LexiconDecoderState) :=
  if env.opt.criterionType ≠ CriterionType.CTC ∨ prevHyp.prevBlank = true ∨ n ≠ prevHyp.token then
    if (env.lexicon.node lexId).children ≠ [] then
      let lmSt : LMStatePtr × Score :=
        if env.isLmToken then lmIn
        else (prevHyp.lmState, (env.lexicon.node lexId).maxScore - lexMaxScore env prevHyp.lex)
      [Except.ok
        { score := score + env.opt.lmWeight * lmSt.2, lmState := lmSt.1, lex := lexId,
          parent := some prevRef, token := n, word := -1, prevBlank := false,
          emittingModelScore := prevHyp.emittingModelScore + ems,
          lmScore := prevHyp.lmScore + lmSt.2 }]
    else []
  else []

/-- One word-completion candidate, the body of the loop of lines 116-161. -/
def wordCandidate (env : DecoderEnv) (prevRef : HypRef) (prevHyp : LexiconDecoderState)
    (n : Int) (lexId : Nat) (ems score : Score) (lmIn : LMStatePtr × Score) (label : Int) :
    List (Except DecodeError LexiconDecoderState) :=
  if prevHyp.lex = env.lexicon.root ∧ prevHyp.token = n then []
  else
    let lmSt : LMStatePtr × Score :=
      if env.isLmToken then lmIn
      else ((env.lm.score prevHyp.lmState label).1,
            (env.lm.score prevHyp.lmState label).2 - lexMaxScore env prevHyp.lex)
    let totalScore := score + env.opt.lmWeight * lmSt.2 + env.opt.wordScore
    let boosted : Except DecodeError Score :=
      if env.dictCustomVocab label then
        match scoreIncrement env totalScore (env.lexicon.node lexId).depth with
        | Except.error e => Except.error e
        | Except.ok inc => Except.ok (totalScore + inc)
      else Except.ok totalScore
    match boosted with
    | Except.error e => [Except.error e]
    | Except.ok total =>
      [Except.ok
        { score := total, lmState := lmSt.1, lex := env.lexicon.root,
          parent := some prevRef, token := n, word := label, prevBlank := false,
          emittingModelScore := prevHyp.emittingModelScore + ems,
          lmScore := prevHyp.lmScore + lmSt.2 }]

/-- The unknown-word candidate, lines 163-183. -/
def unkCandidate (env : DecoderEnv) (prevRef : HypRef) (prevHyp : LexiconDecoderState)
    (n : Int) (lexId : Nat) (ems score : Score) (lmIn : LMStatePtr × Score) :
    List (Except DecodeError LexiconDecoderState) :=
  match env.opt.unkScore with
  | none => []
  | some unkScore =>
    if (env.lexicon.node lexId).labels = [] then
      let lmSt : LMStatePtr × Score :=
        if env.isLmToken then lmIn
        else ((env.lm.score prevHyp.lmState env.unk).1,
              (env.lm.score prevHyp.lmState env.unk).2 - lexMaxScore env prevHyp.lex)
      [Except.ok
        { score := score + env.opt.lmWeight * lmSt.2 + unkScore, lmState := lmSt.1,
          lex := env.lexicon.root, parent := some prevRef, token := n, word := env.unk,
          prevBlank := false,
          emittingModelScore := prevHyp.emittingModelScore + ems,
          lmScore := prevHyp.lmScore + lmSt.2 }]
    else []

/-- Branch (1) for one token `n` of the token beam, lines 66-183. -/
def tryChild (env : DecoderEnv) (nDecodedFrames : Int) (emissions : Int → Score)
    (t N : Int) (prevRef : HypRef) (prevHyp : LexiconDecoderState) (n : Int) :
    List (Except DecodeError LexiconDecoderState) :=
  match findChild (env.lexicon.node prevHyp.lex).children n with
  | none => []
  | some lexId =>
    let ems := emittingScore env nDecodedFrames emissions t N n prevHyp.token
    let score := if n = env.sil then prevHyp.score + ems + env.opt.silScore
      else prevHyp.score + ems
    let lmIn : LMStatePtr × Score :=
      if env.isLmToken then env.lm.score prevHyp.lmState n else (0, 0)
    childCandidate env prevRef prevHyp n lexId ems score lmIn ++
      (env.lexicon.node lexId).labels.flatMap
        (wordCandidate env prevRef prevHyp n lexId ems score lmIn) ++
      unkCandidate env prevRef prevHyp n lexId ems score lmIn

/-- The token of branch (2): `prevLex == root ? sil_ : prevIdx`. -/
def sameNodeToken (env : DecoderEnv) (prevHyp : LexiconDecoderState) : Int :=
  if prevHyp.lex = env.lexicon.root then env.sil else prevHyp.token

/-- Branch (2), the same lexicon node, lines 186-213. -/
def trySame (env : DecoderEnv) (nDecodedFrames : Int) (emissions : Int → Score)
    (t N : Int) (prevRef : HypRef) (prevHyp : LexiconDecoderState) :
    List (Except DecodeError LexiconDecoderState) :=
  if env.opt.criterionType ≠ CriterionType.CTC ∨ prevHyp.prevBlank = false ∨
      prevHyp.lex = env.lexicon.root then
    let n := sameNodeToken env prevHyp
    let ems := emittingScore env nDecodedFrames emissions t N n prevHyp.token
    let score := if n = env.sil then prevHyp.score + ems + env.opt.silScore
      else prevHyp.score + ems
    [Except.ok
      { score := score, lmState := prevHyp.lmState, lex := prevHyp.lex,
        parent := some prevRef, token := n, word := -1, prevBlank := false,
        emittingModelScore := prevHyp.emittingModelScore + ems,
        lmScore := prevHyp.lmScore }]
  else []

/-- Branch (3), the CTC blank, lines 215-232. -/
def tryBlank (env : DecoderEnv) (emissions : Int → Score)
    (t N : Int) (prevRef : HypRef) (prevHyp : LexiconDecoderState) :
    List (Except DecodeError LexiconDecoderState) :=
  if env.opt.criterionType = CriterionType.CTC then
    [Except.ok
      { score := prevHyp.score + emissions (t * N + env.blank), lmState := prevHyp.lmState,
        lex := prevHyp.lex, parent := some prevRef, token := env.blank, word := -1,
        prevBlank := true,
        emittingModelScore := prevHyp.emittingModelScore + emissions (t * N + env.blank),
        lmScore := prevHyp.lmScore }]
  else []

/-- Everything one live hypothesis proposes at frame `t`, in the order of the
calls to `candidatesAdd` (body of the loop of lines 56-234). -/
def expandHyp (env : DecoderEnv) (nDecodedFrames : Int) (emissions : Int → Score)
    (t N : Int) (prevRef : HypRef) (prevHyp : LexiconDecoderState) :
    List (Except DecodeError LexiconDecoderState) :=
  (tokenBeam env emissions t N).flatMap
      (tryChild env nDecodedFrames emissions t N prevRef prevHyp) ++
    trySame env nDecodedFrames emissions t N prevRef prevHyp ++
    tryBlank env emissions t N prevRef prevHyp

/-- The hypotheses of a frame paired with the references to them. -/
def withRefs (frame : Int) (hyps : List LexiconDecoderState) :
    List (HypRef × LexiconDecoderState) :=
  hyps.enum.map (fun p => ((frame, p.1), p.2))

/-- All proposals of frame `t`, over the hypotheses of `hyp_[startFrame + t]`. -/
def frameProposals (env : DecoderEnv) (nDecodedFrames : Int) (emissions : Int → Score)
    (t N : Int) (frame : Int) (hyps : List LexiconDecoderState) :
    List (Except DecodeError LexiconDecoderState) :=
  (withRefs frame hyps).flatMap
    (fun p => expandHyp env nDecodedFrames emissions t N p.1 p.2)

/-- The first error of a list of results, or all the values. -/
def collect : List (Except DecodeError LexiconDecoderState) →
    Except DecodeError (List LexiconDecoderState)
  | [] => Except.ok []
  | Except.error e :: _ => Except.error e
  | Except.ok c :: rest =>
    match collect rest with
    | Except.error e => Except.error e
    | Except.ok cs => Except.ok (c :: cs)

/-- One iteration of the loop over `t` of `decodeStep`, lines 43-245. -/
def decodeFrame (env : DecoderEnv) (nDecodedFrames : Int) (emissions : Int → Score)
    (N startFrame : Int) (hyp : HypMap) (t : Int) : Except DecodeError HypMap :=
  let hyp1 := HypMap.emplace hyp (startFrame + t) []
  match collect (frameProposals env nDecodedFrames emissions t N (startFrame + t)
      (HypMap.get hyp1 (startFrame + t))) with
  | Except.error e => Except.error e
  | Except.ok proposals =>
    let buf := proposals.foldl (candidatesAdd env) candidatesReset
    Except.ok (HypMap.set hyp1 (startFrame + t + 1)
      (candidatesStore buf.candidates (HypMap.get hyp1 (startFrame + t + 1))
        env.opt.beamSize (scoreFloor env buf) env.opt.logAdd false))

/-- The loop `for (int t = 0; t < T; t++)`, from `t` on, `count` iterations. -/
def decodeFrames (env : DecoderEnv) (nDecodedFrames : Int) (emissions : Int → Score)
    (N startFrame : Int) : Nat → Nat → HypMap → Except DecodeError HypMap
  | _, 0, hyp => Except.ok hyp
  | t, count + 1, hyp =>
    match decodeFrame env nDecodedFrames emissions N startFrame hyp (t : Int) with
    | Except.error e => Except.error e
    | Except.ok hyp1 => decodeFrames env nDecodedFrames emissions N startFrame (t + 1) count hyp1

/-- The method `LexiconDecoder::decodeStep`. The index vector of line 42,
`std::vector<size_t> idx(N)`, cannot be built for a negative `N`: the
constructor throws `std::length_error`. Neither `T` nor `N` is tested
otherwise; a negative `T` runs no iteration and is added to `nDecodedFrames_`. -/
def decodeStep (env : DecoderEnv) (d : LexiconDecoder) (emissions : Int → Score)
    (T N : Int) : Except DecodeError LexiconDecoder :=
  let startFrame := d.nDecodedFrames - d.nPrunedFrames
  if N < 0 then Except.error DecodeError.lengthError
  else
    match decodeFrames env d.nDecodedFrames emissions N startFrame 0 T.toNat
        (HypMap.extend d.hyp (startFrame + T + 2)) with
    | Except.error e => Except.error e
    | Except.ok hyp =>
      Except.ok { hyp := hyp, nDecodedFrames := d.nDecodedFrames + T,
                  nPrunedFrames := d.nPrunedFrames }

/-! ## `decodeEnd` -/

/-- The finishing candidate of one live hypothesis, lines 261-280. -/
def finishCandidate (env : DecoderEnv) (hasNiceEnding : Bool) (prevRef : HypRef)
    (prevHyp : LexiconDecoderState) : List LexiconDecoderState :=
  if hasNiceEnding = false ∨ prevHyp.lex = env.lexicon.root then
    [{ score := prevHyp.score + env.opt.lmWeight * (env.lm.finish prevHyp.lmState).2,
       lmState := (env.lm.finish prevHyp.lmState).1, lex := prevHyp.lex,
       parent := some prevRef, token := env.sil, word := -1, prevBlank := false,
       emittingModelScore := prevHyp.emittingModelScore,
       lmScore := prevHyp.lmScore + (env.lm.finish prevHyp.lmState).2 }]
  else []

/-- The flag `hasNiceEnding`: some live hypothesis is at the trie root. -/
def hasNiceEnding (env : DecoderEnv) (hyps : List LexiconDecoderState) : Bool :=
  hyps.any (fun p => decide (p.lex = env.lexicon.root))

/-- The candidates `decodeEnd` passes to `candidatesAdd`, in order: one per
live hypothesis that passes the test of line 264. -/
def finishProposals (env : DecoderEnv) (frame : Int) (hyps : List LexiconDecoderState) :
    List LexiconDecoderState :=
  (withRefs frame hyps).flatMap
    (fun p => finishCandidate env (hasNiceEnding env hyps) p.1 p.2)

/-- The method `LexiconDecoder::decodeEnd`. -/
def decodeEnd (env : DecoderEnv) (d : LexiconDecoder) : LexiconDecoder :=
  let live := d.nDecodedFrames - d.nPrunedFrames
  let hyp1 := HypMap.emplace d.hyp live []
  let buf := (finishProposals env live (HypMap.get hyp1 live)).foldl
    (candidatesAdd env) candidatesReset
  { hyp := HypMap.set hyp1 (live + 1)
      (candidatesStore buf.candidates (HypMap.get hyp1 (live + 1))
        env.opt.beamSize (scoreFloor env buf) env.opt.logAdd true),
    nDecodedFrames := d.nDecodedFrames + 1,
    nPrunedFrames := d.nPrunedFrames }

/-! ## Backtracking -/

/-- Modelled from the spec: the first step of `findBestAncestor` of `Utils.h`:
the slot of the best-scoring hypothesis of a frame (the first one among
equals), scanning from slot `i`. -/
def bestSlotFrom : Nat → List LexiconDecoderState → Option (Nat × Score)
  | _, [] => none
  | i, s :: rest =>
    match bestSlotFrom (i + 1) rest with
    | none => some (i, s.score)
    | some (j, b) => if s.score < b then some (j, b) else some (i, s.score)

/-- The ancestor `k` parent links above a reference, following `parent`, if
the chain is that long. -/
def ancestor (h : HypMap) : Nat → HypRef → Option HypRef
  | 0, r => some r
  | k + 1, r =>
    match HypMap.resolve h r with
    | none => none
    | some s =>
      match s.parent with
      | none => none
      | some p => ancestor h k p

/-- Modelled from the spec: `findBestAncestor` of `Utils.h`: among the states of
the final frame, the best-scoring one, then its ancestor `look_back` frames
earlier by walking parent pointers. -/
def findBestAncestor (h : HypMap) (frame : Int) (finalHyps : List LexiconDecoderState)
    (lookBack : Int) : Option HypRef :=
  match bestSlotFrom 0 finalHyps with
  | none => none
  | some (i, _) => ancestor h lookBack.toNat (frame, i)

/-- Modelled from the spec: the backtrack of `getHypothesis` of `Utils.h`: the
parent chain above and including a reference, oldest state first; at most
`fuel` states are visited. -/
def backtrack (h : HypMap) : Nat → Option HypRef → List LexiconDecoderState
  | 0, _ => []
  | _ + 1, none => []
  | fuel + 1, some r =>
    match HypMap.resolve h r with
    | none => []
    | some s => backtrack h fuel s.parent ++ [s]

/-- Modelled from the spec: the default-constructed `DecodeResult` of `Utils.h`,
the empty result. -/
def emptyResult : DecodeResult :=
  { score := 0, emittingModelScore := 0, lmScore := 0, words := [], tokens := [] }

/-- Modelled from the spec: the word extraction of `getHypothesis` of
`Utils.h`: the word ids along a chain of states, filtering `word ≥ 0`. -/
def wordsOf (chain : List LexiconDecoderState) : List Int :=
  (chain.map (fun c => c.word)).filter (fun w => decide (0 ≤ w))

/-- Modelled from the spec: `getHypothesis` of `Utils.h`: the backtracked
sequence of states from frame 0 to `finalFrame`, reversed from the parent
chain; words are the states with `word ≥ 0`. -/
def getHypothesis (h : HypMap) (node : Option HypRef) (finalFrame : Int) : DecodeResult :=
  match node with
  | none => emptyResult
  | some r =>
    match HypMap.resolve h r with
    | none => emptyResult
    | some s =>
      { score := s.score, emittingModelScore := s.emittingModelScore, lmScore := s.lmScore,
        words := wordsOf (backtrack h (finalFrame + 1).toNat (some r)),
        tokens := (backtrack h (finalFrame + 1).toNat (some r)).map (fun c => c.token) }

/-- The method `LexiconDecoder::getBestHypothesis`; `hyp_.find` of a missing
frame is an error. -/
def getBestHypothesis (_env : DecoderEnv) (d : LexiconDecoder) (lookBack : Int) :
    Except DecodeError DecodeResult :=
  if d.nDecodedFrames - d.nPrunedFrames - lookBack < 1 then Except.ok emptyResult
  else
    match HypMap.find d.hyp (d.nDecodedFrames - d.nPrunedFrames) with
    | none => Except.error DecodeError.missingFrame
    | some finalHyps =>
      Except.ok (getHypothesis d.hyp
        (findBestAncestor d.hyp (d.nDecodedFrames - d.nPrunedFrames) finalHyps lookBack)
        (d.nDecodedFrames - d.nPrunedFrames - lookBack))

/-- The method `LexiconDecoder::nHypothesis`. -/
def nHypothesis (d : LexiconDecoder) : Except DecodeError Int :=
  match HypMap.find d.hyp (d.nDecodedFrames - d.nPrunedFrames) with
  | none => Except.error DecodeError.missingFrame
  | some finalHyps => Except.ok (finalHyps.length : Int)

/-- The method `LexiconDecoder::nDecodedFramesInBuffer`. -/
def nDecodedFramesInBuffer (d : LexiconDecoder) : Int :=
  d.nDecodedFrames - d.nPrunedFrames + 1

/-! ## `prune` -/

/-- Modelled from the spec: the rebasing of `pruneAndNormalize` of `Utils.h`: a
surviving state after the shift by `startFrame`; the committed score is
subtracted and the parent reference follows the frames, or is dropped when its
frame is discarded. -/
def rebaseState (startFrame : Int) (committed : Score) (s : LexiconDecoderState) :
    LexiconDecoderState :=
  { s with
    score := s.score - committed,
    parent :=
      match s.parent with
      | none => none
      | some p => if p.1 < startFrame then none else some (p.1 - startFrame, p.2) }

/-- Modelled from the spec: the score `pruneAndNormalize` of `Utils.h`
subtracts, that of the committed prefix: the score of the best-scoring
ancestor at frame `startFrame`, seen from frame `startFrame + lookBack`. -/
def committedScore (h : HypMap) (startFrame lookBack : Int) : Score :=
  match findBestAncestor h (startFrame + lookBack) (HypMap.get h (startFrame + lookBack))
      lookBack with
  | none => 0
  | some r =>
    match HypMap.resolve h r with
    | none => 0
    | some s => s.score

/-- Modelled from the spec: `pruneAndNormalize` of `Utils.h`: frames
`[0, start_frame)` are discarded, the retained frames are shifted to the origin,
and the score of the committed prefix is subtracted from the score of every
surviving state; `am_score` and `lm_score` are left as they are. -/
def pruneAndNormalize (h : HypMap) (startFrame lookBack : Int) : HypMap :=
  (h.filter (fun kv => decide (startFrame ≤ kv.1))).map
    (fun kv => (kv.1 - startFrame,
      kv.2.map (rebaseState startFrame (committedScore h startFrame lookBack))))

/-- The method `LexiconDecoder::prune`; `hyp_.find` of a missing frame is an
error. -/
def prune (_env : DecoderEnv) (d : LexiconDecoder) (lookBack : Int) :
    Except DecodeError LexiconDecoder :=
  if d.nDecodedFrames - d.nPrunedFrames - lookBack < 1 then Except.ok d
  else
    match HypMap.find d.hyp (d.nDecodedFrames - d.nPrunedFrames) with
    | none => Except.error DecodeError.missingFrame
    | some finalHyps =>
      match findBestAncestor d.hyp (d.nDecodedFrames - d.nPrunedFrames) finalHyps lookBack with
      | none => Except.ok d
      | some _ =>
        if d.nDecodedFrames - d.nPrunedFrames - lookBack < 1 then Except.ok d
        else
          Except.ok
            { hyp := pruneAndNormalize d.hyp
                (d.nDecodedFrames - d.nPrunedFrames - lookBack) lookBack,
              nDecodedFrames := d.nDecodedFrames,
              nPrunedFrames := d.nDecodedFrames - lookBack }

/-! ## Runs of the decoder -/

/-- The options the specification admits: `beam_size > 0`,
`beam_size_token > 0`, `beam_threshold ≥ 0`. -/
def ValidOptions (env : DecoderEnv) : Prop :=
  1 ≤ env.opt.beamSize ∧ 1 ≤ env.opt.beamSizeToken ∧ 0 ≤ env.opt.beamThreshold

instance (env : DecoderEnv) : Decidable (ValidOptions env) := by
  unfold ValidOptions
  infer_instance

/-- The index of the live frame, `nDecodedFrames_ - nPrunedFrames_`. -/
def liveFrame (d : LexiconDecoder) : Int :=
  d.nDecodedFrames - d.nPrunedFrames

/-- States reached by `decodeBegin` followed by `decodeStep` calls (`T ≥ 0`). -/
inductive ReachableBySteps (env : DecoderEnv) : LexiconDecoder → Prop where
  | begin (d : LexiconDecoder) : ReachableBySteps env (decodeBegin env d)
  | step {d d' : LexiconDecoder} (emissions : Int → Score) (T : Nat) (N : Int) :
      ReachableBySteps env d → decodeStep env d emissions (T : Int) N = Except.ok d' →
      ReachableBySteps env d'

/-- States reached by `decodeBegin` followed by `decodeStep` (`T ≥ 0`) and
`decodeEnd` calls. -/
inductive ReachableNoPrune (env : DecoderEnv) : LexiconDecoder → Prop where
  | begin (d : LexiconDecoder) : ReachableNoPrune env (decodeBegin env d)
  | step {d d' : LexiconDecoder} (emissions : Int → Score) (T : Nat) (N : Int) :
      ReachableNoPrune env d → decodeStep env d emissions (T : Int) N = Except.ok d' →
      ReachableNoPrune env d'
  | finish {d : LexiconDecoder} :
      ReachableNoPrune env d → ReachableNoPrune env (decodeEnd env d)

/-- States reached by `decodeBegin`, `decodeStep` (`T ≥ 0`), `decodeEnd` and
`prune` (`lookBack ≥ 0`). -/
inductive Reachable (env : DecoderEnv) : LexiconDecoder → Prop where
  | begin (d : LexiconDecoder) : Reachable env (decodeBegin env d)
  | step {d d' : LexiconDecoder} (emissions : Int → Score) (T : Nat) (N : Int) :
      Reachable env d → decodeStep env d emissions (T : Int) N = Except.ok d' →
      Reachable env d'
  | finish {d : LexiconDecoder} : Reachable env d → Reachable env (decodeEnd env d)
  | prune {d d' : LexiconDecoder} (lookBack : Nat) :
      Reachable env d → prune env d (lookBack : Int) = Except.ok d' → Reachable env d'

/-! ## A small decoder used in the examples

Tokens `a = 0`, `b = 1`, `BLANK = 2`, `SIL = 3`; the lexicon holds the word
`ab` (label `0`) spelled `[0, 1]`. -/

/-- The trie of the lexicon `ab → [0, 1]`. -/
def abTrie : Trie :=
  { node := fun i =>
      match i with
      | 0 => { children := [(0, 1)], labels := [], depth := 0, maxScore := 0 }
      | 1 => { children := [(1, 2)], labels := [], depth := 1, maxScore := 0 }
      | 2 => { children := [], labels := [0], depth := 2, maxScore := 0 }
      | _ => { children := [], labels := [], depth := 0, maxScore := 0 },
    root := 0 }

/-- A language model without scores whose state records the words seen. -/
def zeroLM : LM :=
  { start := fun _ => 0,
    score := fun s w => (s * 10 + (w.toNat + 1), 0),
    finish := fun s => (s, 0) }

/-- Options of the example decoder: beam 4, CTC, no bonus. -/
def abOptions : LexiconDecoderOptions :=
  { beamSize := 4, beamSizeToken := 4, beamThreshold := 100, lmWeight := 0, wordScore := 0,
    unkScore := some (-1), silScore := 0, logAdd := false,
    criterionType := CriterionType.CTC, customWordFactor := 0 }

/-- The example decoder. -/
def abEnv : DecoderEnv :=
  { opt := abOptions, lexicon := abTrie, lm := zeroLM, sil := 3, blank := 2, unk := 1,
    transitions := fun _ => 0, isLmToken := false, dictCustomVocab := fun _ => false,
    logSumExp := fun a b => max a b }

/-- A decoder object before `decodeBegin`. -/
def freshDecoder : LexiconDecoder :=
  { hyp := [], nDecodedFrames := 0, nPrunedFrames := 0 }

/-- Emissions given row by row (`N` columns); zero outside. -/
def emissionsOf (rows : List (List Score)) (N : Nat) : Int → Score :=
  fun i => ((rows.get? (i.toNat / N)).bind (fun r => r.get? (i.toNat % N))).getD 0

/-- In the states reached by valid calls the live frame index is not negative
and every frame key from 0 to the live frame is present in `hyp_`. -/
def LivePresent (d : LexiconDecoder) : Prop :=
  0 ≤ liveFrame d ∧ ∀ k : Int, 0 ≤ k → k ≤ liveFrame d → HypMap.find d.hyp k ≠ none

/-! ## Relations between stored hypotheses -/

/-- Two hypotheses that differ at most in `score`. -/
def sameButScore (x y : LexiconDecoderState) : Prop :=
  x.lmState = y.lmState ∧ x.lex = y.lex ∧ x.parent = y.parent ∧ x.token = y.token ∧
    x.word = y.word ∧ x.prevBlank = y.prevBlank ∧
    x.emittingModelScore = y.emittingModelScore ∧ x.lmScore = y.lmScore

/-- The five ways `decodeStep` proposes a hypothesis `y` from a live
hypothesis `p`, by the fields other than the scores. -/
inductive Transition (env : DecoderEnv) (p y : LexiconDecoderState) : Prop where
  | child (lexId : Nat)
      (hfind : findChild (env.lexicon.node p.lex).children y.token = some lexId)
      (hlex : y.lex = lexId) (hword : y.word = -1) (hblank : y.prevBlank = false)
      (hgate : env.opt.criterionType ≠ CriterionType.CTC ∨ p.prevBlank = true ∨
        y.token ≠ p.token)
      (hchildren : (env.lexicon.node lexId).children ≠ []) : Transition env p y
  | word (lexId : Nat)
      (hfind : findChild (env.lexicon.node p.lex).children y.token = some lexId)
      (hlabel : y.word ∈ (env.lexicon.node lexId).labels)
      (hlex : y.lex = env.lexicon.root) (hblank : y.prevBlank = false)
      (hskip : ¬ (p.lex = env.lexicon.root ∧ p.token = y.token)) : Transition env p y
  | unk (lexId : Nat)
      (hfind : findChild (env.lexicon.node p.lex).children y.token = some lexId)
      (hlabels : (env.lexicon.node lexId).labels = [])
      (hunk : env.opt.unkScore ≠ none)
      (hword : y.word = env.unk)
      (hlex : y.lex = env.lexicon.root) (hblank : y.prevBlank = false) : Transition env p y
  | same
      (hguard : env.opt.criterionType ≠ CriterionType.CTC ∨ p.prevBlank = false ∨
        p.lex = env.lexicon.root)
      (htoken : y.token = if p.lex = env.lexicon.root then env.sil else p.token)
      (hlex : y.lex = p.lex) (hword : y.word = -1) (hblank : y.prevBlank = false) :
      Transition env p y
  | blank
      (hctc : env.opt.criterionType = CriterionType.CTC)
      (htoken : y.token = env.blank)
      (hlex : y.lex = p.lex) (hword : y.word = -1) (hblank : y.prevBlank = true) :
      Transition env p y

/-- How `decodeEnd` derives a final hypothesis `x` from a live hypothesis `p`,
by the fields other than the scores and the LM state. -/
def FinishLink (env : DecoderEnv) (p x : LexiconDecoderState) : Prop :=
  x.token = env.sil ∧ x.word = -1 ∧ x.prevBlank = false ∧ x.lex = p.lex

/-- The shape of a hypothesis buffer whose frames `0 … top` were written by the
decoder: frame 0 is the seed, there is nothing below frame 0 or above `top`, and
every state of a frame `k ≥ 1` has its parent in frame `k - 1`, to which it is
related by `R`. -/
def FramesInv (R : LexiconDecoderState → LexiconDecoderState → Prop) (env : DecoderEnv)
    (h : HypMap) (top : Int) : Prop :=
  HypMap.get h 0 = [seedState env] ∧
  (∀ k : Int, k < 0 → HypMap.get h k = []) ∧
  (∀ k : Int, top < k → HypMap.get h k = []) ∧
  ∀ k : Int, 1 ≤ k → ∀ x ∈ HypMap.get h k,
    ∃ (slot : Nat) (p : LexiconDecoderState),
      x.parent = some (k - 1, slot) ∧ (HypMap.get h (k - 1))[slot]? = some p ∧ R p x

/-- The hypothesis graph of a decoder that was never pruned. -/
def GraphInv (R : LexiconDecoderState → LexiconDecoderState → Prop) (env : DecoderEnv)
    (d : LexiconDecoder) : Prop :=
  0 ≤ liveFrame d ∧ FramesInv R env d.hyp (liveFrame d)

/-- The example decoder with a beam of one hypothesis and no unknown word. -/
def greedyEnv : DecoderEnv :=
  { abEnv with opt := { abOptions with beamSize := 1, unkScore := none } }

/-- Emissions of two frames that both prefer token `a`. -/
def aaEmissions : Int → Score :=
  emissionsOf [[0, -1, -2, -3], [0, -1, -2, -3]] 4

/-- Frame 1 of the example decoder `abEnv` after one frame that prefers token
`a`: the child extension into node 1, the unknown word, the blank and the
silence. -/
def abFrameOne : List LexiconDecoderState :=
  [{ score := 0, lmState := 0, lex := 1, parent := some (0, 0), token := 0,
     word := -1, prevBlank := false, emittingModelScore := 0, lmScore := 0 },
   { score := -1, lmState := 2, lex := 0, parent := some (0, 0), token := 0,
     word := 1, prevBlank := false, emittingModelScore := 0, lmScore := 0 },
   { score := -2, lmState := 0, lex := 0, parent := some (0, 0), token := 2,
     word := -1, prevBlank := true, emittingModelScore := -2, lmScore := 0 },
   { score := -3, lmState := 0, lex := 0, parent := some (0, 0), token := 3,
     word := -1, prevBlank := false, emittingModelScore := -3, lmScore := 0 }]

/-- The example decoder `abEnv` after one frame that prefers token `a`. -/
def abAfterOne : LexiconDecoder :=
  { hyp :=
      [(0, [{ score := 0, lmState := 0, lex := 0, parent := none, token := 3, word := -1,
              prevBlank := false, emittingModelScore := 0, lmScore := 0 }]),
       (1, abFrameOne),
       (2, [])],
    nDecodedFrames := 1, nPrunedFrames := 0 }

/-- The decoder `greedyEnv` after two frames that prefer token `a`: the child
extension into node 1, then the same node again. -/
def greedyAfterTwo : LexiconDecoder :=
  { hyp :=
      [(0, [{ score := 0, lmState := 0, lex := 0, parent := none, token := 3, word := -1,
              prevBlank := false, emittingModelScore := 0, lmScore := 0 }]),
       (1, [{ score := 0, lmState := 0, lex := 1, parent := some (0, 0), token := 0,
              word := -1, prevBlank := false, emittingModelScore := 0, lmScore := 0 }]),
       (2, [{ score := 0, lmState := 0, lex := 1, parent := some (1, 0), token := 0,
              word := -1, prevBlank := false, emittingModelScore := 0, lmScore := 0 }]),
       (3, [])],
    nDecodedFrames := 2, nPrunedFrames := 0 }

/-- The example decoder after `decodeBegin` and `decodeEnd`. -/
def abEnded : LexiconDecoder :=
  decodeEnd abEnv (decodeBegin abEnv freshDecoder)

/-- The final hypothesis of `abEnded`, the child of the seed. -/
def abFinalState : LexiconDecoderState :=
  { score := 0, lmState := 0, lex := 0, parent := some (0, 0), token := 3,
    word := -1, prevBlank := false, emittingModelScore := 0, lmScore := 0 }

/-- Every frame holds at most `beamSize` states and the frames above `top` are
empty. -/
def BeamFrames (env : DecoderEnv) (h : HypMap) (top : Int) : Prop :=
  (∀ k : Int, ((HypMap.get h k).length : Int) ≤ env.opt.beamSize) ∧
  ∀ k : Int, top < k → HypMap.get h k = []

/-- The buffer holds a candidate at least as good as its best score. -/
def BufferHoldsBest (buf : CandidateBuffer) : Prop :=
  ∀ b, buf.bestScore = some b → ∃ x ∈ buf.candidates, b ≤ x.score

/-- The best score of the buffer is at least `s`. -/
def BestAtLeast (buf : CandidateBuffer) (s : Score) : Prop :=
  ∃ b, buf.bestScore = some b ∧ s ≤ b

/-- The order of `candidatesStore` is total and transitive. -/
instance : IsTotal LexiconDecoderState (fun a b => a.score ≥ b.score) :=
  ⟨fun a b => le_total b.score a.score⟩

/-- The order of `candidatesStore` is transitive. -/
instance : IsTrans LexiconDecoderState (fun a b => a.score ≥ b.score) :=
  ⟨fun _ _ _ h1 h2 => le_trans h2 h1⟩

/-- The beam-of-one decoder with criterion ASG and a transition matrix whose
entries are all `-1`. -/
def asgEnv : DecoderEnv :=
  { greedyEnv with
    opt := { greedyEnv.opt with criterionType := CriterionType.ASG },
    transitions := fun _ => -1 }

/-! ## Runs with and without `prune` -/

/-- One call of `decodeStep`: the emissions, `T ≥ 0` and `N`. -/
structure StepCall where
  emissions : Int → Score
  T : Nat
  N : Int

/-- A sequence of `decodeStep` calls. -/
def decodeSteps (env : DecoderEnv) :
    LexiconDecoder → List StepCall → Except DecodeError LexiconDecoder
  | d, [] => Except.ok d
  | d, c :: rest =>
    match decodeStep env d c.emissions (c.T : Int) c.N with
    | Except.error e => Except.error e
    | Except.ok d1 => decodeSteps env d1 rest

/-- The words `prune(lookBack)` commits: the words emitted on the frames it
discards, along the path to the best ancestor it finds; nothing when the call
returns without pruning. -/
def committedWords (d : LexiconDecoder) (lookBack : Int) : List Int :=
  if liveFrame d - lookBack < 1 then []
  else
    match findBestAncestor d.hyp (liveFrame d) (HypMap.get d.hyp (liveFrame d)) lookBack with
    | none => []
    | some a =>
      match HypMap.resolve d.hyp a with
      | none => []
      | some s => wordsOf (backtrack d.hyp (liveFrame d - lookBack).toNat s.parent)

/-- The word sequence of `decodeEnd` followed by `getBestHypothesis(0)`. -/
def finalWords (env : DecoderEnv) (d : LexiconDecoder) : Except DecodeError (List Int) :=
  match getBestHypothesis env (decodeEnd env d) 0 with
  | Except.error e => Except.error e
  | Except.ok r => Except.ok r.words

/-! ## A decoder with two one-token words

Tokens `a = 0`, `b = 1`, `BLANK = 2`, `SIL = 3`; words `a → [0]` (label 0) and
`b → [1]` (label 1). -/

/-- The trie of the lexicon `a → [0]`, `b → [1]`. -/
def twoWordTrie : Trie :=
  { node := fun i =>
      match i with
      | 0 => { children := [(0, 1), (1, 2)], labels := [], depth := 0, maxScore := 0 }
      | 1 => { children := [], labels := [0], depth := 1, maxScore := 0 }
      | 2 => { children := [], labels := [1], depth := 1, maxScore := 0 }
      | _ => { children := [], labels := [], depth := 0, maxScore := 0 },
    root := 0 }

/-- A language model whose state records the words seen and that favours any
word after the single word `b` (state 2) by 5. -/
def historyLM : LM :=
  { start := fun _ => 0,
    score := fun s w => (s * 10 + (w.toNat + 1), if s = 2 then 5 else 0),
    finish := fun s => (s, 0) }

/-- A CTC decoder over `twoWordTrie` with a beam of two and LM weight 1. -/
def twoWordEnv : DecoderEnv :=
  { opt := { beamSize := 2, beamSizeToken := 4, beamThreshold := 100, lmWeight := 1,
             wordScore := 0, unkScore := none, silScore := 0, logAdd := false,
             criterionType := CriterionType.CTC, customWordFactor := 0 },
    lexicon := twoWordTrie, lm := historyLM, sil := 3, blank := 2, unk := 9,
    transitions := fun _ => 0, isLmToken := false, dictCustomVocab := fun _ => false,
    logSumExp := fun a b => max a b }

/-- Two frames: `a` slightly ahead of `b`, then blank. -/
def firstCalls : List StepCall :=
  [{ emissions := emissionsOf [[0, -1, -10, -10], [-10, -10, 0, -10]] 4, T := 2, N := 4 }]

/-- One more frame that prefers `a`. -/
def secondCalls : List StepCall :=
  [{ emissions := emissionsOf [[0, -10, -10, -10]] 4, T := 1, N := 4 }]

/-- The run `decodeBegin`, calls, calls, `decodeEnd`, `getBestHypothesis(0)`:
its word sequence. -/
def unprunedWords (env : DecoderEnv) (calls1 calls2 : List StepCall) :
    Except DecodeError (List Int) :=
  match decodeSteps env (decodeBegin env freshDecoder) calls1 with
  | Except.error e => Except.error e
  | Except.ok d1 =>
    match decodeSteps env d1 calls2 with
    | Except.error e => Except.error e
    | Except.ok d2 => finalWords env d2

/-- The same run with `prune(lookBack)` between the two groups of calls. -/
def prunedWords (env : DecoderEnv) (calls1 : List StepCall) (lookBack : Int)
    (calls2 : List StepCall) : Except DecodeError (List Int) :=
  match decodeSteps env (decodeBegin env freshDecoder) calls1 with
  | Except.error e => Except.error e
  | Except.ok d1 =>
    match prune env d1 lookBack with
    | Except.error e => Except.error e
    | Except.ok dp =>
      match decodeSteps env dp calls2 with
      | Except.error e => Except.error e
      | Except.ok d2 => finalWords env d2

/-- The words committed by the prune of that run. -/
def prunedPrefix (env : DecoderEnv) (calls1 : List StepCall) (lookBack : Int) :
    Except DecodeError (List Int) :=
  match decodeSteps env (decodeBegin env freshDecoder) calls1 with
  | Except.error e => Except.error e
  | Except.ok d1 => Except.ok (committedWords d1 lookBack)

/-- A proposal moved along with the frames by `prune`. -/
def shiftResult (startFrame : Int) (committed : Score) :
    Except DecodeError LexiconDecoderState → Except DecodeError LexiconDecoderState
  | Except.error e => Except.error e
  | Except.ok y => Except.ok (rebaseState startFrame committed y)

/-- A candidate buffer moved along with the frames by `prune`. -/
def rebaseBuffer (startFrame : Int) (committed : Score) (buf : CandidateBuffer) :
    CandidateBuffer :=
  { bestScore := buf.bestScore.map (fun b => b - committed),
    candidates := buf.candidates.map (rebaseState startFrame committed) }

/-- The frames of `hp` are the frames of `hu` from `startFrame` on, shifted to
the origin and rebased. -/
def Shifted (startFrame : Int) (committed : Score) (hu hp : HypMap) : Prop :=
  ∀ k : Int, HypMap.get hp k =
    if 0 ≤ k then (HypMap.get hu (k + startFrame)).map (rebaseState startFrame committed)
    else []

/-- The pruned decoder `dp` follows the unpruned decoder `du`: same decoded
count, live frames `startFrame` apart, and the frames of `dp` are those of `du`
shifted and rebased. -/
def PrunedSim (startFrame : Int) (committed : Score) (du dp : LexiconDecoder) : Prop :=
  du.nDecodedFrames = dp.nDecodedFrames ∧
  liveFrame du = liveFrame dp + startFrame ∧
  0 ≤ liveFrame dp ∧
  Shifted startFrame committed du.hyp dp.hyp

/-- One more frame that prefers the blank. -/
def blankCalls : List StepCall :=
  [{ emissions := emissionsOf [[-10, -10, 0, -10]] 4, T := 1, N := 4 }]

/-- The frames 0 to 2 of `twoWordEnv` after `firstCalls`: the seed, the words
`a` and `b`, and a blank after each. -/
def twoWordFrames : HypMap :=
  [(0, [{ score := 0, lmState := 0, lex := 0, parent := none, token := 3, word := -1,
          prevBlank := false, emittingModelScore := 0, lmScore := 0 }]),
   (1, [{ score := 0, lmState := 1, lex := 0, parent := some (0, 0), token := 0, word := 0,
          prevBlank := false, emittingModelScore := 0, lmScore := 0 },
        { score := -1, lmState := 2, lex := 0, parent := some (0, 0), token := 1, word := 1,
          prevBlank := false, emittingModelScore := -1, lmScore := 0 }]),
   (2, [{ score := 0, lmState := 1, lex := 0, parent := some (1, 0), token := 2, word := -1,
          prevBlank := true, emittingModelScore := 0, lmScore := 0 },
        { score := -1, lmState := 2, lex := 0, parent := some (1, 1), token := 2, word := -1,
          prevBlank := true, emittingModelScore := -1, lmScore := 0 }])]

/-- The decoder `twoWordEnv` after `firstCalls`. -/
def twoWordAfterTwo : LexiconDecoder :=
  { hyp := twoWordFrames ++ [(3, [])], nDecodedFrames := 2, nPrunedFrames := 0 }

/-- The decoder `twoWordEnv` after `firstCalls` and `blankCalls`. -/
def twoWordAfterThree : LexiconDecoder :=
  { hyp := twoWordFrames ++
      [(3, [{ score := 0, lmState := 1, lex := 0, parent := some (2, 0), token := 2,
              word := -1, prevBlank := true, emittingModelScore := 0, lmScore := 0 },
            { score := -1, lmState := 2, lex := 0, parent := some (2, 1), token := 2,
              word := -1, prevBlank := true, emittingModelScore := -1, lmScore := 0 }]),
       (4, [])],
    nDecodedFrames := 3, nPrunedFrames := 0 }

/-! ## Decoders over the lexicons `aa → [0, 0]` and `aab → [0, 0, 1]` -/

/-- The trie of the lexicon `aa → [0, 0]` (label 0). -/
def aaTrie : Trie :=
  { node := fun i =>
      match i with
      | 0 => { children := [(0, 1)], labels := [], depth := 0, maxScore := 0 }
      | 1 => { children := [(0, 2)], labels := [], depth := 1, maxScore := 0 }
      | 2 => { children := [], labels := [0], depth := 2, maxScore := 0 }
      | _ => { children := [], labels := [], depth := 0, maxScore := 0 },
    root := 0 }

/-- The beam-of-one CTC decoder over `aaTrie`, without unknown words. -/
def aaEnv : DecoderEnv :=
  { greedyEnv with lexicon := aaTrie }

/-- The trie of the lexicon `aab → [0, 0, 1]` (label 0). -/
def aabTrie : Trie :=
  { node := fun i =>
      match i with
      | 0 => { children := [(0, 1)], labels := [], depth := 0, maxScore := 0 }
      | 1 => { children := [(0, 2)], labels := [], depth := 1, maxScore := 0 }
      | 2 => { children := [(1, 3)], labels := [], depth := 2, maxScore := 0 }
      | 3 => { children := [], labels := [0], depth := 3, maxScore := 0 }
      | _ => { children := [], labels := [], depth := 0, maxScore := 0 },
    root := 0 }

/-- The CTC decoder over `aabTrie` with a beam of four and unknown words
(`unk = 1`, `unkScore = -1`). -/
def aabEnv : DecoderEnv :=
  { abEnv with lexicon := aabTrie }

/-- A hypothesis inside a word after the token `a`: trie node 1, token 0, no
blank before. -/
def afterA : LexiconDecoderState :=
  { score := 0, lmState := 0, lex := 1, parent := some (0, 0), token := 0,
    word := -1, prevBlank := false, emittingModelScore := 0, lmScore := 0 }

/-! ## Where a stored hypothesis comes from -/

/-- A buffer entry `x` stands for the candidate `y`: the same fields except
possibly `score`, and the very same candidate when `logAdd` is off. -/
def KeptAs (env : DecoderEnv) (x y : LexiconDecoderState) : Prop :=
  sameButScore x y ∧ (env.opt.logAdd = false → x = y)

/-- The hypothesis `y` is one of the candidates `decodeStep` proposes from the
live hypothesis `p` (lines 56-234), for some frame and emissions. -/
def Proposes (env : DecoderEnv) (p y : LexiconDecoderState) : Prop :=
  ∃ (nD : Int) (E : Int → Score) (t N : Int) (ref : HypRef),
    Except.ok y ∈ expandHyp env nD E t N ref p

/-- A stored hypothesis `x` written by `decodeStep` from the live hypothesis
`p`. -/
def Derived (env : DecoderEnv) (p x : LexiconDecoderState) : Prop :=
  ∃ y, Proposes env p y ∧ KeptAs env x y

/-- A stored hypothesis `x` written by `decodeEnd` from the live hypothesis
`p`. -/
def Closed (env : DecoderEnv) (p x : LexiconDecoderState) : Prop :=
  ∃ (flag : Bool) (ref : HypRef) (y : LexiconDecoderState),
    y ∈ finishCandidate env flag ref p ∧ KeptAs env x y

/-! ## Chains of hypotheses inside one word -/

/-- What the decoder takes for granted about the lexicon and the word ids: no
child edge of the trie leads back to the root, and word labels and the
unknown-word label are not negative (`word = -1` stands for no word). -/
def WellFormedLexicon (env : DecoderEnv) : Prop :=
  (∀ (i : Nat) (n : Int) (c : Nat),
    findChild (env.lexicon.node i).children n = some c → c ≠ env.lexicon.root) ∧
  (∀ (i : Nat), ∀ l ∈ (env.lexicon.node i).labels, (0 : Int) ≤ l) ∧
  0 ≤ env.unk

/-- The reference `rS` reaches `rR` by `k` parent links, and the `k` states
from `rS` up to the one just below `rR` carry no word (`word = -1`): child
extensions, same-node steps and blanks. -/
def noWordChain (h : HypMap) : Nat → HypRef → HypRef → Bool
  | 0, rS, rR => decide (rS = rR)
  | k + 1, rS, rR =>
    match HypMap.resolve h rS with
    | none => false
    | some s =>
      decide (s.word = -1) &&
        (match s.parent with
         | none => false
         | some rp => noWordChain h k rp rR)

/-- A trie for `ab → [0, 1]` with the look-ahead score `-2` on the branch. -/
def lookaheadTrie : Trie :=
  { node := fun i =>
      match i with
      | 0 => { children := [(0, 1)], labels := [], depth := 0, maxScore := 0 }
      | 1 => { children := [(1, 2)], labels := [], depth := 1, maxScore := -2 }
      | 2 => { children := [], labels := [0], depth := 2, maxScore := -2 }
      | _ => { children := [], labels := [], depth := 0, maxScore := 0 },
    root := 0 }

/-- A language model that scores every word `-2` and records the words seen. -/
def unigramLM : LM :=
  { start := fun _ => 0,
    score := fun s w => (s * 10 + (w.toNat + 1), -2),
    finish := fun s => (s, 0) }

/-- A beam-of-one CTC decoder with a word-level LM of weight 1 and look-ahead
scores in the trie. -/
def lookaheadEnv : DecoderEnv :=
  { greedyEnv with
    opt := { greedyEnv.opt with lmWeight := 1 },
    lexicon := lookaheadTrie, lm := unigramLM }

/-- Two frames: token `a`, then token `b`. -/
def abEmissions : Int → Score :=
  emissionsOf [[0, -9, -9, -9], [-9, 0, -9, -9]] 4

/-- The decoder `lookaheadEnv` after the two frames `abEmissions`: the seed, the
child extension into node 1 and the completion of the word `ab`. -/
def lookaheadAfterTwo : LexiconDecoder :=
  { hyp :=
      [(0, [{ score := 0, lmState := 0, lex := 0, parent := none, token := 3, word := -1,
              prevBlank := false, emittingModelScore := 0, lmScore := 0 }]),
       (1, [{ score := -2, lmState := 0, lex := 1, parent := some (0, 0), token := 0,
              word := -1, prevBlank := false, emittingModelScore := 0, lmScore := -2 }]),
       (2, [{ score := -2, lmState := 1, lex := 0, parent := some (1, 0), token := 1,
              word := 0, prevBlank := false, emittingModelScore := 0, lmScore := -2 }]),
       (3, [])],
    nDecodedFrames := 2, nPrunedFrames := 0 }

/-! ## A decoder with a custom vocabulary

Lexicon `ab → [0, 1]` (label 1) and `aba → [0, 1, 0]` (label 0), both in the
custom vocabulary. -/

/-- The word-completion candidate handed to `candidatesAdd` at lines 148-160,
for a total score `total` and the LM pair `lmSt`. -/
def wordState (env : DecoderEnv) (prevRef : HypRef) (prevHyp : LexiconDecoderState)
    (n : Int) (lmSt : LMStatePtr × Score) (ems total : Score) (label : Int) :
    LexiconDecoderState :=
  { score := total, lmState := lmSt.1, lex := env.lexicon.root,
    parent := some prevRef, token := n, word := label, prevBlank := false,
    emittingModelScore := prevHyp.emittingModelScore + ems,
    lmScore := prevHyp.lmScore + lmSt.2 }

/-- The trie of the lexicon `ab → [0, 1]`, `aba → [0, 1, 0]`. -/
def abaTrie : Trie :=
  { node := fun i =>
      match i with
      | 0 => { children := [(0, 1)], labels := [], depth := 0, maxScore := 0 }
      | 1 => { children := [(1, 2)], labels := [], depth := 1, maxScore := 0 }
      | 2 => { children := [(0, 3)], labels := [1], depth := 2, maxScore := 0 }
      | 3 => { children := [], labels := [0], depth := 3, maxScore := 0 }
      | _ => { children := [], labels := [], depth := 0, maxScore := 0 },
    root := 0 }

/-- A CTC decoder over `abaTrie` with a beam of four, both words in the custom
vocabulary and `customWordFactor = 1`. -/
def customEnv : DecoderEnv :=
  { abEnv with
    opt := { abOptions with unkScore := none, customWordFactor := 1 },
    lexicon := abaTrie,
    dictCustomVocab := fun w => decide (w = 0 ∨ w = 1) }

/-- Three frames: `a`, `b`, `a`, with emissions `-4`, `-4`, `-6`. -/
def abaEmissions : Int → Score :=
  emissionsOf [[-4, -20, -20, -20], [-20, -4, -20, -20], [-6, -20, -20, -20]] 4

/-- The hypothesis of `customEnv` inside the word after `a`, `b`: trie node 2
(depth 2), score `-8`. -/
def afterAB : LexiconDecoderState :=
  { score := -8, lmState := 0, lex := 2, parent := some (1, 0), token := 1,
    word := -1, prevBlank := false, emittingModelScore := -8, lmScore := 0 }

/-- The error of a failed call, if it failed. -/
def errorOf {α : Type} (r : Except DecodeError α) : Option DecodeError :=
  match r with
  | Except.error e => some e
  | Except.ok _ => none

/-- The decoder `twoWordEnv` with the one-token word `a → [0]` (label 0, trie
depth 1) in the custom vocabulary and `customWordFactor = 1`. -/
def oneTokenCustomEnv : DecoderEnv :=
  { twoWordEnv with
    opt := { twoWordEnv.opt with customWordFactor := 1 },
    dictCustomVocab := fun w => decide (w = 0) }

/-- The trie of a lexicon with one word of 17 tokens, `a` seventeen times
(label 0): node `i` is the prefix of length `i`. -/
def longWordTrie : Trie :=
  { node := fun i =>
      if i < 17 then { children := [(0, i + 1)], labels := [], depth := (i : Int), maxScore := 0 }
      else if i = 17 then { children := [], labels := [0], depth := 17, maxScore := 0 }
      else { children := [], labels := [], depth := 0, maxScore := 0 },
    root := 0 }

/-- An ASG decoder over `longWordTrie` with a beam of one, the word in the
custom vocabulary and `customWordFactor = 1`. -/
def longWordEnv : DecoderEnv :=
  { asgEnv with
    opt := { asgEnv.opt with customWordFactor := 1 },
    lexicon := longWordTrie,
    transitions := fun _ => 0,
    dictCustomVocab := fun w => decide (w = 0) }

/-- Emissions over four tokens that prefer token `a = 0` at every frame. -/
def allAEmissions : Int → Score :=
  fun i => if i % 4 = 0 then -1 else -9

deriving instance DecidableEq for Except

/-- The example decoder with a token beam of one token. -/
def narrowEnv : DecoderEnv :=
  { abEnv with opt := { abOptions with beamSizeToken := 1 } }

/-! ## A decoder with the one-token word `a → [0]` -/

/-- The trie of the lexicon `a → [0]` (label 0). -/
def aWordTrie : Trie :=
  { node := fun i =>
      match i with
      | 0 => { children := [(0, 1)], labels := [], depth := 0, maxScore := 0 }
      | 1 => { children := [], labels := [0], depth := 1, maxScore := 0 }
      | _ => { children := [], labels := [], depth := 0, maxScore := 0 },
    root := 0 }

/-- The beam-of-one CTC decoder over `aWordTrie`. -/
def aWordEnv : DecoderEnv :=
  { greedyEnv with lexicon := aWordTrie }

/-- Four frames whose best tokens are `a`, `a`, `BLANK`, `a`. -/
def aabaEmissions : Int → Score :=
  emissionsOf [[0, -1, -2, -3], [0, -1, -2, -3], [-1, -2, 0, -3], [0, -1, -2, -3]] 4

/-- The decoder `aWordEnv` after the four frames `aabaEmissions`: the word `a`,
two blanks, the word `a` again. -/
def aWordAfterFour : LexiconDecoder :=
  { hyp :=
      [(0, [{ score := 0, lmState := 0, lex := 0, parent := none, token := 3, word := -1,
              prevBlank := false, emittingModelScore := 0, lmScore := 0 }]),
       (1, [{ score := 0, lmState := 1, lex := 0, parent := some (0, 0), token := 0,
              word := 0, prevBlank := false, emittingModelScore := 0, lmScore := 0 }]),
       (2, [{ score := -2, lmState := 1, lex := 0, parent := some (1, 0), token := 2,
              word := -1, prevBlank := true, emittingModelScore := -2, lmScore := 0 }]),
       (3, [{ score := -2, lmState := 1, lex := 0, parent := some (2, 0), token := 2,
              word := -1, prevBlank := true, emittingModelScore := -2, lmScore := 0 }]),
       (4, [{ score := -2, lmState := 11, lex := 0, parent := some (3, 0), token := 0,
              word := 0, prevBlank := false, emittingModelScore := -2, lmScore := 0 }]),
       (5, [])],
    nDecodedFrames := 4, nPrunedFrames := 0 }

/-! ## The parts of a score -/

/-- What `score` holds beyond the acoustic and the weighted LM part:
`score - emittingModelScore - lmWeight * lmScore`. -/
def scoreResidual (env : DecoderEnv) (s : LexiconDecoderState) : Score :=
  s.score - s.emittingModelScore - env.opt.lmWeight * s.lmScore

/-- The silence bonus of a step: `silScore` when the token is `SIL` and the
step is not the blank. -/
def silBonus (env : DecoderEnv) (x : LexiconDecoderState) : Score :=
  if x.prevBlank = false ∧ x.token = env.sil then env.opt.silScore else 0

/-- The custom-vocabulary increment of the word completion `x` proposed from
`p`, computed from its base score and the depth of the trie node entered. -/
def customBoost (env : DecoderEnv) (p x : LexiconDecoderState) : Score :=
  match findChild (env.lexicon.node p.lex).children x.token with
  | none => 0
  | some lexId =>
    match scoreIncrement env
        (p.score + (x.emittingModelScore - p.emittingModelScore) + silBonus env x +
          env.opt.lmWeight * (x.lmScore - p.lmScore) + env.opt.wordScore)
        (env.lexicon.node lexId).depth with
    | Except.ok inc => inc
    | Except.error _ => 0

/-- The bonuses `decodeStep` adds on the step from `p` to `x`: the silence
bonus, and for a word the word score with the custom-vocabulary boost, or the
unknown-word score. -/
def stepBonus (env : DecoderEnv) (p x : LexiconDecoderState) : Score :=
  if x.word = -1 then silBonus env x
  else if x.word = env.unk then silBonus env x + env.opt.unkScore.getD 0
  else
    silBonus env x + env.opt.wordScore +
      (if env.dictCustomVocab x.word then customBoost env p x else 0)

/-- The bonuses collected along the parent chain of a stored state: nothing at
a state without parent, `stepBonus` on a step of `decodeStep`, nothing on the
step of `decodeEnd`. -/
inductive ChainBonus (env : DecoderEnv) (h : HypMap) : HypRef → Score → Prop where
  | seed (r : HypRef) (s : LexiconDecoderState) (hs : HypMap.resolve h r = some s)
      (hpar : s.parent = none) : ChainBonus env h r 0
  | step (r rp : HypRef) (s p : LexiconDecoderState) (b : Score)
      (hs : HypMap.resolve h r = some s) (hpar : s.parent = some rp)
      (hp : HypMap.resolve h rp = some p) (hd : Derived env p s)
      (hb : ChainBonus env h rp b) : ChainBonus env h r (b + stepBonus env p s)
  | finish (r rp : HypRef) (s p : LexiconDecoderState) (b : Score)
      (hs : HypMap.resolve h r = some s) (hpar : s.parent = some rp)
      (hp : HypMap.resolve h rp = some p) (hc : Closed env p s)
      (hb : ChainBonus env h rp b) : ChainBonus env h r b

/-- The shape of a hypothesis buffer that may have been pruned: nothing below
frame 0 or above `top`, every stored state satisfies `Q`, and a parent
reference of a state of frame `k` points into frame `k - 1`, to a state related
to it by `R`. -/
def LinkFrames (R : LexiconDecoderState → LexiconDecoderState → Prop)
    (Q : LexiconDecoderState → Prop) (h : HypMap) (top : Int) : Prop :=
  (∀ k : Int, k < 0 → HypMap.get h k = []) ∧
  (∀ k : Int, top < k → HypMap.get h k = []) ∧
  ∀ k : Int, ∀ x ∈ HypMap.get h k,
    Q x ∧ ∀ rp : HypRef, x.parent = some rp →
      rp.1 = k - 1 ∧ ∀ p, HypMap.resolve h rp = some p → R p x

/-! ## `prune` with the look-back passed by reference

`prune` hands `lookBack` to `findBestAncestor` and computes `startFrame` from
it after the call, where it tests `startFrame < 1` a second time (lines
334-337); the comment of line 326 says that the call finds the last emitted
word in the best path. With `lookBack` left as it was, that second test
repeats the test of line 323. The definitions below keep the two apart: the
helper returns the ancestor together with the value it leaves in `lookBack`. -/

/-- The method `LexiconDecoder::prune`, lines 322-343, over a helper `find`
that returns the ancestor and the value it leaves in `lookBack`; `hyp_.find`
of a missing frame is an error. `startFrame`, the frames discarded and
`nPrunedFrames_` are computed from `lookBack` as it is after the call. -/
def pruneWith
    (find : HypMap → Int → List LexiconDecoderState → Int → Option (HypRef × Int))
    (_env : DecoderEnv) (d : LexiconDecoder) (lookBack : Int) :
    Except DecodeError LexiconDecoder :=
  if d.nDecodedFrames - d.nPrunedFrames - lookBack < 1 then Except.ok d
  else
    match HypMap.find d.hyp (d.nDecodedFrames - d.nPrunedFrames) with
    | none => Except.error DecodeError.missingFrame
    | some finalHyps =>
      match find d.hyp (d.nDecodedFrames - d.nPrunedFrames) finalHyps lookBack with
      | none => Except.ok d
      | some (_, walked) =>
        if d.nDecodedFrames - d.nPrunedFrames - walked < 1 then Except.ok d
        else
          Except.ok
            { hyp := pruneAndNormalize d.hyp (d.nDecodedFrames - d.nPrunedFrames - walked) walked,
              nDecodedFrames := d.nDecodedFrames,
              nPrunedFrames := d.nDecodedFrames - walked }

theorem HypMap.find_append (h : HypMap) (k k' : Int) (v : List LexiconDecoderState) :
    HypMap.find (h ++ [(k, v)]) k' =
      match HypMap.find h k' with
      | some x => some x
      | none => if k = k' then some v else none := by
  induction h with
  | nil => simp [HypMap.find]
  | cons kv rest ih =>
    obtain ⟨a, b⟩ := kv
    by_cases hk : a = k'
    · simp [HypMap.find, hk]
    · simp only [List.cons_append, HypMap.find, hk, if_false]
      exact ih

theorem HypMap.find_emplace (h : HypMap) (k k' : Int) (v : List LexiconDecoderState) :
    HypMap.find (HypMap.emplace h k v) k' =
      if k' = k then some ((HypMap.find h k).getD v) else HypMap.find h k' := by
  unfold HypMap.emplace
  cases hf : HypMap.find h k with
  | some x =>
    by_cases hk : k' = k
    · simp [hk, hf]
    · simp [hk]
  | none =>
    rw [HypMap.find_append]
    by_cases hk : k' = k
    · subst hk
      simp [hf]
    · have hk' : ¬ k = k' := fun e => hk e.symm
      cases hf' : HypMap.find h k' <;> simp [hk, hk']

theorem HypMap.find_replace (h : HypMap) (k k' : Int) (v : List LexiconDecoderState) :
    HypMap.find (HypMap.replace h k v) k' =
      if k' = k then (HypMap.find h k).map (fun _ => v) else HypMap.find h k' := by
  induction h with
  | nil => simp [HypMap.replace, HypMap.find]
  | cons kv rest ih =>
    obtain ⟨a, b⟩ := kv
    by_cases hak : a = k
    · subst hak
      by_cases hk : k' = a
      · subst hk
        simp [HypMap.replace, HypMap.find]
      · have hk2 : ¬ a = k' := fun e => hk e.symm
        simp [HypMap.replace, HypMap.find, hk, hk2]
    · by_cases hk : k' = k
      · subst hk
        simp [HypMap.replace, HypMap.find, hak] at ih ⊢
        exact ih
      · by_cases hak' : a = k'
        · simp [HypMap.replace, HypMap.find, hak, hak', hk]
        · simp [HypMap.replace, HypMap.find, hak, hak', hk] at ih ⊢
          exact ih

theorem HypMap.find_set (h : HypMap) (k k' : Int) (v : List LexiconDecoderState) :
    HypMap.find (HypMap.set h k v) k' = if k' = k then some v else HypMap.find h k' := by
  unfold HypMap.set
  rw [HypMap.find_replace]
  by_cases hk : k' = k
  · simp [hk, HypMap.find_emplace]
  · simp [hk, HypMap.find_emplace]

theorem HypMap.get_set (h : HypMap) (k k' : Int) (v : List LexiconDecoderState) :
    HypMap.get (HypMap.set h k v) k' = if k' = k then v else HypMap.get h k' := by
  unfold HypMap.get
  rw [HypMap.find_set]
  by_cases hk : k' = k <;> simp [hk]

theorem HypMap.get_emplace_nil (h : HypMap) (k k' : Int) :
    HypMap.get (HypMap.emplace h k []) k' = HypMap.get h k' := by
  unfold HypMap.get
  rw [HypMap.find_emplace]
  by_cases hk : k' = k
  · subst hk
    cases HypMap.find h k' <;> simp
  · simp [hk]

theorem HypMap.find_emplace_of_some (h : HypMap) (k k' : Int) (v w : List LexiconDecoderState)
    (hf : HypMap.find h k' = some w) : HypMap.find (HypMap.emplace h k v) k' = some w := by
  rw [HypMap.find_emplace]
  by_cases hk : k' = k
  · subst hk
    simp [hf]
  · simp [hk, hf]

theorem HypMap.find_emplace_nil_cases (h : HypMap) (k k' : Int) :
    HypMap.find (HypMap.emplace h k []) k' = HypMap.find h k' ∨
      (HypMap.find h k' = none ∧ HypMap.find (HypMap.emplace h k []) k' = some []) := by
  rw [HypMap.find_emplace]
  by_cases hk : k' = k
  · subst hk
    cases hf : HypMap.find h k' <;> simp
  · simp [hk]

theorem HypMap.find_foldl_emplace_of_some (keys : List Nat) (g : Nat → Int) (h : HypMap)
    (k : Int) (w : List LexiconDecoderState) (hf : HypMap.find h k = some w) :
    HypMap.find (keys.foldl (fun m j => HypMap.emplace m (g j) []) h) k = some w := by
  induction keys generalizing h with
  | nil => simpa using hf
  | cons j rest ih =>
    simp only [List.foldl_cons]
    exact ih _ (HypMap.find_emplace_of_some h (g j) k [] w hf)

theorem HypMap.find_foldl_emplace_cases (keys : List Nat) (g : Nat → Int) (h : HypMap)
    (k : Int) :
    HypMap.find (keys.foldl (fun m j => HypMap.emplace m (g j) []) h) k = HypMap.find h k ∨
      (HypMap.find h k = none ∧
        HypMap.find (keys.foldl (fun m j => HypMap.emplace m (g j) []) h) k = some []) := by
  induction keys generalizing h with
  | nil => left; rfl
  | cons j rest ih =>
    simp only [List.foldl_cons]
    rcases HypMap.find_emplace_nil_cases h (g j) k with h1 | ⟨h1, h2⟩
    · rcases ih (HypMap.emplace h (g j) []) with h3 | ⟨h3, h4⟩
      · left; rw [h3, h1]
      · right; exact ⟨by rw [← h1]; exact h3, h4⟩
    · right
      exact ⟨h1, HypMap.find_foldl_emplace_of_some rest g _ k [] h2⟩

theorem HypMap.find_extend_of_some (h : HypMap) (upTo k : Int) (w : List LexiconDecoderState)
    (hf : HypMap.find h k = some w) : HypMap.find (HypMap.extend h upTo) k = some w := by
  unfold HypMap.extend
  exact HypMap.find_foldl_emplace_of_some _ _ h k w hf

theorem HypMap.find_extend_cases (h : HypMap) (upTo k : Int) :
    HypMap.find (HypMap.extend h upTo) k = HypMap.find h k ∨
      (HypMap.find h k = none ∧ HypMap.find (HypMap.extend h upTo) k = some []) := by
  unfold HypMap.extend
  exact HypMap.find_foldl_emplace_cases _ _ h k

theorem HypMap.get_extend (h : HypMap) (upTo k : Int) :
    HypMap.get (HypMap.extend h upTo) k = HypMap.get h k := by
  unfold HypMap.get
  rcases HypMap.find_extend_cases h upTo k with h1 | ⟨h1, h2⟩
  · rw [h1]
  · rw [h1, h2]; rfl

theorem HypMap.resolve_congr (h h' : HypMap) (hget : ∀ k, HypMap.get h' k = HypMap.get h k)
    (r : HypRef) : HypMap.resolve h' r = HypMap.resolve h r := by
  have := hget r.1
  unfold HypMap.get at this
  unfold HypMap.resolve
  cases h1 : HypMap.find h' r.1 <;> cases h2 : HypMap.find h r.1 <;>
    simp_all [Option.getD]

theorem ancestor_congr (h h' : HypMap) (hres : ∀ r, HypMap.resolve h' r = HypMap.resolve h r)
    (k : Nat) (r : HypRef) : ancestor h' k r = ancestor h k r := by
  induction k generalizing r with
  | zero => rfl
  | succ k ih =>
    simp only [ancestor, hres r, ih]

theorem backtrack_congr (h h' : HypMap) (hres : ∀ r, HypMap.resolve h' r = HypMap.resolve h r)
    (fuel : Nat) (r : Option HypRef) : backtrack h' fuel r = backtrack h fuel r := by
  induction fuel generalizing r with
  | zero => simp [backtrack]
  | succ n ih =>
    cases r with
    | none => simp [backtrack]
    | some r =>
      simp only [backtrack, hres r]
      cases HypMap.resolve h r with
      | none => rfl
      | some s => simp only [ih]

theorem getHypothesis_congr (h h' : HypMap)
    (hres : ∀ r, HypMap.resolve h' r = HypMap.resolve h r)
    (node : Option HypRef) (finalFrame : Int) :
    getHypothesis h' node finalFrame = getHypothesis h node finalFrame := by
  cases node with
  | none => rfl
  | some r =>
    simp only [getHypothesis, hres r, backtrack_congr h h' hres]

theorem findBestAncestor_congr (h h' : HypMap)
    (hres : ∀ r, HypMap.resolve h' r = HypMap.resolve h r)
    (frame : Int) (finalHyps : List LexiconDecoderState) (lookBack : Int) :
    findBestAncestor h' frame finalHyps lookBack = findBestAncestor h frame finalHyps lookBack := by
  unfold findBestAncestor
  cases bestSlotFrom 0 finalHyps with
  | none => rfl
  | some p => exact ancestor_congr h h' hres _ _

/-! ## `decodeBegin` -/

/-- Claim C6. After `decodeBegin`, whatever the decoder held before, `hyp_`
has exactly one frame, frame 0, with exactly one state: score 0, LM state
`lm.start(false)`, `lex` the trie root, no parent, token `SIL`, word `-1`,
`prevBlank` false; both frame counters are 0. -/
theorem decodeBegin_resets (env : DecoderEnv) (d : LexiconDecoder) :
    (decodeBegin env d).hyp =
        [(0, [{ score := 0, lmState := env.lm.start false, lex := env.lexicon.root,
                parent := none, token := env.sil, word := -1, prevBlank := false,
                emittingModelScore := 0, lmScore := 0 }])] ∧
      (decodeBegin env d).nDecodedFrames = 0 ∧
      (decodeBegin env d).nPrunedFrames = 0 := by
  refine ⟨?_, rfl, rfl⟩
  simp [decodeBegin, seedState, HypMap.set, HypMap.emplace, HypMap.find, HypMap.replace]

/-! ## Frames written by `decodeStep` -/

theorem decodeFrame_ok (env : DecoderEnv) (nD : Int) (E : Int → Score) (N start : Int)
    (h h' : HypMap) (t : Int)
    (hd : decodeFrame env nD E N start h t = Except.ok h') :
    ∃ proposals,
      collect (frameProposals env nD E t N (start + t) (HypMap.get h (start + t))) =
        Except.ok proposals ∧
      h' = HypMap.set (HypMap.emplace h (start + t) []) (start + t + 1)
        (candidatesStore (proposals.foldl (candidatesAdd env) candidatesReset).candidates
          (HypMap.get h (start + t + 1)) env.opt.beamSize
          (scoreFloor env (proposals.foldl (candidatesAdd env) candidatesReset))
          env.opt.logAdd false) := by
  unfold decodeFrame at hd
  simp only [HypMap.get_emplace_nil] at hd
  cases hc : collect (frameProposals env nD E t N (start + t) (HypMap.get h (start + t))) with
  | error e => rw [hc] at hd; simp at hd
  | ok proposals =>
    rw [hc] at hd
    simp only [Except.ok.injEq] at hd
    exact ⟨proposals, rfl, hd.symm⟩

theorem decodeFrame_get_other (env : DecoderEnv) (nD : Int) (E : Int → Score) (N start : Int)
    (h h' : HypMap) (t : Int)
    (hd : decodeFrame env nD E N start h t = Except.ok h') (k : Int)
    (hk : k ≠ start + t + 1) : HypMap.get h' k = HypMap.get h k := by
  obtain ⟨proposals, _, rfl⟩ := decodeFrame_ok env nD E N start h h' t hd
  rw [HypMap.get_set, if_neg hk, HypMap.get_emplace_nil]

theorem decodeFrame_present (env : DecoderEnv) (nD : Int) (E : Int → Score) (N start : Int)
    (h h' : HypMap) (t : Int)
    (hd : decodeFrame env nD E N start h t = Except.ok h') (k : Int)
    (hk : HypMap.find h k ≠ none ∨ k = start + t + 1) : HypMap.find h' k ≠ none := by
  obtain ⟨proposals, _, rfl⟩ := decodeFrame_ok env nD E N start h h' t hd
  rw [HypMap.find_set]
  by_cases hk1 : k = start + t + 1
  · simp [hk1]
  · rw [if_neg hk1, HypMap.find_emplace]
    rcases hk with hk | hk
    · by_cases hk2 : k = start + t
      · simp [hk2]
      · simpa [hk2] using hk
    · exact absurd hk hk1

theorem decodeFrames_get_below (env : DecoderEnv) (nD : Int) (E : Int → Score) (N start : Int)
    (count : Nat) : ∀ (t : Nat) (h h' : HypMap),
    decodeFrames env nD E N start t count h = Except.ok h' →
    ∀ k : Int, k ≤ start + (t : Int) → HypMap.get h' k = HypMap.get h k := by
  induction count with
  | zero =>
    intro t h h' hd k _
    simp only [decodeFrames, Except.ok.injEq] at hd
    rw [hd]
  | succ n ih =>
    intro t h h' hd k hk
    simp only [decodeFrames] at hd
    cases hf : decodeFrame env nD E N start h (t : Int) with
    | error e => rw [hf] at hd; simp at hd
    | ok h1 =>
      rw [hf] at hd
      simp only at hd
      rw [ih (t + 1) h1 h' hd k (by push_cast; omega)]
      exact decodeFrame_get_other env nD E N start h h1 t hf k (by omega)

theorem decodeFrames_present (env : DecoderEnv) (nD : Int) (E : Int → Score) (N start : Int)
    (count : Nat) : ∀ (t : Nat) (h h' : HypMap),
    decodeFrames env nD E N start t count h = Except.ok h' →
    ∀ k : Int, (HypMap.find h k ≠ none ∨
        (start + (t : Int) < k ∧ k ≤ start + (t : Int) + (count : Int))) →
      HypMap.find h' k ≠ none := by
  induction count with
  | zero =>
    intro t h h' hd k hk
    simp only [decodeFrames, Except.ok.injEq] at hd
    subst hd
    rcases hk with hk | ⟨h1, h2⟩
    · exact hk
    · exfalso; simp at h2; omega
  | succ n ih =>
    intro t h h' hd k hk
    simp only [decodeFrames] at hd
    cases hf : decodeFrame env nD E N start h (t : Int) with
    | error e => rw [hf] at hd; simp at hd
    | ok h1 =>
      rw [hf] at hd
      simp only at hd
      apply ih (t + 1) h1 h' hd k
      by_cases hk1 : k = start + (t : Int) + 1
      · left
        exact decodeFrame_present env nD E N start h h1 t hf k (Or.inr hk1)
      · rcases hk with hk | ⟨h1', h2⟩
        · left
          exact decodeFrame_present env nD E N start h h1 t hf k (Or.inl hk)
        · right
          push_cast at h2 ⊢
          constructor <;> omega

theorem decodeStep_ok (env : DecoderEnv) (d d' : LexiconDecoder) (E : Int → Score)
    (T N : Int) (hd : decodeStep env d E T N = Except.ok d') :
    decodeFrames env d.nDecodedFrames E N (d.nDecodedFrames - d.nPrunedFrames) 0 T.toNat
        (HypMap.extend d.hyp (d.nDecodedFrames - d.nPrunedFrames + T + 2)) = Except.ok d'.hyp ∧
      d'.nDecodedFrames = d.nDecodedFrames + T ∧ d'.nPrunedFrames = d.nPrunedFrames := by
  unfold decodeStep at hd
  simp only at hd
  by_cases hN : N < 0
  · rw [if_pos hN] at hd
    simp at hd
  rw [if_neg hN] at hd
  cases hf : decodeFrames env d.nDecodedFrames E N (d.nDecodedFrames - d.nPrunedFrames) 0
      T.toNat (HypMap.extend d.hyp (d.nDecodedFrames - d.nPrunedFrames + T + 2)) with
  | error e => rw [hf] at hd; simp at hd
  | ok hyp =>
    rw [hf] at hd
    simp only [Except.ok.injEq] at hd
    subst hd
    exact ⟨rfl, rfl, rfl⟩

theorem decodeStep_nonneg (env : DecoderEnv) (d d' : LexiconDecoder) (E : Int → Score)
    (T N : Int) (hd : decodeStep env d E T N = Except.ok d') : 0 ≤ N := by
  unfold decodeStep at hd
  simp only at hd
  by_cases hN : N < 0
  · rw [if_pos hN] at hd
    simp at hd
  · omega

theorem decodeStep_zero_eq (env : DecoderEnv) (d : LexiconDecoder) (E : Int → Score) (N : Int)
    (hN : 0 ≤ N) :
    decodeStep env d E 0 N =
      Except.ok { hyp := HypMap.extend d.hyp (d.nDecodedFrames - d.nPrunedFrames + 0 + 2),
                  nDecodedFrames := d.nDecodedFrames + 0,
                  nPrunedFrames := d.nPrunedFrames } := by
  have hN' : ¬ N < 0 := by omega
  simp [decodeStep, decodeFrames, hN']

/-! ## Frames after `decodeEnd` and `prune` -/

theorem decodeEnd_get (env : DecoderEnv) (d : LexiconDecoder) (k : Int) :
    HypMap.get (decodeEnd env d).hyp k =
      if k = liveFrame d + 1 then
        candidatesStore
          ((finishProposals env (liveFrame d) (HypMap.get d.hyp (liveFrame d))).foldl
            (candidatesAdd env) candidatesReset).candidates
          (HypMap.get d.hyp (liveFrame d + 1)) env.opt.beamSize
          (scoreFloor env
            ((finishProposals env (liveFrame d) (HypMap.get d.hyp (liveFrame d))).foldl
              (candidatesAdd env) candidatesReset))
          env.opt.logAdd true
      else HypMap.get d.hyp k := by
  unfold decodeEnd liveFrame
  simp only [HypMap.get_set, HypMap.get_emplace_nil]

theorem decodeEnd_present (env : DecoderEnv) (d : LexiconDecoder) (k : Int)
    (hk : HypMap.find d.hyp k ≠ none ∨ k = liveFrame d + 1) :
    HypMap.find (decodeEnd env d).hyp k ≠ none := by
  unfold decodeEnd liveFrame at *
  simp only [HypMap.find_set]
  by_cases hk1 : k = d.nDecodedFrames - d.nPrunedFrames + 1
  · simp [hk1]
  · rw [if_neg hk1, HypMap.find_emplace]
    rcases hk with hk | hk
    · by_cases hk2 : k = d.nDecodedFrames - d.nPrunedFrames
      · simp [hk2]
      · simpa [hk2] using hk
    · exact absurd hk hk1

theorem find_filter_shift (l : HypMap) (s : Int)
    (g : List LexiconDecoderState → List LexiconDecoderState) (k : Int) :
    HypMap.find ((l.filter (fun kv => decide (s ≤ kv.1))).map
        (fun kv => (kv.1 - s, g kv.2))) k =
      if 0 ≤ k then (HypMap.find l (k + s)).map g else none := by
  induction l with
  | nil => simp [HypMap.find]
  | cons kv rest ih =>
    obtain ⟨a, b⟩ := kv
    by_cases hs : s ≤ a
    · simp only [List.filter_cons, hs, decide_True, if_true, List.map_cons, HypMap.find]
      by_cases hak : a - s = k
      · have h1 : a = k + s := by omega
        have h2 : 0 ≤ k := by omega
        simp [hak, h1, h2]
      · have h1 : ¬ a = k + s := by omega
        simp only [hak, h1, if_false]
        exact ih
    · simp only [List.filter_cons, hs, decide_False, HypMap.find, Bool.false_eq_true, if_false]
      rw [ih]
      by_cases hk : 0 ≤ k
      · have h1 : ¬ a = k + s := by omega
        simp [hk, h1]
      · simp [hk]

theorem find_pruneAndNormalize (h : HypMap) (startFrame lookBack k : Int) :
    HypMap.find (pruneAndNormalize h startFrame lookBack) k =
      if 0 ≤ k then
        (HypMap.find h (k + startFrame)).map
          (List.map (rebaseState startFrame (committedScore h startFrame lookBack)))
      else none := by
  unfold pruneAndNormalize
  exact find_filter_shift h startFrame _ k

theorem prune_ok_cases (env : DecoderEnv) (d d' : LexiconDecoder) (lookBack : Int)
    (hp : prune env d lookBack = Except.ok d') :
    d' = d ∨
      (1 ≤ liveFrame d - lookBack ∧
        d' = { hyp := pruneAndNormalize d.hyp (liveFrame d - lookBack) lookBack,
               nDecodedFrames := d.nDecodedFrames,
               nPrunedFrames := d.nDecodedFrames - lookBack }) := by
  unfold prune at hp
  unfold liveFrame
  by_cases hg : d.nDecodedFrames - d.nPrunedFrames - lookBack < 1
  · simp only [hg, if_true, Except.ok.injEq] at hp
    left; exact hp.symm
  · simp only [hg, if_false] at hp
    cases hf : HypMap.find d.hyp (d.nDecodedFrames - d.nPrunedFrames) with
    | none => rw [hf] at hp; simp at hp
    | some finalHyps =>
      rw [hf] at hp
      simp only at hp
      cases hb : findBestAncestor d.hyp (d.nDecodedFrames - d.nPrunedFrames) finalHyps
          lookBack with
      | none =>
        rw [hb] at hp
        simp only [Except.ok.injEq] at hp
        left; exact hp.symm
      | some r =>
        rw [hb] at hp
        simp only [Except.ok.injEq] at hp
        right
        exact ⟨by omega, hp.symm⟩

theorem livePresent_begin (env : DecoderEnv) (d : LexiconDecoder) :
    LivePresent (decodeBegin env d) := by
  refine ⟨by simp [liveFrame, decodeBegin], ?_⟩
  intro k hk0 hk1
  have hk : k = 0 := by
    simp [liveFrame, decodeBegin] at hk1
    omega
  subst hk
  simp [decodeBegin, HypMap.find_set]

theorem livePresent_step (env : DecoderEnv) (d d' : LexiconDecoder) (E : Int → Score)
    (T : Nat) (N : Int) (hd : decodeStep env d E (T : Int) N = Except.ok d')
    (hinv : LivePresent d) : LivePresent d' := by
  obtain ⟨hf, hD, hP⟩ := decodeStep_ok env d d' E T N hd
  obtain ⟨h0, hpres⟩ := hinv
  unfold liveFrame at h0 hpres
  refine ⟨by unfold liveFrame; omega, ?_⟩
  intro k hk0 hk1
  unfold liveFrame at hk1
  rw [hD, hP] at hk1
  apply decodeFrames_present env _ E N _ _ 0 _ d'.hyp hf k
  by_cases hk : k ≤ d.nDecodedFrames - d.nPrunedFrames
  · left
    intro hnone
    rcases HypMap.find_extend_cases d.hyp (d.nDecodedFrames - d.nPrunedFrames + T + 2) k
      with h1 | ⟨_, h2⟩
    · rw [h1] at hnone
      exact hpres k hk0 hk hnone
    · rw [h2] at hnone
      simp at hnone
  · right
    simp only [Int.toNat_ofNat, Nat.cast_zero, add_zero]
    constructor <;> omega

theorem livePresent_finish (env : DecoderEnv) (d : LexiconDecoder) (hinv : LivePresent d) :
    LivePresent (decodeEnd env d) := by
  obtain ⟨h0, hpres⟩ := hinv
  have hl : liveFrame (decodeEnd env d) = liveFrame d + 1 := by
    simp only [liveFrame, decodeEnd]; omega
  refine ⟨by omega, ?_⟩
  intro k hk0 hk1
  apply decodeEnd_present
  by_cases hk : k ≤ liveFrame d
  · left; exact hpres k hk0 hk
  · right; omega

theorem livePresent_prune (env : DecoderEnv) (d d' : LexiconDecoder) (lookBack : Nat)
    (hp : prune env d (lookBack : Int) = Except.ok d') (hinv : LivePresent d) :
    LivePresent d' := by
  rcases prune_ok_cases env d d' lookBack hp with rfl | ⟨hs, rfl⟩
  · exact hinv
  · obtain ⟨h0, hpres⟩ := hinv
    have hl : liveFrame
        { hyp := pruneAndNormalize d.hyp (liveFrame d - lookBack) lookBack,
          nDecodedFrames := d.nDecodedFrames,
          nPrunedFrames := d.nDecodedFrames - lookBack } = (lookBack : Int) := by
      simp [liveFrame]
    refine ⟨by rw [hl]; omega, ?_⟩
    intro k hk0 hk1
    rw [hl] at hk1
    simp only [find_pruneAndNormalize, hk0, if_true]
    have := hpres (k + (liveFrame d - lookBack)) (by omega) (by omega)
    cases hf : HypMap.find d.hyp (k + (liveFrame d - lookBack)) with
    | none => exact absurd hf this
    | some v => simp

theorem reachable_livePresent (env : DecoderEnv) (d : LexiconDecoder)
    (hr : Reachable env d) : LivePresent d := by
  induction hr with
  | begin d0 => exact livePresent_begin env d0
  | step E T N _ hd ih => exact livePresent_step env _ _ E T N hd ih
  | finish _ ih => exact livePresent_finish env _ ih
  | prune L _ hp ih => exact livePresent_prune env _ _ L hp ih

/-! ## `prune` without enough frames -/

/-- The helper read by value. With `findBestAncestor` as spec 4.F words it,
`lookBack` is the same after the call, and `prune(0)` after `decodeBegin` and
`decodeEnd` discards frame 0 and sets the pruned-frame counter to 1. Under that
reading the test of lines 334-337 never fires; `pruneWith` over
`findBestAncestorByRef` returns the decoder unchanged on this input. -/
theorem prune_lookBack_boundary_changes :
    (0 : Int) ≥ (decodeEnd abEnv (decodeBegin abEnv freshDecoder)).nDecodedFrames - 1 ∧
    (prune abEnv (decodeEnd abEnv (decodeBegin abEnv freshDecoder)) 0).toOption =
      some { hyp := [(0, [{ score := 0, lmState := 0, lex := 0, parent := none, token := 3,
                            word := -1, prevBlank := false, emittingModelScore := 0,
                            lmScore := 0 }])],
             nDecodedFrames := 1, nPrunedFrames := 1 } ∧
    (prune abEnv (decodeEnd abEnv (decodeBegin abEnv freshDecoder)) 0).toOption ≠
      some (decodeEnd abEnv (decodeBegin abEnv freshDecoder)) := by
  decide!

/-- The test of line 323: for every decoder state with decoded-frame count `D`
and pruned-frame count `P`, and every `look_back ≥ D - P`, `prune(look_back)`
returns the decoder unchanged, whatever `findBestAncestor` does. -/
theorem prune_noop_of_short_buffer (env : DecoderEnv) (d : LexiconDecoder) (lookBack : Int)
    (hl : d.nDecodedFrames - d.nPrunedFrames ≤ lookBack) :
    prune env d lookBack = Except.ok d := by
  unfold prune
  rw [if_pos (by omega)]

/-- An instance of `prune_noop_of_short_buffer`: one decoded frame,
`look_back = 1`. -/
theorem prune_noop_of_short_buffer_witness :
    (decodeEnd abEnv (decodeBegin abEnv freshDecoder)).nDecodedFrames -
        (decodeEnd abEnv (decodeBegin abEnv freshDecoder)).nPrunedFrames ≤ 1 ∧
      prune abEnv (decodeEnd abEnv (decodeBegin abEnv freshDecoder)) 1 =
        Except.ok (decodeEnd abEnv (decodeBegin abEnv freshDecoder)) :=
  ⟨by decide, prune_noop_of_short_buffer abEnv _ 1 (by decide)⟩

/-! ## `decodeStep` with `T = 0` -/

/-- Claim C10 (as stated, refuted). Right after `decodeBegin` the buffer holds
frame 0 only; `decodeStep` with `T = 0` adds the empty frame 1, so the set of
frames of the hypothesis graph changes. -/
theorem decodeStep_zero_adds_frame :
    HypMap.find (decodeBegin abEnv freshDecoder).hyp 1 = none ∧
    (decodeStep abEnv (decodeBegin abEnv freshDecoder) (fun _ => 0) 0 4).toOption =
      some { hyp := [(0, [{ score := 0, lmState := 0, lex := 0, parent := none, token := 3,
                            word := -1, prevBlank := false, emittingModelScore := 0,
                            lmScore := 0 }]), (1, [])],
             nDecodedFrames := 0, nPrunedFrames := 0 } ∧
    (decodeStep abEnv (decodeBegin abEnv freshDecoder) (fun _ => 0) 0 4).toOption ≠
      some (decodeBegin abEnv freshDecoder) := by
  decide!

/-- Claim C10 (amended). In every reachable state, `decodeStep` with `T = 0`
and `N ≥ 0` succeeds and leaves both frame counters, every existing frame with its states,
and the results of `nHypothesis`, `nDecodedFramesInBuffer` and
`getBestHypothesis` unchanged; a frame key that was absent is absent or empty
afterwards. -/
theorem decodeStep_zero_keeps_frames (env : DecoderEnv) (d : LexiconDecoder)
    (hr : Reachable env d) (E : Int → Score) (N : Int) (hN : 0 ≤ N) :
    ∃ d', decodeStep env d E 0 N = Except.ok d' ∧
      d'.nDecodedFrames = d.nDecodedFrames ∧ d'.nPrunedFrames = d.nPrunedFrames ∧
      (∀ k v, HypMap.find d.hyp k = some v → HypMap.find d'.hyp k = some v) ∧
      (∀ k, HypMap.find d.hyp k = none →
        HypMap.find d'.hyp k = none ∨ HypMap.find d'.hyp k = some []) ∧
      nHypothesis d' = nHypothesis d ∧
      nDecodedFramesInBuffer d' = nDecodedFramesInBuffer d ∧
      ∀ lookBack, getBestHypothesis env d' lookBack = getBestHypothesis env d lookBack := by
  obtain ⟨h0, hpres⟩ := reachable_livePresent env d hr
  refine ⟨_, decodeStep_zero_eq env d E N hN, by simp, rfl, ?_, ?_, ?_, ?_, ?_⟩
  · intro k v hf
    exact HypMap.find_extend_of_some _ _ _ _ hf
  · intro k hf
    rcases HypMap.find_extend_cases d.hyp (d.nDecodedFrames - d.nPrunedFrames + 0 + 2) k
      with h1 | ⟨_, h2⟩
    · left; rw [h1]; exact hf
    · right; exact h2
  · have hlive := hpres (liveFrame d) h0 (le_refl _)
    unfold liveFrame at hlive
    cases hf : HypMap.find d.hyp (d.nDecodedFrames - d.nPrunedFrames) with
    | none => exact absurd hf hlive
    | some v =>
      simp only [nHypothesis, add_zero, hf,
        HypMap.find_extend_of_some d.hyp _ _ v hf]
  · simp [nDecodedFramesInBuffer]
  · intro lookBack
    have hlive := hpres (liveFrame d) h0 (le_refl _)
    unfold liveFrame at hlive
    have hres : ∀ upTo r, HypMap.resolve (HypMap.extend d.hyp upTo) r =
        HypMap.resolve d.hyp r :=
      fun upTo => HypMap.resolve_congr _ _ (fun k => HypMap.get_extend d.hyp upTo k)
    cases hf : HypMap.find d.hyp (d.nDecodedFrames - d.nPrunedFrames) with
    | none => exact absurd hf hlive
    | some v =>
      simp only [getBestHypothesis, add_zero, hf,
        HypMap.find_extend_of_some d.hyp _ _ v hf,
        getHypothesis_congr _ _ (hres _), findBestAncestor_congr _ _ (hres _)]

/-- Witness for `decodeStep_zero_keeps_frames`: the state right after
`decodeBegin`. -/
theorem decodeStep_zero_keeps_frames_witness :
    Reachable abEnv (decodeBegin abEnv freshDecoder) ∧ (0 : Int) ≤ 4 ∧
    ∃ d', decodeStep abEnv (decodeBegin abEnv freshDecoder) (fun _ => 0) 0 4 = Except.ok d' ∧
      d'.nDecodedFrames = (decodeBegin abEnv freshDecoder).nDecodedFrames ∧
      d'.nPrunedFrames = (decodeBegin abEnv freshDecoder).nPrunedFrames ∧
      (∀ k v, HypMap.find (decodeBegin abEnv freshDecoder).hyp k = some v →
        HypMap.find d'.hyp k = some v) ∧
      (∀ k, HypMap.find (decodeBegin abEnv freshDecoder).hyp k = none →
        HypMap.find d'.hyp k = none ∨ HypMap.find d'.hyp k = some []) ∧
      nHypothesis d' = nHypothesis (decodeBegin abEnv freshDecoder) ∧
      nDecodedFramesInBuffer d' = nDecodedFramesInBuffer (decodeBegin abEnv freshDecoder) ∧
      ∀ lookBack, getBestHypothesis abEnv d' lookBack =
        getBestHypothesis abEnv (decodeBegin abEnv freshDecoder) lookBack :=
  ⟨Reachable.begin freshDecoder, by decide,
    decodeStep_zero_keeps_frames abEnv _ (Reachable.begin freshDecoder) (fun _ => 0) 4
      (by decide)⟩

/-! ## The candidate buffer: what is stored was proposed -/

theorem sameButScore_refl (x : LexiconDecoderState) : sameButScore x x :=
  ⟨rfl, rfl, rfl, rfl, rfl, rfl, rfl, rfl⟩

theorem sameButScore_trans {x y z : LexiconDecoderState} (h1 : sameButScore x y)
    (h2 : sameButScore y z) : sameButScore x z := by
  obtain ⟨a1, a2, a3, a4, a5, a6, a7, a8⟩ := h1
  obtain ⟨b1, b2, b3, b4, b5, b6, b7, b8⟩ := h2
  exact ⟨a1.trans b1, a2.trans b2, a3.trans b3, a4.trans b4, a5.trans b5, a6.trans b6,
    a7.trans b7, a8.trans b8⟩

theorem mergeCandidate_same (env : DecoderEnv) (e c : LexiconDecoderState) :
    sameButScore (mergeCandidate env e c) e ∨ sameButScore (mergeCandidate env e c) c := by
  unfold mergeCandidate
  by_cases h : e.score < c.score
  · right; simp only [h, if_true]; exact ⟨rfl, rfl, rfl, rfl, rfl, rfl, rfl, rfl⟩
  · left; simp only [h, if_false]; exact ⟨rfl, rfl, rfl, rfl, rfl, rfl, rfl, rfl⟩

theorem mergeInto_mem (env : DecoderEnv) (c x : LexiconDecoderState)
    (l : List LexiconDecoderState) (hx : x ∈ mergeInto env c l) :
    ∃ y, (y = c ∨ y ∈ l) ∧ sameButScore x y := by
  induction l with
  | nil =>
    simp only [mergeInto, List.mem_singleton] at hx
    subst hx
    exact ⟨x, Or.inl rfl, sameButScore_refl x⟩
  | cons e rest ih =>
    simp only [mergeInto] at hx
    by_cases hk : sameKey env e c = true
    · rw [if_pos hk, List.mem_cons] at hx
      rcases hx with hx | hx
      · subst hx
        rcases mergeCandidate_same env e c with h | h
        · exact ⟨e, Or.inr (List.mem_cons_self _ _), h⟩
        · exact ⟨c, Or.inl rfl, h⟩
      · exact ⟨x, Or.inr (List.mem_cons_of_mem _ hx), sameButScore_refl x⟩
    · rw [if_neg hk, List.mem_cons] at hx
      rcases hx with hx | hx
      · subst hx
        exact ⟨x, Or.inr (List.mem_cons_self _ _), sameButScore_refl x⟩
      · obtain ⟨y, hy, hs⟩ := ih hx
        rcases hy with hy | hy
        · exact ⟨y, Or.inl hy, hs⟩
        · exact ⟨y, Or.inr (List.mem_cons_of_mem _ hy), hs⟩

theorem candidatesAdd_mem (env : DecoderEnv) (buf : CandidateBuffer)
    (c x : LexiconDecoderState) (hx : x ∈ (candidatesAdd env buf c).candidates) :
    ∃ y, (y = c ∨ y ∈ buf.candidates) ∧ sameButScore x y := by
  unfold candidatesAdd at hx
  cases hb : buf.bestScore with
  | none =>
    rw [hb] at hx
    exact mergeInto_mem env c x _ hx
  | some b =>
    rw [hb] at hx
    by_cases hd : c.score < b - env.opt.beamThreshold
    · simp only [hd, if_true] at hx
      exact ⟨x, Or.inr hx, sameButScore_refl x⟩
    · simp only [hd, if_false] at hx
      exact mergeInto_mem env c x _ hx

theorem foldl_candidatesAdd_mem (env : DecoderEnv) (ps : List LexiconDecoderState) :
    ∀ (buf : CandidateBuffer) (x : LexiconDecoderState),
    x ∈ (ps.foldl (candidatesAdd env) buf).candidates →
    ∃ y, (y ∈ ps ∨ y ∈ buf.candidates) ∧ sameButScore x y := by
  induction ps with
  | nil =>
    intro buf x hx
    exact ⟨x, Or.inr hx, sameButScore_refl x⟩
  | cons c rest ih =>
    intro buf x hx
    simp only [List.foldl_cons] at hx
    obtain ⟨y, hy, hs⟩ := ih _ x hx
    rcases hy with hy | hy
    · exact ⟨y, Or.inl (List.mem_cons_of_mem _ hy), hs⟩
    · obtain ⟨z, hz, hs2⟩ := candidatesAdd_mem env buf c y hy
      rcases hz with hz | hz
      · exact ⟨z, Or.inl (hz ▸ List.mem_cons_self _ _), sameButScore_trans hs hs2⟩
      · exact ⟨z, Or.inr hz, sameButScore_trans hs hs2⟩

theorem candidatesStore_mem (cands outputs : List LexiconDecoderState) (beamSize : Int)
    (thr : Option Score) (la rs : Bool) (x : LexiconDecoderState)
    (hx : x ∈ candidatesStore cands outputs beamSize thr la rs) :
    x ∈ outputs ∨ x ∈ cands := by
  unfold candidatesStore at hx
  rw [List.mem_append] at hx
  rcases hx with hx | hx
  · left; exact hx
  · right
    have h1 := List.mem_of_mem_take hx
    rw [List.mem_insertionSort] at h1
    exact (List.mem_filter.mp h1).1

theorem candidatesStore_length (cands outputs : List LexiconDecoderState) (beamSize : Int)
    (thr : Option Score) (la rs : Bool) :
    (candidatesStore cands outputs beamSize thr la rs).length ≤
      outputs.length + beamSize.toNat := by
  unfold candidatesStore
  rw [List.length_append, List.length_take]
  omega

theorem collect_ok (l : List (Except DecodeError LexiconDecoderState)) :
    ∀ ps, collect l = Except.ok ps → l = ps.map Except.ok := by
  induction l with
  | nil =>
    intro ps h
    simp only [collect, Except.ok.injEq] at h
    subst h; rfl
  | cons a rest ih =>
    intro ps h
    cases a with
    | error e => simp [collect] at h
    | ok c =>
      simp only [collect] at h
      cases hc : collect rest with
      | error e => rw [hc] at h; simp at h
      | ok cs =>
        rw [hc] at h
        simp only [Except.ok.injEq] at h
        subst h
        simp [ih cs hc]

theorem collect_mem (l : List (Except DecodeError LexiconDecoderState))
    (ps : List LexiconDecoderState) (h : collect l = Except.ok ps) (y : LexiconDecoderState) :
    y ∈ ps ↔ Except.ok y ∈ l := by
  rw [collect_ok l ps h]
  simp

theorem withRefs_mem (frame : Int) (hyps : List LexiconDecoderState) (r : HypRef)
    (p : LexiconDecoderState) :
    (r, p) ∈ withRefs frame hyps ↔ r.1 = frame ∧ hyps[r.2]? = some p := by
  unfold withRefs
  simp only [List.mem_map, Prod.mk.injEq, Prod.exists]
  constructor
  · rintro ⟨i, q, hm, hr, hq⟩
    rw [List.mk_mem_enum_iff_getElem?] at hm
    subst hq
    rw [← hr]
    exact ⟨rfl, hm⟩
  · rintro ⟨h1, h2⟩
    refine ⟨r.2, p, ?_, ?_, rfl⟩
    · rw [List.mk_mem_enum_iff_getElem?]; exact h2
    · rw [← h1]

/-! ## What `decodeStep` proposes -/

theorem childCandidate_mem (env : DecoderEnv) (ref : HypRef) (p : LexiconDecoderState)
    (n : Int) (lexId : Nat) (ems score : Score) (lmIn : LMStatePtr × Score)
    (hfind : findChild (env.lexicon.node p.lex).children n = some lexId)
    (y : LexiconDecoderState)
    (hy : Except.ok y ∈ childCandidate env ref p n lexId ems score lmIn) :
    y.parent = some ref ∧ y.token = n ∧ Transition env p y := by
  unfold childCandidate at hy
  by_cases h1 : env.opt.criterionType ≠ CriterionType.CTC ∨ p.prevBlank = true ∨ n ≠ p.token
  · by_cases h2 : (env.lexicon.node lexId).children ≠ []
    · rw [if_pos h1, if_pos h2] at hy
      simp only [List.mem_singleton, Except.ok.injEq] at hy
      subst hy
      exact ⟨rfl, rfl, Transition.child lexId hfind rfl rfl rfl h1 h2⟩
    · rw [if_pos h1, if_neg h2] at hy
      simp at hy
  · rw [if_neg h1] at hy
    simp at hy

theorem wordCandidate_mem (env : DecoderEnv) (ref : HypRef) (p : LexiconDecoderState)
    (n : Int) (lexId : Nat) (ems score : Score) (lmIn : LMStatePtr × Score) (label : Int)
    (hfind : findChild (env.lexicon.node p.lex).children n = some lexId)
    (hlabel : label ∈ (env.lexicon.node lexId).labels)
    (y : LexiconDecoderState)
    (hy : Except.ok y ∈ wordCandidate env ref p n lexId ems score lmIn label) :
    y.parent = some ref ∧ y.token = n ∧ Transition env p y := by
  unfold wordCandidate at hy
  by_cases h1 : p.lex = env.lexicon.root ∧ p.token = n
  · rw [if_pos h1] at hy
    simp at hy
  · rw [if_neg h1] at hy
    simp only at hy
    split at hy
    · simp at hy
    · simp only [List.mem_singleton, Except.ok.injEq] at hy
      subst hy
      exact ⟨rfl, rfl, Transition.word lexId hfind hlabel rfl rfl h1⟩

theorem unkCandidate_mem (env : DecoderEnv) (ref : HypRef) (p : LexiconDecoderState)
    (n : Int) (lexId : Nat) (ems score : Score) (lmIn : LMStatePtr × Score)
    (hfind : findChild (env.lexicon.node p.lex).children n = some lexId)
    (y : LexiconDecoderState)
    (hy : Except.ok y ∈ unkCandidate env ref p n lexId ems score lmIn) :
    y.parent = some ref ∧ y.token = n ∧ Transition env p y := by
  unfold unkCandidate at hy
  cases hu : env.opt.unkScore with
  | none => rw [hu] at hy; simp at hy
  | some u =>
    rw [hu] at hy
    simp only at hy
    by_cases h1 : (env.lexicon.node lexId).labels = []
    · rw [if_pos h1] at hy
      simp only [List.mem_singleton, Except.ok.injEq] at hy
      subst hy
      exact ⟨rfl, rfl, Transition.unk lexId hfind h1 (by rw [hu]; simp) rfl rfl rfl⟩
    · rw [if_neg h1] at hy
      simp at hy

theorem tryChild_mem (env : DecoderEnv) (nD : Int) (E : Int → Score) (t N : Int)
    (ref : HypRef) (p : LexiconDecoderState) (n : Int) (y : LexiconDecoderState)
    (hy : Except.ok y ∈ tryChild env nD E t N ref p n) :
    y.parent = some ref ∧ y.token = n ∧ Transition env p y := by
  unfold tryChild at hy
  cases hfind : findChild (env.lexicon.node p.lex).children n with
  | none => rw [hfind] at hy; simp at hy
  | some lexId =>
    rw [hfind] at hy
    simp only [List.mem_append, List.mem_flatMap] at hy
    rcases hy with (hy | ⟨label, hl, hy⟩) | hy
    · exact childCandidate_mem env ref p n lexId _ _ _ hfind y hy
    · exact wordCandidate_mem env ref p n lexId _ _ _ label hfind hl y hy
    · exact unkCandidate_mem env ref p n lexId _ _ _ hfind y hy

theorem trySame_mem (env : DecoderEnv) (nD : Int) (E : Int → Score) (t N : Int)
    (ref : HypRef) (p : LexiconDecoderState) (y : LexiconDecoderState)
    (hy : Except.ok y ∈ trySame env nD E t N ref p) :
    y.parent = some ref ∧ Transition env p y := by
  unfold trySame at hy
  by_cases h1 : env.opt.criterionType ≠ CriterionType.CTC ∨ p.prevBlank = false ∨
      p.lex = env.lexicon.root
  · rw [if_pos h1] at hy
    simp only [List.mem_singleton, Except.ok.injEq] at hy
    subst hy
    exact ⟨rfl, Transition.same h1 rfl rfl rfl rfl⟩
  · rw [if_neg h1] at hy
    simp at hy

theorem tryBlank_mem (env : DecoderEnv) (E : Int → Score) (t N : Int)
    (ref : HypRef) (p : LexiconDecoderState) (y : LexiconDecoderState)
    (hy : Except.ok y ∈ tryBlank env E t N ref p) :
    y.parent = some ref ∧ Transition env p y := by
  unfold tryBlank at hy
  by_cases h1 : env.opt.criterionType = CriterionType.CTC
  · rw [if_pos h1] at hy
    simp only [List.mem_singleton, Except.ok.injEq] at hy
    subst hy
    exact ⟨rfl, Transition.blank h1 rfl rfl rfl rfl⟩
  · rw [if_neg h1] at hy
    simp at hy

theorem expandHyp_mem (env : DecoderEnv) (nD : Int) (E : Int → Score) (t N : Int)
    (ref : HypRef) (p : LexiconDecoderState) (y : LexiconDecoderState)
    (hy : Except.ok y ∈ expandHyp env nD E t N ref p) :
    y.parent = some ref ∧ Transition env p y := by
  unfold expandHyp at hy
  simp only [List.mem_append, List.mem_flatMap] at hy
  rcases hy with (⟨n, _, hy⟩ | hy) | hy
  · obtain ⟨h1, _, h3⟩ := tryChild_mem env nD E t N ref p n y hy
    exact ⟨h1, h3⟩
  · exact trySame_mem env nD E t N ref p y hy
  · exact tryBlank_mem env E t N ref p y hy

theorem transition_of_sameButScore (env : DecoderEnv) (p x y : LexiconDecoderState)
    (hs : sameButScore x y) (ht : Transition env p y) : Transition env p x := by
  obtain ⟨_, a2, _, a4, a5, a6, _, _⟩ := hs
  cases ht with
  | child lexId hfind hlex hword hblank hgate hchildren =>
    exact Transition.child lexId (a4 ▸ hfind) (a2.trans hlex) (a5.trans hword)
      (a6.trans hblank) (a4 ▸ hgate) hchildren
  | word lexId hfind hlabel hlex hblank hskip =>
    exact Transition.word lexId (a4 ▸ hfind) (a5 ▸ hlabel) (a2.trans hlex)
      (a6.trans hblank) (a4 ▸ hskip)
  | unk lexId hfind hlabels hunk hword hlex hblank =>
    exact Transition.unk lexId (a4 ▸ hfind) hlabels hunk (a5.trans hword) (a2.trans hlex)
      (a6.trans hblank)
  | same hguard htoken hlex hword hblank =>
    exact Transition.same hguard (a4.trans htoken) (a2.trans hlex) (a5.trans hword)
      (a6.trans hblank)
  | blank hctc htoken hlex hword hblank =>
    exact Transition.blank hctc (a4.trans htoken) (a2.trans hlex) (a5.trans hword)
      (a6.trans hblank)

/-! ## The hypothesis graph without pruning -/

theorem decodeFrame_get_new (env : DecoderEnv) (nD : Int) (E : Int → Score) (N start : Int)
    (h h' : HypMap) (t : Int)
    (hd : decodeFrame env nD E N start h t = Except.ok h') :
    ∃ proposals,
      collect (frameProposals env nD E t N (start + t) (HypMap.get h (start + t))) =
        Except.ok proposals ∧
      HypMap.get h' (start + t + 1) =
        candidatesStore (proposals.foldl (candidatesAdd env) candidatesReset).candidates
          (HypMap.get h (start + t + 1)) env.opt.beamSize
          (scoreFloor env (proposals.foldl (candidatesAdd env) candidatesReset))
          env.opt.logAdd false := by
  obtain ⟨proposals, hc, rfl⟩ := decodeFrame_ok env nD E N start h h' t hd
  exact ⟨proposals, hc, by rw [HypMap.get_set, if_pos rfl]⟩

theorem frameProposals_mem (env : DecoderEnv) (nD : Int) (E : Int → Score) (t N frame : Int)
    (hyps : List LexiconDecoderState) (y : LexiconDecoderState)
    (hy : Except.ok y ∈ frameProposals env nD E t N frame hyps) :
    ∃ (slot : Nat) (p : LexiconDecoderState),
      hyps[slot]? = some p ∧ Except.ok y ∈ expandHyp env nD E t N (frame, slot) p := by
  unfold frameProposals at hy
  rw [List.mem_flatMap] at hy
  obtain ⟨⟨r, p⟩, hm, hy⟩ := hy
  rw [withRefs_mem] at hm
  obtain ⟨h1, h2⟩ := hm
  refine ⟨r.2, p, h2, ?_⟩
  have : r = (frame, r.2) := by rw [← h1]
  rw [← this]
  exact hy

theorem decodeFrame_new_mem (env : DecoderEnv) (nD : Int) (E : Int → Score) (N start : Int)
    (h h' : HypMap) (t : Int)
    (hd : decodeFrame env nD E N start h t = Except.ok h')
    (hempty : HypMap.get h (start + t + 1) = [])
    (x : LexiconDecoderState) (hx : x ∈ HypMap.get h' (start + t + 1)) :
    ∃ (slot : Nat) (p : LexiconDecoderState),
      x.parent = some (start + t, slot) ∧ (HypMap.get h (start + t))[slot]? = some p ∧
      Transition env p x := by
  obtain ⟨proposals, hc, hg⟩ := decodeFrame_get_new env nD E N start h h' t hd
  rw [hg, hempty] at hx
  rcases candidatesStore_mem _ _ _ _ _ _ x hx with hx | hx
  · simp at hx
  · obtain ⟨y, hy, hs⟩ := foldl_candidatesAdd_mem env proposals candidatesReset x hx
    rcases hy with hy | hy
    · rw [collect_mem _ _ hc] at hy
      obtain ⟨slot, p, hp, hy⟩ := frameProposals_mem env nD E t N _ _ y hy
      obtain ⟨hpar, htr⟩ := expandHyp_mem env nD E t N _ p y hy
      exact ⟨slot, p, hs.2.2.1.trans hpar, hp, transition_of_sameButScore env p x y hs htr⟩
    · simp [candidatesReset] at hy

theorem framesInv_congr (R : LexiconDecoderState → LexiconDecoderState → Prop)
    (env : DecoderEnv) (h h' : HypMap) (top : Int)
    (hget : ∀ k, HypMap.get h' k = HypMap.get h k) (hinv : FramesInv R env h top) :
    FramesInv R env h' top := by
  obtain ⟨h0, hneg, htop, hlink⟩ := hinv
  refine ⟨by rw [hget]; exact h0, fun k hk => by rw [hget]; exact hneg k hk,
    fun k hk => by rw [hget]; exact htop k hk, ?_⟩
  intro k hk x hx
  rw [hget] at hx
  obtain ⟨slot, p, h1, h2, h3⟩ := hlink k hk x hx
  exact ⟨slot, p, h1, by rw [hget]; exact h2, h3⟩

theorem framesInv_decodeFrame (R : LexiconDecoderState → LexiconDecoderState → Prop)
    (env : DecoderEnv) (hR : ∀ p x, Transition env p x → R p x)
    (nD : Int) (E : Int → Score) (N start : Int) (h h' : HypMap) (t : Int)
    (h0 : 0 ≤ start + t) (hinv : FramesInv R env h (start + t))
    (hd : decodeFrame env nD E N start h t = Except.ok h') :
    FramesInv R env h' (start + t + 1) := by
  obtain ⟨hseed, hneg, htop, hlink⟩ := hinv
  have hother : ∀ k, k ≠ start + t + 1 → HypMap.get h' k = HypMap.get h k :=
    fun k hk => decodeFrame_get_other env nD E N start h h' t hd k hk
  refine ⟨?_, ?_, ?_, ?_⟩
  · rw [hother 0 (by omega)]; exact hseed
  · intro k hk
    rw [hother k (by omega)]; exact hneg k hk
  · intro k hk
    rw [hother k (by omega)]; exact htop k (by omega)
  · intro k hk x hx
    by_cases hk1 : k = start + t + 1
    · subst hk1
      obtain ⟨slot, p, hp1, hp2, hp3⟩ :=
        decodeFrame_new_mem env nD E N start h h' t hd (htop _ (by omega)) x hx
      refine ⟨slot, p, ?_, ?_, hR p x hp3⟩
      · rw [hp1]; simp
      · rw [hother _ (by omega)]
        have : start + t + 1 - 1 = start + t := by omega
        rw [this]; exact hp2
    · rw [hother k hk1] at hx
      obtain ⟨slot, p, hp1, hp2, hp3⟩ := hlink k hk x hx
      refine ⟨slot, p, hp1, ?_, hp3⟩
      by_cases hk2 : k - 1 = start + t + 1
      · have : HypMap.get h k = [] := htop k (by omega)
        rw [this] at hx
        simp at hx
      · rw [hother _ hk2]; exact hp2

theorem framesInv_decodeFrames (R : LexiconDecoderState → LexiconDecoderState → Prop)
    (env : DecoderEnv) (hR : ∀ p x, Transition env p x → R p x)
    (nD : Int) (E : Int → Score) (N start : Int) (h0 : 0 ≤ start) (count : Nat) :
    ∀ (t : Nat) (h h' : HypMap), FramesInv R env h (start + (t : Int)) →
    decodeFrames env nD E N start t count h = Except.ok h' →
    FramesInv R env h' (start + (t : Int) + (count : Int)) := by
  induction count with
  | zero =>
    intro t h h' hinv hd
    simp only [decodeFrames, Except.ok.injEq] at hd
    subst hd
    simpa using hinv
  | succ n ih =>
    intro t h h' hinv hd
    simp only [decodeFrames] at hd
    cases hf : decodeFrame env nD E N start h (t : Int) with
    | error e => rw [hf] at hd; simp at hd
    | ok h1 =>
      rw [hf] at hd
      simp only at hd
      have hstep := framesInv_decodeFrame R env hR nD E N start h h1 t (by omega) hinv hf
      have e1 : start + ((t + 1 : Nat) : Int) = start + (t : Int) + 1 := by
        push_cast; omega
      have := ih (t + 1) h1 h' (by rw [e1]; exact hstep) hd
      have e2 : start + ((t + 1 : Nat) : Int) + (n : Int) =
          start + (t : Int) + ((n + 1 : Nat) : Int) := by
        push_cast; omega
      rw [← e2]; exact this

theorem graphInv_begin (R : LexiconDecoderState → LexiconDecoderState → Prop)
    (env : DecoderEnv) (d : LexiconDecoder) : GraphInv R env (decodeBegin env d) := by
  have hget : ∀ k, HypMap.get (decodeBegin env d).hyp k = if k = 0 then [seedState env] else [] := by
    intro k
    simp only [decodeBegin, HypMap.get_set, HypMap.get_emplace_nil]
    by_cases hk : k = 0 <;> simp [hk, HypMap.get, HypMap.find]
  refine ⟨by simp [liveFrame, decodeBegin], ?_, ?_, ?_, ?_⟩
  · rw [hget]; simp
  · intro k hk
    rw [hget, if_neg (by omega)]
  · intro k hk
    have : liveFrame (decodeBegin env d) = 0 := by simp [liveFrame, decodeBegin]
    rw [hget, if_neg (by omega)]
  · intro k hk x hx
    rw [hget, if_neg (by omega)] at hx
    simp at hx

theorem graphInv_step (R : LexiconDecoderState → LexiconDecoderState → Prop)
    (env : DecoderEnv) (hR : ∀ p x, Transition env p x → R p x)
    (d d' : LexiconDecoder) (E : Int → Score) (T : Nat) (N : Int)
    (hd : decodeStep env d E (T : Int) N = Except.ok d') (hinv : GraphInv R env d) :
    GraphInv R env d' := by
  obtain ⟨hf, hD, hP⟩ := decodeStep_ok env d d' E T N hd
  obtain ⟨h0, hfr⟩ := hinv
  unfold liveFrame at h0 hfr
  have hlive : liveFrame d' = d.nDecodedFrames - d.nPrunedFrames + (T : Int) := by
    unfold liveFrame; omega
  refine ⟨by rw [hlive]; omega, ?_⟩
  rw [hlive]
  have hext := framesInv_congr R env d.hyp
    (HypMap.extend d.hyp (d.nDecodedFrames - d.nPrunedFrames + T + 2)) _
    (fun k => HypMap.get_extend d.hyp _ k) hfr
  have := framesInv_decodeFrames R env hR d.nDecodedFrames E N
    (d.nDecodedFrames - d.nPrunedFrames) h0 T 0 _ d'.hyp (by simpa using hext)
    (by simpa using hf)
  simpa using this

theorem finishProposals_mem (env : DecoderEnv) (frame : Int)
    (hyps : List LexiconDecoderState) (c : LexiconDecoderState) :
    c ∈ finishProposals env frame hyps ↔
      ∃ (slot : Nat) (p : LexiconDecoderState), hyps[slot]? = some p ∧
        (p.lex = env.lexicon.root ∨ ∀ q ∈ hyps, q.lex ≠ env.lexicon.root) ∧
        c = { score := p.score + env.opt.lmWeight * (env.lm.finish p.lmState).2,
              lmState := (env.lm.finish p.lmState).1, lex := p.lex,
              parent := some (frame, slot), token := env.sil, word := -1,
              prevBlank := false, emittingModelScore := p.emittingModelScore,
              lmScore := p.lmScore + (env.lm.finish p.lmState).2 } := by
  have hnice : hasNiceEnding env hyps = false ↔ ∀ q ∈ hyps, q.lex ≠ env.lexicon.root := by
    unfold hasNiceEnding
    rw [List.any_eq_false]
    simp
  unfold finishProposals
  rw [List.mem_flatMap]
  constructor
  · rintro ⟨⟨r, p⟩, hm, hc⟩
    rw [withRefs_mem] at hm
    obtain ⟨h1, h2⟩ := hm
    unfold finishCandidate at hc
    by_cases hg : hasNiceEnding env hyps = false ∨ p.lex = env.lexicon.root
    · rw [if_pos hg, List.mem_singleton] at hc
      refine ⟨r.2, p, h2, ?_, ?_⟩
      · rcases hg with hg | hg
        · right; exact hnice.mp hg
        · left; exact hg
      · have : r = (frame, r.2) := by rw [← h1]
        rw [hc, ← this]
    · rw [if_neg hg] at hc
      simp at hc
  · rintro ⟨slot, p, hp, hg, hc⟩
    refine ⟨((frame, slot), p), ?_, ?_⟩
    · rw [withRefs_mem]; exact ⟨rfl, hp⟩
    · unfold finishCandidate
      have hg' : hasNiceEnding env hyps = false ∨ p.lex = env.lexicon.root := by
        rcases hg with hg | hg
        · right; exact hg
        · left; exact hnice.mpr hg
      rw [if_pos hg', List.mem_singleton]
      exact hc

theorem decodeEnd_new_mem (env : DecoderEnv) (d : LexiconDecoder)
    (hempty : HypMap.get d.hyp (liveFrame d + 1) = [])
    (x : LexiconDecoderState) (hx : x ∈ HypMap.get (decodeEnd env d).hyp (liveFrame d + 1)) :
    ∃ (slot : Nat) (p : LexiconDecoderState),
      x.parent = some (liveFrame d, slot) ∧ (HypMap.get d.hyp (liveFrame d))[slot]? = some p ∧
      FinishLink env p x := by
  rw [decodeEnd_get, if_pos rfl, hempty] at hx
  rcases candidatesStore_mem _ _ _ _ _ _ x hx with hx | hx
  · simp at hx
  · obtain ⟨y, hy, hs⟩ := foldl_candidatesAdd_mem env _ candidatesReset x hx
    rcases hy with hy | hy
    · rw [finishProposals_mem] at hy
      obtain ⟨slot, p, hp, _, hc⟩ := hy
      obtain ⟨_, a2, a3, a4, a5, a6, _, _⟩ := hs
      subst hc
      exact ⟨slot, p, a3, hp, a4, a5, a6, a2⟩
    · simp [candidatesReset] at hy

theorem graphInv_finish (R : LexiconDecoderState → LexiconDecoderState → Prop)
    (env : DecoderEnv) (hR : ∀ p x, FinishLink env p x → R p x)
    (d : LexiconDecoder) (hinv : GraphInv R env d) : GraphInv R env (decodeEnd env d) := by
  obtain ⟨h0, hseed, hneg, htop, hlink⟩ := hinv
  have hlive : liveFrame (decodeEnd env d) = liveFrame d + 1 := by
    simp only [liveFrame, decodeEnd]; omega
  have hother : ∀ k, k ≠ liveFrame d + 1 →
      HypMap.get (decodeEnd env d).hyp k = HypMap.get d.hyp k :=
    fun k hk => by rw [decodeEnd_get, if_neg hk]
  refine ⟨by omega, ?_, ?_, ?_, ?_⟩
  · rw [hother 0 (by omega)]; exact hseed
  · intro k hk
    rw [hother k (by omega)]; exact hneg k hk
  · intro k hk
    rw [hother k (by omega)]; exact htop k (by omega)
  · intro k hk x hx
    by_cases hk1 : k = liveFrame d + 1
    · subst hk1
      obtain ⟨slot, p, hp1, hp2, hp3⟩ := decodeEnd_new_mem env d (htop _ (by omega)) x hx
      refine ⟨slot, p, ?_, ?_, hR p x hp3⟩
      · rw [hp1]; simp
      · rw [hother _ (by omega)]
        have : liveFrame d + 1 - 1 = liveFrame d := by omega
        rw [this]; exact hp2
    · rw [hother k hk1] at hx
      obtain ⟨slot, p, hp1, hp2, hp3⟩ := hlink k hk x hx
      refine ⟨slot, p, hp1, ?_, hp3⟩
      by_cases hk2 : k - 1 = liveFrame d + 1
      · have : HypMap.get d.hyp k = [] := htop k (by omega)
        rw [this] at hx
        simp at hx
      · rw [hother _ hk2]; exact hp2

theorem reachableBySteps_graphInv (env : DecoderEnv) (d : LexiconDecoder)
    (hr : ReachableBySteps env d) : GraphInv (Transition env) env d := by
  induction hr with
  | begin d0 => exact graphInv_begin _ env d0
  | step E T N _ hd ih => exact graphInv_step _ env (fun _ _ h => h) _ _ E T N hd ih

theorem reachableNoPrune_graphInv (env : DecoderEnv) (d : LexiconDecoder)
    (hr : ReachableNoPrune env d) :
    GraphInv (fun p x => Transition env p x ∨ FinishLink env p x) env d := by
  induction hr with
  | begin d0 => exact graphInv_begin _ env d0
  | step E T N _ hd ih => exact graphInv_step _ env (fun _ _ h => Or.inl h) _ _ E T N hd ih
  | finish _ ih => exact graphInv_finish _ env (fun _ _ h => Or.inr h) _ ih

theorem HypMap.resolve_eq_get (h : HypMap) (k : Int) (slot : Nat) :
    HypMap.resolve h (k, slot) = (HypMap.get h k)[slot]? := by
  unfold HypMap.resolve HypMap.get
  cases HypMap.find h k <;> simp

theorem framesInv_ancestor (R : LexiconDecoderState → LexiconDecoderState → Prop)
    (env : DecoderEnv) (h : HypMap) (top : Int) (hinv : FramesInv R env h top) :
    ∀ (n : Nat) (slot : Nat) (s : LexiconDecoderState),
      (HypMap.get h (n : Int))[slot]? = some s →
      ancestor h n ((n : Int), slot) = some (0, 0) := by
  obtain ⟨hseed, _, _, hlink⟩ := hinv
  intro n
  induction n with
  | zero =>
    intro slot s hs
    simp only [Nat.cast_zero, hseed] at hs
    have hslot : slot = 0 := by
      cases slot with
      | zero => rfl
      | succ m => simp at hs
    subst hslot
    simp [ancestor]
  | succ n ih =>
    intro slot s hs
    have hmem : s ∈ HypMap.get h ((n + 1 : Nat) : Int) := List.getElem?_mem hs
    obtain ⟨slot', p, hp1, hp2, _⟩ := hlink _ (by push_cast; omega) s hmem
    have e : ((n + 1 : Nat) : Int) - 1 = (n : Int) := by push_cast; omega
    rw [e] at hp1 hp2
    simp only [ancestor, HypMap.resolve_eq_get, hs, hp1]
    exact ih slot' p hp2

/-! ## Example runs -/

theorem except_of_toOption {α : Type} (r : Except DecodeError α) (a : α)
    (h : r.toOption = some a) : r = Except.ok a := by
  cases r with
  | error e => simp [Except.toOption] at h
  | ok b =>
    simp only [Except.toOption, Option.some.injEq] at h
    rw [h]

theorem abAfterOne_run :
    decodeStep abEnv (decodeBegin abEnv freshDecoder) aaEmissions 1 4 = Except.ok abAfterOne :=
  except_of_toOption _ _ (by decide!)

theorem greedyAfterTwo_run :
    decodeStep greedyEnv (decodeBegin greedyEnv freshDecoder) aaEmissions 2 4 =
      Except.ok greedyAfterTwo :=
  except_of_toOption _ _ (by decide!)

/-! ## Parent chains -/

/-- Claim C5. In every state reached by `decodeBegin` followed by `decodeStep`
and `decodeEnd` calls, a state stored at frame `f` has `f ≥ 0`; at `f = 0` it is
the seed; at `f ≥ 1` its parent is a state of frame `f - 1`; and following `f`
parent links from it ends at slot 0 of frame 0, the seed, which has no
parent. -/
theorem parent_chain_depth (env : DecoderEnv) (d : LexiconDecoder)
    (hr : ReachableNoPrune env d) (f : Int) (slot : Nat) (s : LexiconDecoderState)
    (hs : HypMap.resolve d.hyp (f, slot) = some s) :
    0 ≤ f ∧
    (f = 0 → s = seedState env) ∧
    (1 ≤ f → ∃ (slot' : Nat) (p : LexiconDecoderState),
      s.parent = some (f - 1, slot') ∧ HypMap.resolve d.hyp (f - 1, slot') = some p) ∧
    ancestor d.hyp f.toNat (f, slot) = some (0, 0) ∧
    HypMap.resolve d.hyp (0, 0) = some (seedState env) ∧
    (seedState env).parent = none := by
  obtain ⟨_, hfr⟩ := reachableNoPrune_graphInv env d hr
  have hfr' := hfr
  obtain ⟨hseed, hneg, _, hlink⟩ := hfr
  rw [HypMap.resolve_eq_get] at hs
  have hmem : s ∈ HypMap.get d.hyp f := List.getElem?_mem hs
  have hf0 : 0 ≤ f := by
    by_contra hlt
    rw [hneg f (by omega)] at hmem
    simp at hmem
  refine ⟨hf0, ?_, ?_, ?_, ?_, rfl⟩
  · intro hf
    subst hf
    rw [hseed] at hmem
    simpa using hmem
  · intro hf
    obtain ⟨slot', p, hp1, hp2, _⟩ := hlink f hf s hmem
    exact ⟨slot', p, hp1, by rw [HypMap.resolve_eq_get]; exact hp2⟩
  · have hcast : ((f.toNat : Nat) : Int) = f := Int.toNat_of_nonneg hf0
    have := framesInv_ancestor _ env d.hyp _ hfr' f.toNat slot s (by rw [hcast]; exact hs)
    rw [hcast] at this
    exact this
  · rw [HypMap.resolve_eq_get, hseed]
    rfl

/-- Witness for `parent_chain_depth`: the final state after `decodeBegin` and
`decodeEnd`, at frame 1. -/
theorem parent_chain_depth_witness :
    ReachableNoPrune abEnv abEnded ∧
    HypMap.resolve abEnded.hyp (1, 0) = some abFinalState ∧
    (0 : Int) ≤ 1 ∧
    ((1 : Int) = 0 → abFinalState = seedState abEnv) ∧
    ((1 : Int) ≤ 1 → ∃ (slot' : Nat) (p : LexiconDecoderState),
      abFinalState.parent = some ((1 : Int) - 1, slot') ∧
      HypMap.resolve abEnded.hyp ((1 : Int) - 1, slot') = some p) ∧
    ancestor abEnded.hyp (1 : Int).toNat (1, 0) = some (0, 0) ∧
    HypMap.resolve abEnded.hyp (0, 0) = some (seedState abEnv) ∧
    (seedState abEnv).parent = none :=
  ⟨ReachableNoPrune.finish (ReachableNoPrune.begin freshDecoder), by decide!,
    parent_chain_depth abEnv abEnded
      (ReachableNoPrune.finish (ReachableNoPrune.begin freshDecoder))
      1 0 abFinalState (by decide!)⟩

/-! ## Word emission -/

/-- Claim C3 (as stated, refuted). In the example decoder with the lexicon
`ab → [0, 1]`, one frame that prefers token `a` stores a state with
`word = UNK` (slot 1 of frame 1, token 0, parent the seed); it was created on
entering node 1, which has no labels but still has the child `b`. -/
theorem unk_emitted_at_node_with_children :
    (decodeStep abEnv (decodeBegin abEnv freshDecoder) aaEmissions 1 4).toOption.map
        (fun d => HypMap.resolve d.hyp (1, 1)) =
      some (some { score := -1, lmState := 2, lex := 0, parent := some (0, 0), token := 0,
                   word := abEnv.unk, prevBlank := false, emittingModelScore := 0,
                   lmScore := 0 }) ∧
    (0 : Int) ≤ abEnv.unk ∧
    findChild (abEnv.lexicon.node (seedState abEnv).lex).children 0 = some 1 ∧
    (abEnv.lexicon.node 1).labels = [] ∧
    (abEnv.lexicon.node 1).children = [(1, 2)] := by
  decide!

/-- Claim C3 (amended). In every state reached by `decodeBegin` followed by
`decodeStep` calls, a stored state with `word ≥ 0` has its parent in the
previous frame and was created by the transition into the trie child of the
parent's node under the state's token; either that child's labels are
non-empty and contain the word, or the word is `UNK` and the child has no
labels (whether or not it has children). -/
theorem word_emission_sites (env : DecoderEnv) (d : LexiconDecoder)
    (hr : ReachableBySteps env d) (f : Int) (slot : Nat) (s : LexiconDecoderState)
    (hs : HypMap.resolve d.hyp (f, slot) = some s) (hw : 0 ≤ s.word) :
    ∃ (slot' : Nat) (p : LexiconDecoderState) (lexId : Nat),
      s.parent = some (f - 1, slot') ∧ HypMap.resolve d.hyp (f - 1, slot') = some p ∧
      findChild (env.lexicon.node p.lex).children s.token = some lexId ∧
      (((env.lexicon.node lexId).labels ≠ [] ∧ s.word ∈ (env.lexicon.node lexId).labels) ∨
        (s.word = env.unk ∧ (env.lexicon.node lexId).labels = [])) := by
  obtain ⟨_, hseed, hneg, _, hlink⟩ := reachableBySteps_graphInv env d hr
  rw [HypMap.resolve_eq_get] at hs
  have hmem : s ∈ HypMap.get d.hyp f := List.getElem?_mem hs
  have hf1 : 1 ≤ f := by
    by_contra hlt
    by_cases hf0 : f = 0
    · subst hf0
      rw [hseed] at hmem
      simp only [List.mem_singleton] at hmem
      rw [hmem] at hw
      simp [seedState] at hw
    · rw [hneg f (by omega)] at hmem
      simp at hmem
  obtain ⟨slot', p, hp1, hp2, htr⟩ := hlink f hf1 s hmem
  rw [← HypMap.resolve_eq_get] at hp2
  cases htr with
  | child lexId hfind hlex hword hblank hgate hchildren => rw [hword] at hw; simp at hw
  | word lexId hfind hlabel hlex hblank hskip =>
    exact ⟨slot', p, lexId, hp1, hp2, hfind, Or.inl ⟨List.ne_nil_of_mem hlabel, hlabel⟩⟩
  | unk lexId hfind hlabels hunk hword hlex hblank =>
    exact ⟨slot', p, lexId, hp1, hp2, hfind, Or.inr ⟨hword, hlabels⟩⟩
  | same hguard htoken hlex hword hblank => rw [hword] at hw; simp at hw
  | blank hctc htoken hlex hword hblank => rw [hword] at hw; simp at hw

/-- Witness for `word_emission_sites`: the unknown-word state of frame 1 of
the example run. -/
theorem word_emission_sites_witness :
    ReachableBySteps abEnv abAfterOne ∧
    HypMap.resolve abAfterOne.hyp (1, 1) =
      some { score := -1, lmState := 2, lex := 0, parent := some (0, 0), token := 0,
             word := 1, prevBlank := false, emittingModelScore := 0, lmScore := 0 } ∧
    ∃ (slot' : Nat) (p : LexiconDecoderState) (lexId : Nat),
      (some (0, 0) : Option HypRef) = some ((1 : Int) - 1, slot') ∧
      HypMap.resolve abAfterOne.hyp ((1 : Int) - 1, slot') = some p ∧
      findChild (abEnv.lexicon.node p.lex).children 0 = some lexId ∧
      (((abEnv.lexicon.node lexId).labels ≠ [] ∧
          (1 : Int) ∈ (abEnv.lexicon.node lexId).labels) ∨
        ((1 : Int) = abEnv.unk ∧ (abEnv.lexicon.node lexId).labels = [])) :=
  ⟨ReachableBySteps.step aaEmissions 1 4 (ReachableBySteps.begin freshDecoder) abAfterOne_run,
    by decide!,
    word_emission_sites abEnv abAfterOne
      (ReachableBySteps.step aaEmissions 1 4 (ReachableBySteps.begin freshDecoder)
        abAfterOne_run)
      1 1 _ (by decide! : HypMap.resolve abAfterOne.hyp (1, 1) =
        some { score := -1, lmState := 2, lex := 0, parent := some (0, 0), token := 0,
               word := 1, prevBlank := false, emittingModelScore := 0, lmScore := 0 })
      (by decide)⟩

/-! ## The CTC repeat rule -/

theorem transition_prevBlank_token (env : DecoderEnv) (q p : LexiconDecoderState)
    (ht : Transition env q p) (hb : p.prevBlank = true) : p.token = env.blank := by
  cases ht with
  | child lexId hfind hlex hword hblank hgate hchildren => rw [hblank] at hb; simp at hb
  | word lexId hfind hlabel hlex hblank hskip => rw [hblank] at hb; simp at hb
  | unk lexId hfind hlabels hunk hword hlex hblank => rw [hblank] at hb; simp at hb
  | same hguard htoken hlex hword hblank => rw [hblank] at hb; simp at hb
  | blank hctc htoken hlex hword hblank => exact htoken

/-- Claim C2 (as stated, refuted). With criterion CTC and the lexicon
`ab → [0, 1]`, two frames that prefer token `a` leave the live hypothesis
`(2, 0)` with token `a = 0`, whose parent `(1, 0)` also has token `a`, whose
parent is the seed: the tokens along the parent chain are `[SIL, a, a]`, the
same-node branch repeating the non-blank token `a` with no blank in between. -/
theorem ctc_same_node_repeats_token :
    greedyEnv.opt.criterionType = CriterionType.CTC ∧
    (decodeStep greedyEnv (decodeBegin greedyEnv freshDecoder) aaEmissions 2 4).toOption =
      some greedyAfterTwo ∧
    liveFrame greedyAfterTwo = 2 ∧
    HypMap.resolve greedyAfterTwo.hyp (2, 0) =
      some { score := 0, lmState := 0, lex := 1, parent := some (1, 0), token := 0,
             word := -1, prevBlank := false, emittingModelScore := 0, lmScore := 0 } ∧
    HypMap.resolve greedyAfterTwo.hyp (1, 0) =
      some { score := 0, lmState := 0, lex := 1, parent := some (0, 0), token := 0,
             word := -1, prevBlank := false, emittingModelScore := 0, lmScore := 0 } ∧
    HypMap.resolve greedyAfterTwo.hyp (0, 0) = some (seedState greedyEnv) ∧
    (0 : Int) ≠ greedyEnv.blank := by
  decide!

/-- Claim C2 (amended). With criterion CTC, in every state reached by
`decodeBegin` followed by `decodeStep` calls, when a stored state carries the
same non-blank token as its parent it did not advance the trie to a child
inside a word: either it stays on the lexicon node of its parent with
`word = -1` (the repeat that CTC collapses), or it closes a word (a label of
the child entered, or `UNK` at a child without labels) and is back at the
root. -/
theorem ctc_repeat_keeps_node_or_closes_word (env : DecoderEnv) (d : LexiconDecoder)
    (hctc : env.opt.criterionType = CriterionType.CTC)
    (hr : ReachableBySteps env d) (f : Int) (slot : Nat) (s : LexiconDecoderState)
    (hs : HypMap.resolve d.hyp (f, slot) = some s)
    (r : HypRef) (p : LexiconDecoderState)
    (hpar : s.parent = some r) (hp : HypMap.resolve d.hyp r = some p)
    (heq : s.token = p.token) (hnb : s.token ≠ env.blank) :
    (s.lex = p.lex ∧ s.word = -1) ∨
      (s.lex = env.lexicon.root ∧
        ∃ lexId, findChild (env.lexicon.node p.lex).children s.token = some lexId ∧
          (s.word ∈ (env.lexicon.node lexId).labels ∨
            (s.word = env.unk ∧ (env.lexicon.node lexId).labels = []))) := by
  obtain ⟨_, hseed, hneg, _, hlink⟩ := reachableBySteps_graphInv env d hr
  rw [HypMap.resolve_eq_get] at hs
  have hmem : s ∈ HypMap.get d.hyp f := List.getElem?_mem hs
  have hf1 : 1 ≤ f := by
    by_contra hlt
    by_cases hf0 : f = 0
    · subst hf0
      rw [hseed] at hmem
      simp only [List.mem_singleton] at hmem
      rw [hmem] at hpar
      simp [seedState] at hpar
    · rw [hneg f (by omega)] at hmem
      simp at hmem
  obtain ⟨slot', p', hp1, hp2, htr⟩ := hlink f hf1 s hmem
  have hr' : r = (f - 1, slot') := by
    rw [hpar] at hp1
    exact Option.some.inj hp1
  subst hr'
  rw [HypMap.resolve_eq_get, hp2] at hp
  have hpp : p' = p := Option.some.inj hp
  subst hpp
  have hpb : p'.prevBlank = true → p'.token = env.blank := by
    intro hb
    have hpmem : p' ∈ HypMap.get d.hyp (f - 1) := List.getElem?_mem hp2
    by_cases hf2 : f - 1 = 0
    · rw [hf2, hseed] at hpmem
      simp only [List.mem_singleton] at hpmem
      rw [hpmem] at hb
      simp [seedState] at hb
    · obtain ⟨_, q, _, _, hq⟩ := hlink (f - 1) (by omega) p' hpmem
      exact transition_prevBlank_token env q p' hq hb
  cases htr with
  | child lexId hfind hlex hword hblank hgate hchildren =>
    exfalso
    rcases hgate with hg | hg | hg
    · exact hg hctc
    · exact hnb (heq.trans (hpb hg))
    · exact hg heq
  | word lexId hfind hlabel hlex hblank hskip =>
    exact Or.inr ⟨hlex, lexId, hfind, Or.inl hlabel⟩
  | unk lexId hfind hlabels hunk hword hlex hblank =>
    exact Or.inr ⟨hlex, lexId, hfind, Or.inr ⟨hword, hlabels⟩⟩
  | same hguard htoken hlex hword hblank => exact Or.inl ⟨hlex, hword⟩
  | blank hctc' htoken hlex hword hblank => exact Or.inl ⟨hlex, hword⟩

/-- Witness for `ctc_repeat_keeps_node_or_closes_word`: the repeated `a` of the
two-frame run stays on node 1. -/
theorem ctc_repeat_keeps_node_or_closes_word_witness :
    greedyEnv.opt.criterionType = CriterionType.CTC ∧
    ReachableBySteps greedyEnv greedyAfterTwo ∧
    HypMap.resolve greedyAfterTwo.hyp (2, 0) =
      some { score := 0, lmState := 0, lex := 1, parent := some (1, 0), token := 0,
             word := -1, prevBlank := false, emittingModelScore := 0, lmScore := 0 } ∧
    HypMap.resolve greedyAfterTwo.hyp (1, 0) =
      some { score := 0, lmState := 0, lex := 1, parent := some (0, 0), token := 0,
             word := -1, prevBlank := false, emittingModelScore := 0, lmScore := 0 } ∧
    (((1 : Nat) = 1 ∧ (-1 : Int) = -1) ∨
      ((1 : Nat) = greedyEnv.lexicon.root ∧
        ∃ lexId, findChild (greedyEnv.lexicon.node 1).children 0 = some lexId ∧
          ((-1 : Int) ∈ (greedyEnv.lexicon.node lexId).labels ∨
            ((-1 : Int) = greedyEnv.unk ∧ (greedyEnv.lexicon.node lexId).labels = [])))) :=
  ⟨rfl,
    ReachableBySteps.step aaEmissions 2 4 (ReachableBySteps.begin freshDecoder)
      greedyAfterTwo_run,
    by decide!, by decide!,
    ctc_repeat_keeps_node_or_closes_word greedyEnv greedyAfterTwo rfl
      (ReachableBySteps.step aaEmissions 2 4 (ReachableBySteps.begin freshDecoder)
        greedyAfterTwo_run)
      2 0
      { score := 0, lmState := 0, lex := 1, parent := some (1, 0), token := 0,
        word := -1, prevBlank := false, emittingModelScore := 0, lmScore := 0 }
      (by decide!) (1, 0)
      { score := 0, lmState := 0, lex := 1, parent := some (0, 0), token := 0,
        word := -1, prevBlank := false, emittingModelScore := 0, lmScore := 0 }
      rfl (by decide!) rfl (by decide)⟩

/-! ## `decodeEnd` -/

theorem candidatesStore_append (cands outputs : List LexiconDecoderState) (beamSize : Int)
    (thr : Option Score) (la rs : Bool) :
    candidatesStore cands outputs beamSize thr la rs =
      outputs ++ candidatesStore cands [] beamSize thr la rs := by
  simp [candidatesStore]

theorem decodeEnd_after_begin (env : DecoderEnv) (hv : ValidOptions env) (d0 : LexiconDecoder) :
    (decodeEnd env (decodeBegin env d0)).hyp =
      [(0, [seedState env]),
       (1, [{ score := env.opt.lmWeight * (env.lm.finish (env.lm.start false)).2,
              lmState := (env.lm.finish (env.lm.start false)).1,
              lex := env.lexicon.root, parent := some (0, 0), token := env.sil, word := -1,
              prevBlank := false, emittingModelScore := 0,
              lmScore := (env.lm.finish (env.lm.start false)).2 }])] := by
  obtain ⟨hb, _, ht⟩ := hv
  have hbeam : ∃ n, env.opt.beamSize.toNat = n + 1 := ⟨env.opt.beamSize.toNat - 1, by omega⟩
  obtain ⟨n, hn⟩ := hbeam
  simp [decodeEnd, decodeBegin, seedState, HypMap.set, HypMap.emplace, HypMap.find,
    HypMap.replace, HypMap.get, finishProposals, withRefs, finishCandidate, hasNiceEnding,
    candidatesAdd, candidatesReset, mergeInto, candidatesStore, scoreFloor, aboveFloor, ht, hn]

/-- Claim C7. With `L` the live frame: `decodeEnd` appends to frame `L + 1`
only states with token `SIL`, word `-1`, `prevBlank` false, the `lex` of their
parent and a parent in frame `L`; a live hypothesis contributes a candidate,
scored `parent.score + lmWeight * delta` with `delta` from `lm.finish`, exactly
when its `lex` is the trie root or no live hypothesis is at the root; the
decoded-frame counter grows by 1 and the pruned-frame counter is unchanged.
With valid options, `decodeEnd` right after `decodeBegin` leaves frame 0 with
the seed and frame 1 with exactly one hypothesis, the child of the seed, of
score `lmWeight * delta` for `lm.finish(lm.start(false))`. -/
theorem decodeEnd_closing_policy (env : DecoderEnv) (d : LexiconDecoder) :
    (∃ stored, HypMap.get (decodeEnd env d).hyp (liveFrame d + 1) =
        HypMap.get d.hyp (liveFrame d + 1) ++ stored ∧
      ∀ x ∈ stored, ∃ (slot : Nat) (p : LexiconDecoderState),
        x.parent = some (liveFrame d, slot) ∧
        (HypMap.get d.hyp (liveFrame d))[slot]? = some p ∧
        x.token = env.sil ∧ x.word = -1 ∧ x.prevBlank = false ∧ x.lex = p.lex) ∧
    (∀ c, c ∈ finishProposals env (liveFrame d) (HypMap.get d.hyp (liveFrame d)) ↔
      ∃ (slot : Nat) (p : LexiconDecoderState),
        (HypMap.get d.hyp (liveFrame d))[slot]? = some p ∧
        (p.lex = env.lexicon.root ∨
          ∀ q ∈ HypMap.get d.hyp (liveFrame d), q.lex ≠ env.lexicon.root) ∧
        c = { score := p.score + env.opt.lmWeight * (env.lm.finish p.lmState).2,
              lmState := (env.lm.finish p.lmState).1, lex := p.lex,
              parent := some (liveFrame d, slot), token := env.sil, word := -1,
              prevBlank := false, emittingModelScore := p.emittingModelScore,
              lmScore := p.lmScore + (env.lm.finish p.lmState).2 }) ∧
    (decodeEnd env d).nDecodedFrames = d.nDecodedFrames + 1 ∧
    (decodeEnd env d).nPrunedFrames = d.nPrunedFrames ∧
    (ValidOptions env → ∀ d0 : LexiconDecoder,
      (decodeEnd env (decodeBegin env d0)).hyp =
        [(0, [seedState env]),
         (1, [{ score := env.opt.lmWeight * (env.lm.finish (env.lm.start false)).2,
                lmState := (env.lm.finish (env.lm.start false)).1,
                lex := env.lexicon.root, parent := some (0, 0), token := env.sil, word := -1,
                prevBlank := false, emittingModelScore := 0,
                lmScore := (env.lm.finish (env.lm.start false)).2 }])]) := by
  refine ⟨?_, fun c => finishProposals_mem env _ _ c, rfl, rfl,
    fun hv d0 => decodeEnd_after_begin env hv d0⟩
  refine ⟨candidatesStore
      ((finishProposals env (liveFrame d) (HypMap.get d.hyp (liveFrame d))).foldl
        (candidatesAdd env) candidatesReset).candidates
      [] env.opt.beamSize
      (scoreFloor env
        ((finishProposals env (liveFrame d) (HypMap.get d.hyp (liveFrame d))).foldl
          (candidatesAdd env) candidatesReset))
      env.opt.logAdd true, ?_, ?_⟩
  · rw [decodeEnd_get, if_pos rfl]
    exact candidatesStore_append _ _ _ _ _ _
  · intro x hx
    rcases candidatesStore_mem _ _ _ _ _ _ x hx with hx | hx
    · simp at hx
    · obtain ⟨y, hy, hs⟩ := foldl_candidatesAdd_mem env _ candidatesReset x hx
      rcases hy with hy | hy
      · rw [finishProposals_mem] at hy
        obtain ⟨slot, p, hp, _, hc⟩ := hy
        obtain ⟨_, a2, a3, a4, a5, a6, _, _⟩ := hs
        subst hc
        exact ⟨slot, p, a3, hp, a4, a5, a6, a2⟩
      · simp [candidatesReset] at hy

/-- Witness for `decodeEnd_closing_policy`: the options of the example decoder
are valid and `decodeEnd` after `decodeBegin` leaves the seed and its child. -/
theorem decodeEnd_closing_policy_witness :
    ValidOptions abEnv ∧
    (decodeEnd abEnv (decodeBegin abEnv freshDecoder)).hyp =
      [(0, [seedState abEnv]),
       (1, [{ score := abEnv.opt.lmWeight * (abEnv.lm.finish (abEnv.lm.start false)).2,
              lmState := (abEnv.lm.finish (abEnv.lm.start false)).1,
              lex := abEnv.lexicon.root, parent := some (0, 0), token := abEnv.sil,
              word := -1, prevBlank := false, emittingModelScore := 0,
              lmScore := (abEnv.lm.finish (abEnv.lm.start false)).2 }])] :=
  ⟨by decide!,
    (decodeEnd_closing_policy abEnv freshDecoder).2.2.2.2 (by decide!) freshDecoder⟩

/-! ## The beam bound -/

theorem get_pruneAndNormalize (h : HypMap) (startFrame lookBack k : Int) :
    HypMap.get (pruneAndNormalize h startFrame lookBack) k =
      if 0 ≤ k then
        (HypMap.get h (k + startFrame)).map
          (rebaseState startFrame (committedScore h startFrame lookBack))
      else [] := by
  unfold HypMap.get
  rw [find_pruneAndNormalize]
  by_cases hk : 0 ≤ k
  · simp only [hk, if_true]
    cases HypMap.find h (k + startFrame) <;> simp
  · simp [hk]

theorem beamFrames_congr (env : DecoderEnv) (h h' : HypMap) (top : Int)
    (hget : ∀ k, HypMap.get h' k = HypMap.get h k) (hinv : BeamFrames env h top) :
    BeamFrames env h' top :=
  ⟨fun k => by rw [hget]; exact hinv.1 k, fun k hk => by rw [hget]; exact hinv.2 k hk⟩

theorem candidatesStore_beam (env : DecoderEnv) (hb : 1 ≤ env.opt.beamSize)
    (cands : List LexiconDecoderState) (thr : Option Score) (la rs : Bool) :
    ((candidatesStore cands [] env.opt.beamSize thr la rs).length : Int) ≤ env.opt.beamSize := by
  have := candidatesStore_length cands [] env.opt.beamSize thr la rs
  simp only [List.length_nil, zero_add] at this
  omega

theorem beamFrames_decodeFrame (env : DecoderEnv) (hb : 1 ≤ env.opt.beamSize)
    (nD : Int) (E : Int → Score) (N start : Int) (h h' : HypMap) (t : Int)
    (hinv : BeamFrames env h (start + t))
    (hd : decodeFrame env nD E N start h t = Except.ok h') :
    BeamFrames env h' (start + t + 1) := by
  obtain ⟨hlen, htop⟩ := hinv
  have hother : ∀ k, k ≠ start + t + 1 → HypMap.get h' k = HypMap.get h k :=
    fun k hk => decodeFrame_get_other env nD E N start h h' t hd k hk
  obtain ⟨proposals, _, hnew⟩ := decodeFrame_get_new env nD E N start h h' t hd
  rw [htop (start + t + 1) (by omega)] at hnew
  refine ⟨?_, ?_⟩
  · intro k
    by_cases hk : k = start + t + 1
    · rw [hk, hnew]
      exact candidatesStore_beam env hb _ _ _ _
    · rw [hother k hk]; exact hlen k
  · intro k hk
    rw [hother k (by omega)]
    exact htop k (by omega)

theorem beamFrames_decodeFrames (env : DecoderEnv) (hb : 1 ≤ env.opt.beamSize)
    (nD : Int) (E : Int → Score) (N start : Int) (count : Nat) :
    ∀ (t : Nat) (h h' : HypMap), BeamFrames env h (start + (t : Int)) →
    decodeFrames env nD E N start t count h = Except.ok h' →
    BeamFrames env h' (start + (t : Int) + (count : Int)) := by
  induction count with
  | zero =>
    intro t h h' hinv hd
    simp only [decodeFrames, Except.ok.injEq] at hd
    subst hd
    simpa using hinv
  | succ n ih =>
    intro t h h' hinv hd
    simp only [decodeFrames] at hd
    cases hf : decodeFrame env nD E N start h (t : Int) with
    | error e => rw [hf] at hd; simp at hd
    | ok h1 =>
      rw [hf] at hd
      simp only at hd
      have hstep := beamFrames_decodeFrame env hb nD E N start h h1 t hinv hf
      have e1 : start + ((t + 1 : Nat) : Int) = start + (t : Int) + 1 := by
        push_cast; omega
      have := ih (t + 1) h1 h' (by rw [e1]; exact hstep) hd
      have e2 : start + ((t + 1 : Nat) : Int) + (n : Int) =
          start + (t : Int) + ((n + 1 : Nat) : Int) := by
        push_cast; omega
      rw [← e2]; exact this

theorem reachable_beamFrames (env : DecoderEnv) (hb : 1 ≤ env.opt.beamSize)
    (d : LexiconDecoder) (hr : Reachable env d) : BeamFrames env d.hyp (liveFrame d) := by
  induction hr with
  | begin d0 =>
    have hget : ∀ k, HypMap.get (decodeBegin env d0).hyp k =
        if k = 0 then [seedState env] else [] := by
      intro k
      simp only [decodeBegin, HypMap.get_set, HypMap.get_emplace_nil]
      by_cases hk : k = 0 <;> simp [hk, HypMap.get, HypMap.find]
    refine ⟨?_, ?_⟩
    · intro k
      rw [hget]
      by_cases hk : k = 0
      · simp only [hk, if_true, List.length_singleton]; exact_mod_cast hb
      · simp only [hk, if_false, List.length_nil]; push_cast; omega
    · intro k hk
      have : liveFrame (decodeBegin env d0) = 0 := by simp [liveFrame, decodeBegin]
      rw [hget, if_neg (by omega)]
  | @step d d' E T N _ hd ih =>
    obtain ⟨hf, hD, hP⟩ := decodeStep_ok env d d' E T N hd
    unfold liveFrame at ih
    have hlive : liveFrame d' = d.nDecodedFrames - d.nPrunedFrames + (T : Int) := by
      unfold liveFrame; omega
    rw [hlive]
    have hext := beamFrames_congr env d.hyp
      (HypMap.extend d.hyp (d.nDecodedFrames - d.nPrunedFrames + T + 2)) _
      (fun k => HypMap.get_extend d.hyp _ k) ih
    have := beamFrames_decodeFrames env hb d.nDecodedFrames E N
      (d.nDecodedFrames - d.nPrunedFrames) T 0 _ d'.hyp (by simpa using hext)
      (by simpa using hf)
    simpa using this
  | @finish d _ ih =>
    obtain ⟨hlen, htop⟩ := ih
    have hlive : liveFrame (decodeEnd env d) = liveFrame d + 1 := by
      simp only [liveFrame, decodeEnd]; omega
    refine ⟨?_, ?_⟩
    · intro k
      rw [decodeEnd_get]
      by_cases hk : k = liveFrame d + 1
      · rw [if_pos hk, htop (liveFrame d + 1) (by omega)]
        exact candidatesStore_beam env hb _ _ _ _
      · rw [if_neg hk]; exact hlen k
    · intro k hk
      rw [decodeEnd_get, if_neg (by omega)]
      exact htop k (by omega)
  | @prune d d' L _ hp ih =>
    rcases prune_ok_cases env d d' L hp with rfl | ⟨hs, rfl⟩
    · exact ih
    · obtain ⟨hlen, htop⟩ := ih
      have hl : liveFrame
          { hyp := pruneAndNormalize d.hyp (liveFrame d - L) L,
            nDecodedFrames := d.nDecodedFrames,
            nPrunedFrames := d.nDecodedFrames - L } = (L : Int) := by
        simp [liveFrame]
      rw [hl]
      refine ⟨?_, ?_⟩
      · intro k
        simp only [get_pruneAndNormalize]
        by_cases hk : 0 ≤ k
        · simp only [hk, if_true, List.length_map]; exact hlen _
        · simp only [hk, if_false, List.length_nil]; push_cast; omega
      · intro k hk
        simp only [get_pruneAndNormalize]
        by_cases hk0 : 0 ≤ k
        · simp only [hk0, if_true]
          rw [htop (k + (liveFrame d - L)) (by omega)]
          rfl
        · simp [hk0]

/-- Claim C4. With `beamSize ≥ 1`, in every state reached by `decodeBegin`,
`decodeStep`, `decodeEnd` and `prune`, every frame of `hyp_` holds at most
`beamSize` hypotheses. -/
theorem beam_bound (env : DecoderEnv) (hb : 1 ≤ env.opt.beamSize) (d : LexiconDecoder)
    (hr : Reachable env d) (f : Int) (v : List LexiconDecoderState)
    (hf : HypMap.find d.hyp f = some v) : (v.length : Int) ≤ env.opt.beamSize := by
  have := (reachable_beamFrames env hb d hr).1 f
  unfold HypMap.get at this
  rw [hf] at this
  exact this

/-- Witness for `beam_bound`: frame 1 of the example run holds 4 states for a
beam of 4. -/
theorem beam_bound_witness :
    1 ≤ abEnv.opt.beamSize ∧ Reachable abEnv abAfterOne ∧
    HypMap.find abAfterOne.hyp 1 = some abFrameOne ∧
    (abFrameOne.length : Int) ≤ abEnv.opt.beamSize :=
  ⟨by decide, Reachable.step aaEmissions 1 4 (Reachable.begin freshDecoder) abAfterOne_run,
    by decide!,
    beam_bound abEnv (by decide) abAfterOne
      (Reachable.step aaEmissions 1 4 (Reachable.begin freshDecoder) abAfterOne_run)
      1 abFrameOne (by decide!)⟩

/-! ## The best candidate survives -/

theorem mergeCandidate_score_ge (env : DecoderEnv)
    (hls : env.opt.logAdd = true → ∀ a b, max a b ≤ env.logSumExp a b)
    (e c : LexiconDecoderState) :
    e.score ≤ (mergeCandidate env e c).score ∧ c.score ≤ (mergeCandidate env e c).score := by
  have hs : max e.score c.score ≤
      (if env.opt.logAdd then env.logSumExp e.score c.score else max e.score c.score) := by
    by_cases hl : env.opt.logAdd = true
    · rw [if_pos hl]; exact hls hl _ _
    · rw [if_neg hl]
  have hsc : (mergeCandidate env e c).score =
      (if env.opt.logAdd then env.logSumExp e.score c.score else max e.score c.score) := by
    unfold mergeCandidate
    by_cases h : e.score < c.score
    · simp only [h, if_true]
    · simp only [h, if_false]
  rw [hsc]
  exact ⟨le_trans (le_max_left _ _) hs, le_trans (le_max_right _ _) hs⟩

theorem mergeInto_ge_new (env : DecoderEnv)
    (hls : env.opt.logAdd = true → ∀ a b, max a b ≤ env.logSumExp a b)
    (c : LexiconDecoderState) (l : List LexiconDecoderState) :
    ∃ x ∈ mergeInto env c l, c.score ≤ x.score := by
  induction l with
  | nil => exact ⟨c, by simp [mergeInto], le_refl _⟩
  | cons e rest ih =>
    simp only [mergeInto]
    by_cases hk : sameKey env e c = true
    · rw [if_pos hk]
      exact ⟨mergeCandidate env e c, List.mem_cons_self _ _,
        (mergeCandidate_score_ge env hls e c).2⟩
    · rw [if_neg hk]
      obtain ⟨x, hx, hle⟩ := ih
      exact ⟨x, List.mem_cons_of_mem _ hx, hle⟩

theorem mergeInto_ge_old (env : DecoderEnv)
    (hls : env.opt.logAdd = true → ∀ a b, max a b ≤ env.logSumExp a b)
    (c : LexiconDecoderState) (l : List LexiconDecoderState) (x : LexiconDecoderState)
    (hx : x ∈ l) : ∃ x' ∈ mergeInto env c l, x.score ≤ x'.score := by
  induction l with
  | nil => simp at hx
  | cons e rest ih =>
    simp only [mergeInto]
    by_cases hk : sameKey env e c = true
    · rw [if_pos hk]
      rcases List.mem_cons.mp hx with hx | hx
      · subst hx
        exact ⟨mergeCandidate env x c, List.mem_cons_self _ _,
          (mergeCandidate_score_ge env hls x c).1⟩
      · exact ⟨x, List.mem_cons_of_mem _ hx, le_refl _⟩
    · rw [if_neg hk]
      rcases List.mem_cons.mp hx with hx | hx
      · subst hx
        exact ⟨x, List.mem_cons_self _ _, le_refl _⟩
      · obtain ⟨x', hx', hle⟩ := ih hx
        exact ⟨x', List.mem_cons_of_mem _ hx', hle⟩

theorem candidatesAdd_holdsBest (env : DecoderEnv)
    (hls : env.opt.logAdd = true → ∀ a b, max a b ≤ env.logSumExp a b)
    (buf : CandidateBuffer) (c : LexiconDecoderState) (hinv : BufferHoldsBest buf) :
    BufferHoldsBest (candidatesAdd env buf c) := by
  unfold candidatesAdd
  cases hb : buf.bestScore with
  | none =>
    intro b hbb
    simp only [Option.some.injEq] at hbb
    subst hbb
    exact mergeInto_ge_new env hls c _
  | some b0 =>
    by_cases hd : c.score < b0 - env.opt.beamThreshold
    · simp only [hd, if_true]
      exact hinv
    · simp only [hd, if_false]
      intro b hbb
      simp only [Option.some.injEq] at hbb
      subst hbb
      by_cases hmax : b0 ≤ c.score
      · rw [max_eq_right hmax]
        exact mergeInto_ge_new env hls c _
      · rw [max_eq_left (le_of_lt (not_le.mp hmax))]
        obtain ⟨x, hx, hle⟩ := hinv b0 hb
        obtain ⟨x', hx', hle'⟩ := mergeInto_ge_old env hls c _ x hx
        exact ⟨x', hx', le_trans hle hle'⟩

theorem candidatesAdd_best_new (env : DecoderEnv) (ht : 0 ≤ env.opt.beamThreshold)
    (buf : CandidateBuffer) (c : LexiconDecoderState) :
    BestAtLeast (candidatesAdd env buf c) c.score := by
  unfold candidatesAdd
  cases hb : buf.bestScore with
  | none => exact ⟨c.score, rfl, le_refl _⟩
  | some b0 =>
    by_cases hd : c.score < b0 - env.opt.beamThreshold
    · simp only [hd, if_true]
      exact ⟨b0, hb, by linarith⟩
    · simp only [hd, if_false]
      exact ⟨max b0 c.score, rfl, le_max_right _ _⟩

theorem candidatesAdd_best_mono (env : DecoderEnv)
    (buf : CandidateBuffer) (c : LexiconDecoderState) (s : Score)
    (hs : BestAtLeast buf s) : BestAtLeast (candidatesAdd env buf c) s := by
  obtain ⟨b0, hb, hle⟩ := hs
  unfold candidatesAdd
  rw [hb]
  by_cases hd : c.score < b0 - env.opt.beamThreshold
  · simp only [hd, if_true]
    exact ⟨b0, hb, hle⟩
  · simp only [hd, if_false]
    exact ⟨max b0 c.score, rfl, le_trans hle (le_max_left _ _)⟩

theorem foldl_candidatesAdd_holdsBest (env : DecoderEnv)
    (hls : env.opt.logAdd = true → ∀ a b, max a b ≤ env.logSumExp a b)
    (ps : List LexiconDecoderState) :
    ∀ buf, BufferHoldsBest buf → BufferHoldsBest (ps.foldl (candidatesAdd env) buf) := by
  induction ps with
  | nil => intro buf h; exact h
  | cons c rest ih =>
    intro buf h
    simp only [List.foldl_cons]
    exact ih _ (candidatesAdd_holdsBest env hls buf c h)

theorem foldl_candidatesAdd_best_mono (env : DecoderEnv) (ps : List LexiconDecoderState)
    (s : Score) :
    ∀ buf, BestAtLeast buf s → BestAtLeast (ps.foldl (candidatesAdd env) buf) s := by
  induction ps with
  | nil => intro buf h; exact h
  | cons c rest ih =>
    intro buf h
    simp only [List.foldl_cons]
    exact ih _ (candidatesAdd_best_mono env buf c s h)

theorem foldl_candidatesAdd_best (env : DecoderEnv) (ht : 0 ≤ env.opt.beamThreshold)
    (ps : List LexiconDecoderState) :
    ∀ buf, ∀ y ∈ ps, BestAtLeast (ps.foldl (candidatesAdd env) buf) y.score := by
  induction ps with
  | nil => intro buf y hy; simp at hy
  | cons c rest ih =>
    intro buf y hy
    simp only [List.foldl_cons]
    rcases List.mem_cons.mp hy with hy | hy
    · subst hy
      exact foldl_candidatesAdd_best_mono env rest _ _ (candidatesAdd_best_new env ht buf y)
    · exact ih _ y hy

theorem insertionSort_head_ge (l : List LexiconDecoderState) (x : LexiconDecoderState)
    (hx : x ∈ l) :
    ∃ hd tl, l.insertionSort (fun a b => a.score ≥ b.score) = hd :: tl ∧
      x.score ≤ hd.score := by
  have hsorted := List.sorted_insertionSort (fun a b : LexiconDecoderState => a.score ≥ b.score) l
  have hxs : x ∈ l.insertionSort (fun a b => a.score ≥ b.score) :=
    (List.mem_insertionSort _).mpr hx
  cases hl : l.insertionSort (fun a b => a.score ≥ b.score) with
  | nil => rw [hl] at hxs; simp at hxs
  | cons hd tl =>
    rw [hl] at hxs hsorted
    refine ⟨hd, tl, rfl, ?_⟩
    rcases List.mem_cons.mp hxs with hxs | hxs
    · rw [hxs]
    · exact List.rel_of_sorted_cons hsorted x hxs

theorem candidatesStore_keeps_best (env : DecoderEnv) (hv : ValidOptions env)
    (buf : CandidateBuffer) (hinv : BufferHoldsBest buf) (b : Score)
    (hb : buf.bestScore = some b) (outputs : List LexiconDecoderState) (la rs : Bool) :
    ∃ s ∈ candidatesStore buf.candidates outputs env.opt.beamSize (scoreFloor env buf) la rs,
      b ≤ s.score := by
  obtain ⟨hbeam, _, hthr⟩ := hv
  obtain ⟨x, hx, hle⟩ := hinv b hb
  have hpass : x ∈ buf.candidates.filter
      (fun c => aboveFloor (scoreFloor env buf) c.score) := by
    rw [List.mem_filter]
    refine ⟨hx, ?_⟩
    simp only [scoreFloor, hb, Option.map_some', aboveFloor, decide_eq_true_eq]
    linarith
  obtain ⟨hd, tl, hsort, hge⟩ := insertionSort_head_ge _ x hpass
  obtain ⟨n, hn⟩ : ∃ n, env.opt.beamSize.toNat = n + 1 :=
    ⟨env.opt.beamSize.toNat - 1, by omega⟩
  refine ⟨hd, ?_, le_trans hle hge⟩
  unfold candidatesStore
  rw [hsort, hn, List.take_succ_cons]
  exact List.mem_append_right _ (List.mem_cons_self _ _)


/-! ## The best score of the next frame -/

theorem expandHyp_in_frame (env : DecoderEnv) (nD : Int) (E : Int → Score) (t N frame : Int)
    (hyps ps : List LexiconDecoderState) (slot : Nat) (p y : LexiconDecoderState)
    (hp : hyps[slot]? = some p)
    (hc : collect (frameProposals env nD E t N frame hyps) = Except.ok ps)
    (hy : Except.ok y ∈ expandHyp env nD E t N (frame, slot) p) : y ∈ ps := by
  rw [collect_mem _ _ hc]
  unfold frameProposals
  rw [List.mem_flatMap]
  exact ⟨((frame, slot), p), (withRefs_mem frame hyps _ p).mpr ⟨rfl, hp⟩, hy⟩

theorem proposal_lower_bound (env : DecoderEnv) (nD : Int) (E : Int → Score) (t N frame : Int)
    (hyps ps : List LexiconDecoderState) (slot : Nat) (p : LexiconDecoderState)
    (hp : hyps[slot]? = some p)
    (hc : collect (frameProposals env nD E t N frame hyps) = Except.ok ps)
    (m : Score) (hm : ∀ n : Int, 0 ≤ n → n < N → m ≤ E (t * N + n))
    (hcase : (env.opt.criterionType = CriterionType.CTC ∧ 0 ≤ env.blank ∧ env.blank < N) ∨
      (env.opt.criterionType = CriterionType.ASG ∧ (∀ i, 0 ≤ env.transitions i) ∧
        0 ≤ env.opt.silScore ∧ 0 ≤ sameNodeToken env p ∧ sameNodeToken env p < N)) :
    ∃ y ∈ ps, p.score + m ≤ y.score := by
  rcases hcase with ⟨hctc, hb0, hb1⟩ | ⟨hasg, htr, hsil, hn0, hn1⟩
  · refine ⟨_, expandHyp_in_frame env nD E t N frame hyps ps slot p
      { score := p.score + E (t * N + env.blank), lmState := p.lmState,
        lex := p.lex, parent := some (frame, slot), token := env.blank, word := -1,
        prevBlank := true,
        emittingModelScore := p.emittingModelScore + E (t * N + env.blank),
        lmScore := p.lmScore } hp hc ?_, ?_⟩
    · unfold expandHyp tryBlank
      rw [if_pos hctc]
      simp
    · have := hm env.blank hb0 hb1
      simp only
      linarith
  · have hne : env.opt.criterionType ≠ CriterionType.CTC := by rw [hasg]; decide
    have hems : E (t * N + sameNodeToken env p) ≤
        emittingScore env nD E t N (sameNodeToken env p) p.token := by
      unfold emittingScore
      split_ifs
      · have := htr (sameNodeToken env p * N + p.token)
        linarith
      · exact le_refl _
    have hmn := hm (sameNodeToken env p) hn0 hn1
    refine ⟨_, expandHyp_in_frame env nD E t N frame hyps ps slot p
      { score :=
          if sameNodeToken env p = env.sil then
            p.score + emittingScore env nD E t N (sameNodeToken env p) p.token +
              env.opt.silScore
          else p.score + emittingScore env nD E t N (sameNodeToken env p) p.token,
        lmState := p.lmState, lex := p.lex, parent := some (frame, slot),
        token := sameNodeToken env p, word := -1, prevBlank := false,
        emittingModelScore := p.emittingModelScore +
          emittingScore env nD E t N (sameNodeToken env p) p.token,
        lmScore := p.lmScore } hp hc ?_, ?_⟩
    · unfold expandHyp trySame
      rw [if_pos (Or.inl hne)]
      simp
    · simp only
      split_ifs <;> linarith

theorem decodeFrame_best (env : DecoderEnv) (hv : ValidOptions env)
    (hls : env.opt.logAdd = true → ∀ a b, max a b ≤ env.logSumExp a b)
    (nD : Int) (E : Int → Score) (N start : Int) (h h' : HypMap) (t : Int)
    (hd : decodeFrame env nD E N start h t = Except.ok h')
    (m : Score) (hm : ∀ n : Int, 0 ≤ n → n < N → m ≤ E (t * N + n))
    (p : LexiconDecoderState) (hp : p ∈ HypMap.get h (start + t))
    (hcase : (env.opt.criterionType = CriterionType.CTC ∧ 0 ≤ env.blank ∧ env.blank < N) ∨
      (env.opt.criterionType = CriterionType.ASG ∧ (∀ i, 0 ≤ env.transitions i) ∧
        0 ≤ env.opt.silScore ∧ 0 ≤ sameNodeToken env p ∧ sameNodeToken env p < N)) :
    ∃ s ∈ HypMap.get h' (start + t + 1), p.score + m ≤ s.score := by
  obtain ⟨ps, hc, hnew⟩ := decodeFrame_get_new env nD E N start h h' t hd
  obtain ⟨slot, hslot⟩ := List.mem_iff_getElem?.mp hp
  obtain ⟨y, hy, hle⟩ := proposal_lower_bound env nD E t N _ _ ps slot p hslot hc m hm hcase
  obtain ⟨b, hb, hyb⟩ := foldl_candidatesAdd_best env hv.2.2 ps candidatesReset y hy
  have hinv : BufferHoldsBest (ps.foldl (candidatesAdd env) candidatesReset) :=
    foldl_candidatesAdd_holdsBest env hls ps candidatesReset
      (by intro b hb; simp [candidatesReset] at hb)
  obtain ⟨s, hs, hbs⟩ := candidatesStore_keeps_best env hv _ hinv b hb
    (HypMap.get h (start + t + 1)) env.opt.logAdd false
  exact ⟨s, by rw [hnew]; exact hs, by linarith⟩

theorem decodeFrames_best (env : DecoderEnv) (hv : ValidOptions env)
    (hls : env.opt.logAdd = true → ∀ a b, max a b ≤ env.logSumExp a b)
    (nD : Int) (E : Int → Score) (N start : Int) (count : Nat) :
    ∀ (t0 : Nat) (h h' : HypMap),
    decodeFrames env nD E N start t0 count h = Except.ok h' →
    ∀ t : Nat, t0 ≤ t → t < t0 + count →
    ∀ (m : Score), (∀ n : Int, 0 ≤ n → n < N → m ≤ E ((t : Int) * N + n)) →
    ∀ p ∈ HypMap.get h' (start + (t : Int)),
      ((env.opt.criterionType = CriterionType.CTC ∧ 0 ≤ env.blank ∧ env.blank < N) ∨
      (env.opt.criterionType = CriterionType.ASG ∧ (∀ i, 0 ≤ env.transitions i) ∧
        0 ≤ env.opt.silScore ∧ 0 ≤ sameNodeToken env p ∧ sameNodeToken env p < N)) →
      ∃ s ∈ HypMap.get h' (start + (t : Int) + 1), p.score + m ≤ s.score := by
  induction count with
  | zero =>
    intro t0 h h' _ t h1 h2
    omega
  | succ n ih =>
    intro t0 h h' hd t h1 h2 m hm p hp hcase
    simp only [decodeFrames] at hd
    cases hf : decodeFrame env nD E N start h (t0 : Int) with
    | error e => rw [hf] at hd; simp at hd
    | ok h1' =>
      rw [hf] at hd
      simp only at hd
      by_cases ht : t = t0
      · subst ht
        have hbelow := decodeFrames_get_below env nD E N start n (t + 1) h1' h' hd
        have e1 : HypMap.get h' (start + (t : Int)) = HypMap.get h (start + (t : Int)) := by
          rw [hbelow _ (by push_cast; omega)]
          exact decodeFrame_get_other env nD E N start h h1' t hf _ (by omega)
        have e2 : HypMap.get h' (start + (t : Int) + 1) =
            HypMap.get h1' (start + (t : Int) + 1) :=
          hbelow _ (by push_cast; omega)
        rw [e1] at hp
        rw [e2]
        exact decodeFrame_best env hv hls nD E N start h h1' t hf m hm p hp hcase
      · exact ih (t0 + 1) h1' h' hd t (by omega) (by omega) m hm p hp hcase

/-- Claim C9 (as stated, refuted). With criterion ASG, a transition matrix
whose entries are all `-1` and emissions all `0`, the only state of frame 1
has score 0 and the only state of frame 2 has score `-1`, which is below
`0 + 0`, the best score of frame 1 plus the minimum emission of that frame. -/
theorem asg_negative_transition_lowers_best :
    asgEnv.opt.criterionType = CriterionType.ASG ∧
    (decodeStep asgEnv (decodeBegin asgEnv freshDecoder) (fun _ => 0) 2 4).toOption.map
        (fun d => (HypMap.get d.hyp 1).map (fun s => s.score)) = some [0] ∧
    (decodeStep asgEnv (decodeBegin asgEnv freshDecoder) (fun _ => 0) 2 4).toOption.map
        (fun d => (HypMap.get d.hyp 2).map (fun s => s.score)) = some [-1] ∧
    ¬ ((0 : Score) + 0 ≤ -1) := by
  decide!

/-- Claim C9 (amended). With valid options (and a log-sum-exp that is at
least the maximum), for every frame `t` processed by a `decodeStep` call and
every lower bound `m` of the emissions of that frame, each state `p` of frame
`live + t` is followed in frame `live + t + 1` by a state scoring at least
`p.score + m`, so the best score of the next frame is at least the best score
of the frame plus the minimum emission: under CTC when `BLANK` is one of the
`N` tokens, for all transitions and every `silScore`; under ASG when the
transition entries and `silScore` are non-negative and the same-node token of
`p` is one of the `N` tokens. -/
theorem best_score_lower_bound (env : DecoderEnv) (hv : ValidOptions env)
    (hls : env.opt.logAdd = true → ∀ a b, max a b ≤ env.logSumExp a b)
    (d d' : LexiconDecoder) (E : Int → Score) (T : Nat) (N : Int)
    (hd : decodeStep env d E (T : Int) N = Except.ok d')
    (t : Nat) (ht : t < T)
    (m : Score) (hm : ∀ n : Int, 0 ≤ n → n < N → m ≤ E ((t : Int) * N + n))
    (p : LexiconDecoderState) (hp : p ∈ HypMap.get d'.hyp (liveFrame d + (t : Int)))
    (hcase : (env.opt.criterionType = CriterionType.CTC ∧ 0 ≤ env.blank ∧ env.blank < N) ∨
      (env.opt.criterionType = CriterionType.ASG ∧ (∀ i, 0 ≤ env.transitions i) ∧
        0 ≤ env.opt.silScore ∧ 0 ≤ sameNodeToken env p ∧ sameNodeToken env p < N)) :
    ∃ s ∈ HypMap.get d'.hyp (liveFrame d + (t : Int) + 1), p.score + m ≤ s.score := by
  obtain ⟨hf, _, _⟩ := decodeStep_ok env d d' E T N hd
  simp only [Int.toNat_ofNat] at hf
  exact decodeFrames_best env hv hls d.nDecodedFrames E N _ T 0 _ d'.hyp hf t (by omega)
    (by omega) m hm p hp hcase

/-- Witness for `best_score_lower_bound`: the first frame of the CTC example
run, whose emissions are at least `-3`. -/
theorem best_score_lower_bound_witness :
    ValidOptions abEnv ∧
    (abEnv.opt.logAdd = true → ∀ a b, max a b ≤ abEnv.logSumExp a b) ∧
    decodeStep abEnv (decodeBegin abEnv freshDecoder) aaEmissions ((1 : Nat) : Int) 4 =
      Except.ok abAfterOne ∧
    (∀ n : Int, 0 ≤ n → n < 4 → (-3 : Score) ≤ aaEmissions (((0 : Nat) : Int) * 4 + n)) ∧
    seedState abEnv ∈
      HypMap.get abAfterOne.hyp (liveFrame (decodeBegin abEnv freshDecoder) + ((0 : Nat) : Int)) ∧
    (abEnv.opt.criterionType = CriterionType.CTC ∧ 0 ≤ abEnv.blank ∧ abEnv.blank < 4) ∧
    ∃ s ∈ HypMap.get abAfterOne.hyp
        (liveFrame (decodeBegin abEnv freshDecoder) + ((0 : Nat) : Int) + 1),
      (seedState abEnv).score + (-3) ≤ s.score :=
  have hm : ∀ n : Int, 0 ≤ n → n < 4 →
      (-3 : Score) ≤ aaEmissions (((0 : Nat) : Int) * 4 + n) := by
    intro n h0 h4
    interval_cases n <;> decide!
  ⟨by decide!, fun h => absurd h (by decide), abAfterOne_run, hm, by decide!,
    ⟨rfl, by decide, by decide⟩,
    best_score_lower_bound abEnv (by decide!) (fun h => absurd h (by decide))
      (decodeBegin abEnv freshDecoder) abAfterOne aaEmissions 1 4 abAfterOne_run 0
      (by decide) (-3) hm (seedState abEnv) (by decide!)
      (Or.inl ⟨rfl, by decide, by decide⟩)⟩

/-! ## The prune round trip -/

/-- Claim C1 (as stated, refuted). In the decoder with the words `a` and `b`
and a beam of two, after two frames the best live hypothesis has the word `a`
behind it, so `prune(0)` commits the words `[a]`; the language model then lets
the other live hypothesis, with `b` behind it, win. The unpruned run returns
`[b, a]`, the pruned run returns `[a]`, and `[a] ++ [a]` is not `[b, a]`. -/
theorem prune_round_trip_fails :
    (prunedPrefix twoWordEnv firstCalls 0).toOption = some [0] ∧
    (unprunedWords twoWordEnv firstCalls secondCalls).toOption = some [1, 0] ∧
    (prunedWords twoWordEnv firstCalls 0 secondCalls).toOption = some [0] ∧
    ([0] ++ [0] : List Int) ≠ [1, 0] := by
  decide!

/-! ### Proposals follow the rebased hypotheses -/

theorem rebaseState_mk (s : Int) (c : Score) (fp : Int) (h0 : 0 ≤ fp) (sc : Score)
    (l : LMStatePtr) (x : Nat) (slot : Nat) (tok w : Int) (pb : Bool) (am lm : Score) :
    rebaseState s c
      { score := sc, lmState := l, lex := x, parent := some (fp + s, slot), token := tok,
        word := w, prevBlank := pb, emittingModelScore := am, lmScore := lm } =
      { score := sc - c, lmState := l, lex := x, parent := some (fp, slot), token := tok,
        word := w, prevBlank := pb, emittingModelScore := am, lmScore := lm } := by
  have h1 : ¬ (fp + s < s) := by omega
  simp [rebaseState, h1]

theorem childCandidate_rebase (env : DecoderEnv) (s : Int) (c : Score) (fp : Int)
    (h0 : 0 ≤ fp) (slot : Nat) (p : LexiconDecoderState) (n : Int) (lexId : Nat)
    (ems score : Score) (lmIn : LMStatePtr × Score) :
    childCandidate env (fp, slot) (rebaseState s c p) n lexId ems (score - c) lmIn =
      (childCandidate env (fp + s, slot) p n lexId ems score lmIn).map (shiftResult s c) := by
  unfold childCandidate
  have e1 : (rebaseState s c p).prevBlank = p.prevBlank := rfl
  have e2 : (rebaseState s c p).token = p.token := rfl
  have e3 : (rebaseState s c p).lmState = p.lmState := rfl
  have e4 : (rebaseState s c p).lex = p.lex := rfl
  have e5 : (rebaseState s c p).emittingModelScore = p.emittingModelScore := rfl
  have e6 : (rebaseState s c p).lmScore = p.lmScore := rfl
  rw [e1, e2, e3, e4, e5, e6]
  by_cases h1 : env.opt.criterionType ≠ CriterionType.CTC ∨ p.prevBlank = true ∨ n ≠ p.token
  · by_cases h2 : (env.lexicon.node lexId).children ≠ []
    · rw [if_pos h1, if_pos h2, if_pos h1, if_pos h2]
      simp only [List.map_cons, List.map_nil, shiftResult, rebaseState_mk s c fp h0]
      congr 3
      ring
    · rw [if_pos h1, if_neg h2, if_pos h1, if_neg h2]
      rfl
  · rw [if_neg h1, if_neg h1]
    rfl

theorem wordCandidate_rebase (env : DecoderEnv)
    (hnv : ∀ label, env.dictCustomVocab label = false) (s : Int) (c : Score) (fp : Int)
    (h0 : 0 ≤ fp) (slot : Nat) (p : LexiconDecoderState) (n : Int) (lexId : Nat)
    (ems score : Score) (lmIn : LMStatePtr × Score) (label : Int) :
    wordCandidate env (fp, slot) (rebaseState s c p) n lexId ems (score - c) lmIn label =
      (wordCandidate env (fp + s, slot) p n lexId ems score lmIn label).map
        (shiftResult s c) := by
  unfold wordCandidate
  have e2 : (rebaseState s c p).token = p.token := rfl
  have e3 : (rebaseState s c p).lmState = p.lmState := rfl
  have e4 : (rebaseState s c p).lex = p.lex := rfl
  have e5 : (rebaseState s c p).emittingModelScore = p.emittingModelScore := rfl
  have e6 : (rebaseState s c p).lmScore = p.lmScore := rfl
  rw [e2, e3, e4, e5, e6]
  by_cases h1 : p.lex = env.lexicon.root ∧ p.token = n
  · rw [if_pos h1, if_pos h1]
    rfl
  · rw [if_neg h1, if_neg h1]
    simp only [hnv label, Bool.false_eq_true, if_false, List.map_cons, List.map_nil,
      shiftResult, rebaseState_mk s c fp h0]
    congr 3
    ring

theorem unkCandidate_rebase (env : DecoderEnv) (s : Int) (c : Score) (fp : Int)
    (h0 : 0 ≤ fp) (slot : Nat) (p : LexiconDecoderState) (n : Int) (lexId : Nat)
    (ems score : Score) (lmIn : LMStatePtr × Score) :
    unkCandidate env (fp, slot) (rebaseState s c p) n lexId ems (score - c) lmIn =
      (unkCandidate env (fp + s, slot) p n lexId ems score lmIn).map (shiftResult s c) := by
  unfold unkCandidate
  have e3 : (rebaseState s c p).lmState = p.lmState := rfl
  have e4 : (rebaseState s c p).lex = p.lex := rfl
  have e5 : (rebaseState s c p).emittingModelScore = p.emittingModelScore := rfl
  have e6 : (rebaseState s c p).lmScore = p.lmScore := rfl
  rw [e3, e4, e5, e6]
  cases hu : env.opt.unkScore with
  | none => rfl
  | some u =>
    simp only
    by_cases h1 : (env.lexicon.node lexId).labels = []
    · rw [if_pos h1, if_pos h1]
      simp only [List.map_cons, List.map_nil, shiftResult, rebaseState_mk s c fp h0]
      congr 3
      ring
    · rw [if_neg h1, if_neg h1]
      rfl

theorem wordCandidate_rebase_fun (env : DecoderEnv)
    (hnv : ∀ label, env.dictCustomVocab label = false) (s : Int) (c : Score) (fp : Int)
    (h0 : 0 ≤ fp) (slot : Nat) (p : LexiconDecoderState) (n : Int) (lexId : Nat)
    (ems score : Score) (lmIn : LMStatePtr × Score) :
    wordCandidate env (fp, slot) (rebaseState s c p) n lexId ems (score - c) lmIn =
      fun label => (wordCandidate env (fp + s, slot) p n lexId ems score lmIn label).map
        (shiftResult s c) :=
  funext (wordCandidate_rebase env hnv s c fp h0 slot p n lexId ems score lmIn)

theorem score_rebase (x c e z : Score) (P : Prop) [Decidable P] :
    (if P then x - c + e + z else x - c + e) = (if P then x + e + z else x + e) - c := by
  split_ifs <;> ring

theorem tryChild_rebase (env : DecoderEnv)
    (hnv : ∀ label, env.dictCustomVocab label = false) (nD : Int) (E : Int → Score)
    (t N : Int) (s : Int) (c : Score) (fp : Int) (h0 : 0 ≤ fp) (slot : Nat)
    (p : LexiconDecoderState) (n : Int) :
    tryChild env nD E t N (fp, slot) (rebaseState s c p) n =
      (tryChild env nD E t N (fp + s, slot) p n).map (shiftResult s c) := by
  unfold tryChild
  have e1 : (rebaseState s c p).score = p.score - c := rfl
  have e2 : (rebaseState s c p).token = p.token := rfl
  have e3 : (rebaseState s c p).lmState = p.lmState := rfl
  have e4 : (rebaseState s c p).lex = p.lex := rfl
  rw [e1, e2, e3, e4]
  cases hfind : findChild (env.lexicon.node p.lex).children n with
  | none => rfl
  | some lexId =>
    simp only [score_rebase, childCandidate_rebase env s c fp h0,
      wordCandidate_rebase_fun env hnv s c fp h0, unkCandidate_rebase env s c fp h0,
      List.map_append, List.map_flatMap]

theorem tryChild_rebase_fun (env : DecoderEnv)
    (hnv : ∀ label, env.dictCustomVocab label = false) (nD : Int) (E : Int → Score)
    (t N : Int) (s : Int) (c : Score) (fp : Int) (h0 : 0 ≤ fp) (slot : Nat)
    (p : LexiconDecoderState) :
    tryChild env nD E t N (fp, slot) (rebaseState s c p) =
      fun n => (tryChild env nD E t N (fp + s, slot) p n).map (shiftResult s c) :=
  funext (tryChild_rebase env hnv nD E t N s c fp h0 slot p)

theorem trySame_rebase (env : DecoderEnv) (nD : Int) (E : Int → Score)
    (t N : Int) (s : Int) (c : Score) (fp : Int) (h0 : 0 ≤ fp) (slot : Nat)
    (p : LexiconDecoderState) :
    trySame env nD E t N (fp, slot) (rebaseState s c p) =
      (trySame env nD E t N (fp + s, slot) p).map (shiftResult s c) := by
  unfold trySame sameNodeToken
  have e0 : (rebaseState s c p).prevBlank = p.prevBlank := rfl
  have e1 : (rebaseState s c p).score = p.score - c := rfl
  have e2 : (rebaseState s c p).token = p.token := rfl
  have e3 : (rebaseState s c p).lmState = p.lmState := rfl
  have e4 : (rebaseState s c p).lex = p.lex := rfl
  have e5 : (rebaseState s c p).emittingModelScore = p.emittingModelScore := rfl
  have e6 : (rebaseState s c p).lmScore = p.lmScore := rfl
  rw [e0, e1, e2, e3, e4, e5, e6]
  by_cases h1 : env.opt.criterionType ≠ CriterionType.CTC ∨ p.prevBlank = false ∨
      p.lex = env.lexicon.root
  · rw [if_pos h1, if_pos h1]
    simp only [score_rebase, List.map_cons, List.map_nil, shiftResult,
      rebaseState_mk s c fp h0]
  · rw [if_neg h1, if_neg h1]
    rfl

theorem tryBlank_rebase (env : DecoderEnv) (E : Int → Score)
    (t N : Int) (s : Int) (c : Score) (fp : Int) (h0 : 0 ≤ fp) (slot : Nat)
    (p : LexiconDecoderState) :
    tryBlank env E t N (fp, slot) (rebaseState s c p) =
      (tryBlank env E t N (fp + s, slot) p).map (shiftResult s c) := by
  unfold tryBlank
  have e1 : (rebaseState s c p).score = p.score - c := rfl
  have e3 : (rebaseState s c p).lmState = p.lmState := rfl
  have e4 : (rebaseState s c p).lex = p.lex := rfl
  have e5 : (rebaseState s c p).emittingModelScore = p.emittingModelScore := rfl
  have e6 : (rebaseState s c p).lmScore = p.lmScore := rfl
  rw [e1, e3, e4, e5, e6]
  by_cases h1 : env.opt.criterionType = CriterionType.CTC
  · rw [if_pos h1, if_pos h1]
    simp only [List.map_cons, List.map_nil, shiftResult, rebaseState_mk s c fp h0]
    congr 3
    ring
  · rw [if_neg h1, if_neg h1]
    rfl

theorem expandHyp_rebase (env : DecoderEnv)
    (hnv : ∀ label, env.dictCustomVocab label = false) (nD : Int) (E : Int → Score)
    (t N : Int) (s : Int) (c : Score) (fp : Int) (h0 : 0 ≤ fp) (slot : Nat)
    (p : LexiconDecoderState) :
    expandHyp env nD E t N (fp, slot) (rebaseState s c p) =
      (expandHyp env nD E t N (fp + s, slot) p).map (shiftResult s c) := by
  unfold expandHyp
  simp only [tryChild_rebase_fun env hnv nD E t N s c fp h0,
    trySame_rebase env nD E t N s c fp h0,
    tryBlank_rebase env E t N s c fp h0, List.map_append, List.map_flatMap]

theorem frameProposals_rebase (env : DecoderEnv)
    (hnv : ∀ label, env.dictCustomVocab label = false) (nD : Int) (E : Int → Score)
    (t N : Int) (s : Int) (c : Score) (fp : Int) (h0 : 0 ≤ fp)
    (hyps : List LexiconDecoderState) :
    frameProposals env nD E t N fp (hyps.map (rebaseState s c)) =
      (frameProposals env nD E t N (fp + s) hyps).map (shiftResult s c) := by
  unfold frameProposals withRefs
  rw [List.enum_map]
  simp only [List.map_map, List.flatMap_map, List.map_flatMap]
  congr 1
  funext q
  exact expandHyp_rebase env hnv nD E t N s c fp h0 q.1 q.2

theorem collect_map_shift (s : Int) (c : Score)
    (l : List (Except DecodeError LexiconDecoderState)) :
    collect (l.map (shiftResult s c)) =
      match collect l with
      | Except.error e => Except.error e
      | Except.ok ps => Except.ok (ps.map (rebaseState s c)) := by
  induction l with
  | nil => rfl
  | cons a rest ih =>
    cases a with
    | error e => rfl
    | ok y =>
      simp only [List.map_cons, shiftResult, collect, ih]
      cases collect rest <;> rfl

/-! ### The candidate buffer follows the rebased candidates -/

theorem mergeCandidate_rebase (env : DecoderEnv) (s : Int) (c : Score)
    (hlse : env.opt.logAdd = true →
      ∀ a b, env.logSumExp (a - c) (b - c) = env.logSumExp a b - c)
    (e y : LexiconDecoderState) :
    mergeCandidate env (rebaseState s c e) (rebaseState s c y) =
      rebaseState s c (mergeCandidate env e y) := by
  unfold mergeCandidate
  have e1 : (rebaseState s c e).score = e.score - c := rfl
  have e2 : (rebaseState s c y).score = y.score - c := rfl
  rw [e1, e2]
  have hsc : (if env.opt.logAdd = true then env.logSumExp (e.score - c) (y.score - c)
      else max (e.score - c) (y.score - c)) =
      (if env.opt.logAdd = true then env.logSumExp e.score y.score
        else max e.score y.score) - c := by
    by_cases hl : env.opt.logAdd = true
    · rw [if_pos hl, if_pos hl]; exact hlse hl _ _
    · rw [if_neg hl, if_neg hl]; exact max_sub_sub_right _ _ _
  simp only [hsc]
  by_cases hlt : e.score < y.score
  · have hlt' : e.score - c < y.score - c := by linarith
    rw [if_pos hlt, if_pos hlt']
    rfl
  · have hlt' : ¬ e.score - c < y.score - c := by linarith
    rw [if_neg hlt, if_neg hlt']
    rfl

theorem mergeInto_rebase (env : DecoderEnv) (s : Int) (c : Score)
    (hlse : env.opt.logAdd = true →
      ∀ a b, env.logSumExp (a - c) (b - c) = env.logSumExp a b - c)
    (y : LexiconDecoderState) (l : List LexiconDecoderState) :
    mergeInto env (rebaseState s c y) (l.map (rebaseState s c)) =
      (mergeInto env y l).map (rebaseState s c) := by
  induction l with
  | nil => rfl
  | cons e rest ih =>
    have hk : sameKey env (rebaseState s c e) (rebaseState s c y) = sameKey env e y := rfl
    simp only [List.map_cons, mergeInto, hk]
    by_cases hkey : sameKey env e y = true
    · rw [if_pos hkey, if_pos hkey, List.map_cons, mergeCandidate_rebase env s c hlse]
    · rw [if_neg hkey, if_neg hkey, List.map_cons, ih]

theorem candidatesAdd_rebase (env : DecoderEnv) (s : Int) (c : Score)
    (hlse : env.opt.logAdd = true →
      ∀ a b, env.logSumExp (a - c) (b - c) = env.logSumExp a b - c)
    (buf : CandidateBuffer) (y : LexiconDecoderState) :
    candidatesAdd env (rebaseBuffer s c buf) (rebaseState s c y) =
      rebaseBuffer s c (candidatesAdd env buf y) := by
  unfold candidatesAdd
  have e1 : (rebaseState s c y).score = y.score - c := rfl
  cases hb : buf.bestScore with
  | none =>
    simp only [rebaseBuffer, hb, Option.map_none', Option.map_some', e1,
      mergeInto_rebase env s c hlse]
  | some b =>
    simp only [rebaseBuffer, hb, Option.map_some', e1]
    by_cases hd : y.score < b - env.opt.beamThreshold
    · have hd' : y.score - c < b - c - env.opt.beamThreshold := by linarith
      rw [if_pos hd, if_pos hd']
      simp only [hb, Option.map_some']
    · have hd' : ¬ y.score - c < b - c - env.opt.beamThreshold := by linarith
      rw [if_neg hd, if_neg hd']
      simp only [Option.map_some', mergeInto_rebase env s c hlse, max_sub_sub_right]

theorem foldl_candidatesAdd_rebase (env : DecoderEnv) (s : Int) (c : Score)
    (hlse : env.opt.logAdd = true →
      ∀ a b, env.logSumExp (a - c) (b - c) = env.logSumExp a b - c)
    (ps : List LexiconDecoderState) :
    ∀ buf, (ps.map (rebaseState s c)).foldl (candidatesAdd env) (rebaseBuffer s c buf) =
      rebaseBuffer s c (ps.foldl (candidatesAdd env) buf) := by
  induction ps with
  | nil => intro buf; rfl
  | cons y rest ih =>
    intro buf
    simp only [List.map_cons, List.foldl_cons, candidatesAdd_rebase env s c hlse, ih]

theorem candidatesStore_rebase (s : Int) (c : Score)
    (cands outputs : List LexiconDecoderState) (beamSize : Int) (thr : Option Score)
    (la rs : Bool) :
    candidatesStore (cands.map (rebaseState s c)) (outputs.map (rebaseState s c)) beamSize
        (thr.map (fun b => b - c)) la rs =
      (candidatesStore cands outputs beamSize thr la rs).map (rebaseState s c) := by
  unfold candidatesStore
  have hfilter : (cands.map (rebaseState s c)).filter
        (fun x => aboveFloor (thr.map (fun b => b - c)) x.score) =
      (cands.filter (fun x => aboveFloor thr x.score)).map (rebaseState s c) := by
    rw [List.filter_map]
    congr 1
    apply List.filter_congr
    intro x _
    cases thr with
    | none => rfl
    | some f =>
      have e1 : (rebaseState s c x).score = x.score - c := rfl
      simp only [Function.comp, Option.map_some', aboveFloor, e1, decide_eq_decide]
      constructor <;> intro h <;> linarith
  rw [hfilter, List.map_append, List.map_take]
  congr 2
  symm
  apply List.map_insertionSort
  intro a _ b _
  have e1 : (rebaseState s c a).score = a.score - c := rfl
  have e2 : (rebaseState s c b).score = b.score - c := rfl
  rw [e1, e2]
  constructor <;> intro h <;> linarith

theorem scoreFloor_rebase (env : DecoderEnv) (s : Int) (c : Score) (buf : CandidateBuffer) :
    scoreFloor env (rebaseBuffer s c buf) = (scoreFloor env buf).map (fun b => b - c) := by
  unfold scoreFloor rebaseBuffer
  cases buf.bestScore with
  | none => rfl
  | some b =>
    simp only [Option.map_some', Option.some.injEq]
    ring

/-! ### The pruned decoder follows the unpruned one -/

theorem decodeFrame_of_collect (env : DecoderEnv) (nD : Int) (E : Int → Score)
    (N start : Int) (h : HypMap) (t : Int) (ps : List LexiconDecoderState)
    (hc : collect (frameProposals env nD E t N (start + t) (HypMap.get h (start + t))) =
      Except.ok ps) :
    decodeFrame env nD E N start h t =
      Except.ok (HypMap.set (HypMap.emplace h (start + t) []) (start + t + 1)
        (candidatesStore (ps.foldl (candidatesAdd env) candidatesReset).candidates
          (HypMap.get h (start + t + 1)) env.opt.beamSize
          (scoreFloor env (ps.foldl (candidatesAdd env) candidatesReset))
          env.opt.logAdd false)) := by
  unfold decodeFrame
  simp only [HypMap.get_emplace_nil, hc]

theorem decodeFrame_shifted (env : DecoderEnv)
    (hnv : ∀ label, env.dictCustomVocab label = false) (s : Int) (c : Score)
    (hlse : env.opt.logAdd = true →
      ∀ a b, env.logSumExp (a - c) (b - c) = env.logSumExp a b - c)
    (nD : Int) (E : Int → Score) (N startP : Int) (hu hu' hp : HypMap) (t : Int)
    (h0 : 0 ≤ startP + t) (hsim : Shifted s c hu hp)
    (hd : decodeFrame env nD E N (startP + s) hu t = Except.ok hu') :
    ∃ hp', decodeFrame env nD E N startP hp t = Except.ok hp' ∧ Shifted s c hu' hp' := by
  obtain ⟨ps, hc, rfl⟩ := decodeFrame_ok env nD E N (startP + s) hu hu' t hd
  have ekey : startP + s + t = startP + t + s := by omega
  have ekey1 : startP + s + t + 1 = startP + t + 1 + s := by omega
  rw [ekey] at hc
  have hlive : HypMap.get hp (startP + t) =
      (HypMap.get hu (startP + t + s)).map (rebaseState s c) := by
    rw [hsim (startP + t), if_pos h0]
  have hnext : HypMap.get hp (startP + t + 1) =
      (HypMap.get hu (startP + t + 1 + s)).map (rebaseState s c) := by
    rw [hsim (startP + t + 1), if_pos (by omega)]
  have hcp : collect (frameProposals env nD E t N (startP + t) (HypMap.get hp (startP + t))) =
      Except.ok (ps.map (rebaseState s c)) := by
    rw [hlive, frameProposals_rebase env hnv nD E t N s c (startP + t) h0,
      collect_map_shift, hc]
  refine ⟨_, decodeFrame_of_collect env nD E N startP hp t _ hcp, ?_⟩
  have hreset : candidatesReset = rebaseBuffer s c candidatesReset := rfl
  intro k
  rw [HypMap.get_set, HypMap.get_emplace_nil, HypMap.get_set, HypMap.get_emplace_nil]
  by_cases hk : k = startP + t + 1
  · have hk' : k + s = startP + s + t + 1 := by omega
    have hk0 : 0 ≤ k := by omega
    rw [if_pos hk, if_pos hk0, if_pos hk', hnext, hreset,
      foldl_candidatesAdd_rebase env s c hlse, scoreFloor_rebase, ekey1]
    exact candidatesStore_rebase s c _ _ _ _ _ _
  · have hk' : ¬ k + s = startP + s + t + 1 := by omega
    rw [if_neg hk, if_neg hk']
    exact hsim k

theorem decodeFrames_shifted (env : DecoderEnv)
    (hnv : ∀ label, env.dictCustomVocab label = false) (s : Int) (c : Score)
    (hlse : env.opt.logAdd = true →
      ∀ a b, env.logSumExp (a - c) (b - c) = env.logSumExp a b - c)
    (nD : Int) (E : Int → Score) (N startP : Int) (h0 : 0 ≤ startP) (count : Nat) :
    ∀ (t : Nat) (hu hu' hp : HypMap), Shifted s c hu hp →
    decodeFrames env nD E N (startP + s) t count hu = Except.ok hu' →
    ∃ hp', decodeFrames env nD E N startP t count hp = Except.ok hp' ∧
      Shifted s c hu' hp' := by
  induction count with
  | zero =>
    intro t hu hu' hp hsim hd
    simp only [decodeFrames, Except.ok.injEq] at hd
    subst hd
    exact ⟨hp, rfl, hsim⟩
  | succ n ih =>
    intro t hu hu' hp hsim hd
    simp only [decodeFrames] at hd
    cases hf : decodeFrame env nD E N (startP + s) hu (t : Int) with
    | error e => rw [hf] at hd; simp at hd
    | ok hu1 =>
      rw [hf] at hd
      simp only at hd
      obtain ⟨hp1, hfp, hsim1⟩ :=
        decodeFrame_shifted env hnv s c hlse nD E N startP hu hu1 hp t (by omega) hsim hf
      obtain ⟨hp', hdp, hsim'⟩ := ih (t + 1) hu1 hu' hp1 hsim1 hd
      refine ⟨hp', ?_, hsim'⟩
      simp only [decodeFrames, hfp]
      exact hdp

theorem shifted_congr (s : Int) (c : Score) (hu hu' hp hp' : HypMap)
    (heu : ∀ k, HypMap.get hu' k = HypMap.get hu k)
    (hep : ∀ k, HypMap.get hp' k = HypMap.get hp k) (hsim : Shifted s c hu hp) :
    Shifted s c hu' hp' := by
  intro k
  rw [hep, heu]
  exact hsim k

theorem decodeStep_shifted (env : DecoderEnv)
    (hnv : ∀ label, env.dictCustomVocab label = false) (s : Int) (c : Score)
    (hlse : env.opt.logAdd = true →
      ∀ a b, env.logSumExp (a - c) (b - c) = env.logSumExp a b - c)
    (du du' dp : LexiconDecoder) (E : Int → Score) (T : Nat) (N : Int)
    (hsim : PrunedSim s c du dp)
    (hd : decodeStep env du E (T : Int) N = Except.ok du') :
    ∃ dp', decodeStep env dp E (T : Int) N = Except.ok dp' ∧ PrunedSim s c du' dp' := by
  obtain ⟨hD, hL, h0, hsh⟩ := hsim
  obtain ⟨hf, hD', hP'⟩ := decodeStep_ok env du du' E T N hd
  unfold liveFrame at hL h0
  have hstart : du.nDecodedFrames - du.nPrunedFrames =
      dp.nDecodedFrames - dp.nPrunedFrames + s := hL
  rw [hstart, hD] at hf
  have hext : Shifted s c
      (HypMap.extend du.hyp (dp.nDecodedFrames - dp.nPrunedFrames + s + T + 2))
      (HypMap.extend dp.hyp (dp.nDecodedFrames - dp.nPrunedFrames + T + 2)) :=
    shifted_congr s c _ _ _ _ (fun k => HypMap.get_extend du.hyp _ k)
      (fun k => HypMap.get_extend dp.hyp _ k) hsh
  obtain ⟨hp', hdp, hsim'⟩ := decodeFrames_shifted env hnv s c hlse dp.nDecodedFrames E N
    (dp.nDecodedFrames - dp.nPrunedFrames) h0 (T : Int).toNat 0 _ du'.hyp _ hext hf
  refine ⟨{ hyp := hp', nDecodedFrames := dp.nDecodedFrames + T,
            nPrunedFrames := dp.nPrunedFrames }, ?_, ?_⟩
  · have hN : ¬ N < 0 := not_lt.mpr (decodeStep_nonneg env du du' E T N hd)
    unfold decodeStep
    simp only [hdp, if_neg hN]
  · refine ⟨by rw [hD', hD], ?_, ?_, hsim'⟩
    · unfold liveFrame
      simp only
      omega
    · unfold liveFrame
      simp only
      omega

theorem decodeSteps_shifted (env : DecoderEnv)
    (hnv : ∀ label, env.dictCustomVocab label = false) (s : Int) (c : Score)
    (hlse : env.opt.logAdd = true →
      ∀ a b, env.logSumExp (a - c) (b - c) = env.logSumExp a b - c)
    (calls : List StepCall) :
    ∀ (du du' dp : LexiconDecoder), PrunedSim s c du dp →
    decodeSteps env du calls = Except.ok du' →
    ∃ dp', decodeSteps env dp calls = Except.ok dp' ∧ PrunedSim s c du' dp' := by
  induction calls with
  | nil =>
    intro du du' dp hsim hd
    simp only [decodeSteps, Except.ok.injEq] at hd
    subst hd
    exact ⟨dp, rfl, hsim⟩
  | cons call rest ih =>
    intro du du' dp hsim hd
    simp only [decodeSteps] at hd
    cases hf : decodeStep env du call.emissions (call.T : Int) call.N with
    | error e => rw [hf] at hd; simp at hd
    | ok du1 =>
      rw [hf] at hd
      simp only at hd
      obtain ⟨dp1, hfp, hsim1⟩ :=
        decodeStep_shifted env hnv s c hlse du du1 dp call.emissions call.T call.N hsim hf
      obtain ⟨dp', hdp, hsim'⟩ := ih du1 du' dp1 hsim1 hd
      refine ⟨dp', ?_, hsim'⟩
      simp only [decodeSteps, hfp]
      exact hdp

theorem finishProposals_rebase (env : DecoderEnv) (s : Int) (c : Score) (fp : Int)
    (h0 : 0 ≤ fp) (hyps : List LexiconDecoderState) :
    finishProposals env fp (hyps.map (rebaseState s c)) =
      (finishProposals env (fp + s) hyps).map (rebaseState s c) := by
  have hnice : hasNiceEnding env (hyps.map (rebaseState s c)) = hasNiceEnding env hyps := by
    unfold hasNiceEnding
    rw [List.any_map]
    rfl
  unfold finishProposals withRefs
  rw [List.enum_map, hnice]
  simp only [List.map_map, List.flatMap_map, List.map_flatMap]
  congr 1
  funext q
  simp only [Function.comp, Prod.map, id]
  unfold finishCandidate
  have e1 : (rebaseState s c q.2).score = q.2.score - c := rfl
  have e3 : (rebaseState s c q.2).lmState = q.2.lmState := rfl
  have e4 : (rebaseState s c q.2).lex = q.2.lex := rfl
  have e5 : (rebaseState s c q.2).emittingModelScore = q.2.emittingModelScore := rfl
  have e6 : (rebaseState s c q.2).lmScore = q.2.lmScore := rfl
  rw [e1, e3, e4, e5, e6]
  by_cases hg : hasNiceEnding env hyps = false ∨ q.2.lex = env.lexicon.root
  · rw [if_pos hg, if_pos hg]
    simp only [List.map_cons, List.map_nil, rebaseState_mk s c fp h0]
    congr 2
    ring
  · rw [if_neg hg, if_neg hg]
    rfl

theorem decodeEnd_shifted (env : DecoderEnv) (s : Int) (c : Score)
    (hlse : env.opt.logAdd = true →
      ∀ a b, env.logSumExp (a - c) (b - c) = env.logSumExp a b - c)
    (du dp : LexiconDecoder) (hsim : PrunedSim s c du dp) :
    PrunedSim s c (decodeEnd env du) (decodeEnd env dp) := by
  obtain ⟨hD, hL, h0, hsh⟩ := hsim
  refine ⟨by simp only [decodeEnd]; omega, ?_, ?_, ?_⟩
  · simp only [liveFrame, decodeEnd] at hL ⊢; omega
  · simp only [liveFrame, decodeEnd] at h0 ⊢; omega
  · intro k
    have hreset : candidatesReset = rebaseBuffer s c candidatesReset := rfl
    rw [decodeEnd_get, decodeEnd_get]
    by_cases hk : k = liveFrame dp + 1
    · have hk' : k + s = liveFrame du + 1 := by omega
      have hk0 : 0 ≤ k := by omega
      rw [if_pos hk, if_pos hk0, if_pos hk']
      rw [hsh (liveFrame dp), if_pos h0, hsh (liveFrame dp + 1), if_pos (by omega),
        finishProposals_rebase env s c _ h0, hreset,
        foldl_candidatesAdd_rebase env s c hlse, scoreFloor_rebase]
      have e1 : liveFrame dp + s = liveFrame du := by omega
      have e2 : liveFrame dp + 1 + s = liveFrame du + 1 := by omega
      rw [e1, e2]
      exact candidatesStore_rebase s c _ _ _ _ _ _
    · have hk' : ¬ k + s = liveFrame du + 1 := by omega
      rw [if_neg hk, if_neg hk']
      exact hsh k

/-! ### Backtracking in the pruned and in the unpruned buffer -/

theorem wordsOf_append (l1 l2 : List LexiconDecoderState) :
    wordsOf (l1 ++ l2) = wordsOf l1 ++ wordsOf l2 := by
  simp [wordsOf]

theorem wordsOf_rebase_singleton (s : Int) (c : Score) (x : LexiconDecoderState) :
    wordsOf [rebaseState s c x] = wordsOf [x] := rfl

theorem bestSlotFrom_rebase (s : Int) (c : Score) (l : List LexiconDecoderState) :
    ∀ n, bestSlotFrom n (l.map (rebaseState s c)) =
      (bestSlotFrom n l).map (fun q => (q.1, q.2 - c)) := by
  induction l with
  | nil => intro n; rfl
  | cons x rest ih =>
    intro n
    have e1 : (rebaseState s c x).score = x.score - c := rfl
    simp only [List.map_cons, bestSlotFrom, ih, e1]
    cases hb : bestSlotFrom (n + 1) rest with
    | none => rfl
    | some q =>
      obtain ⟨j, b⟩ := q
      simp only [Option.map_some']
      by_cases hlt : x.score < b
      · have hlt' : x.score - c < b - c := by linarith
        rw [if_pos hlt, if_pos hlt']
        rfl
      · have hlt' : ¬ x.score - c < b - c := by linarith
        rw [if_neg hlt, if_neg hlt']
        rfl

theorem backtrack_succ_some (h : HypMap) (n : Nat) (r : HypRef) (x : LexiconDecoderState)
    (hres : HypMap.resolve h r = some x) :
    backtrack h (n + 1) (some r) = backtrack h n x.parent ++ [x] := by
  simp only [backtrack, hres]

theorem chain_split (R : LexiconDecoderState → LexiconDecoderState → Prop)
    (env : DecoderEnv) (hu hp : HypMap) (top : Int) (s : Nat) (c : Score)
    (hinv : FramesInv R env hu top) (hsim : Shifted (s : Int) c hu hp) :
    ∀ (k : Nat) (i : Nat) (x : LexiconDecoderState),
      (HypMap.get hu ((k : Int) + (s : Int)))[i]? = some x →
      ∃ (a : HypRef) (xa : LexiconDecoderState),
        ancestor hu k ((k : Int) + (s : Int), i) = some a ∧ a.1 = (s : Int) ∧
        HypMap.resolve hu a = some xa ∧
        wordsOf (backtrack hu (k + s + 1) (some ((k : Int) + (s : Int), i))) =
          wordsOf (backtrack hu s xa.parent) ++
            wordsOf (backtrack hp (k + 1) (some ((k : Int), i))) := by
  obtain ⟨_, _, _, hlink⟩ := hinv
  intro k
  induction k with
  | zero =>
    intro i x hx
    simp only [Nat.cast_zero, zero_add] at hx ⊢
    have hres : HypMap.resolve hu ((s : Int), i) = some x := by
      rw [HypMap.resolve_eq_get]; exact hx
    have hresp : HypMap.resolve hp (0, i) = some (rebaseState (s : Int) c x) := by
      rw [HypMap.resolve_eq_get, hsim 0, if_pos (le_refl _)]
      simp only [zero_add, List.getElem?_map, hx, Option.map_some']
    refine ⟨((s : Int), i), x, rfl, rfl, hres, ?_⟩
    rw [backtrack_succ_some hu _ _ x hres, backtrack_succ_some hp _ _ _ hresp,
      wordsOf_append, wordsOf_append]
    simp only [backtrack, wordsOf, List.map_nil, List.filter_nil, List.nil_append]
    rfl
  | succ k ih =>
    intro i x hx
    have hmem : x ∈ HypMap.get hu (((k + 1 : Nat) : Int) + (s : Int)) := List.getElem?_mem hx
    obtain ⟨i', x', hp1, hp2, _⟩ := hlink _ (by push_cast; omega) x hmem
    have e : ((k + 1 : Nat) : Int) + (s : Int) - 1 = (k : Int) + (s : Int) := by
      push_cast; omega
    rw [e] at hp1 hp2
    obtain ⟨a, xa, ha1, ha2, ha3, hw⟩ := ih i' x' hp2
    have hres : HypMap.resolve hu (((k + 1 : Nat) : Int) + (s : Int), i) = some x := by
      rw [HypMap.resolve_eq_get]; exact hx
    have hresp : HypMap.resolve hp (((k + 1 : Nat) : Int), i) =
        some (rebaseState (s : Int) c x) := by
      rw [HypMap.resolve_eq_get, hsim _, if_pos (by push_cast; omega)]
      simp only [List.getElem?_map, hx, Option.map_some']
    have hpar : (rebaseState (s : Int) c x).parent = some ((k : Int), i') := by
      have h1 : ¬ ((k : Int) + (s : Int) < (s : Int)) := by omega
      simp [rebaseState, hp1, h1]
    refine ⟨a, xa, ?_, ha2, ha3, ?_⟩
    · simp only [ancestor, hres, hp1]
      exact ha1
    · have e2 : k + 1 + s + 1 = (k + s + 1) + 1 := by omega
      rw [e2, backtrack_succ_some hu _ _ x hres, backtrack_succ_some hp _ _ _ hresp,
        hp1, hpar, wordsOf_append, wordsOf_append, hw, List.append_assoc]
      rfl

theorem backtrack_agree (R : LexiconDecoderState → LexiconDecoderState → Prop)
    (env : DecoderEnv) (h h' : HypMap) (top F : Int) (hinv : FramesInv R env h top)
    (hagree : ∀ k : Int, k ≤ F → HypMap.get h' k = HypMap.get h k) :
    ∀ (fuel : Nat) (r : Option HypRef), (∀ q, r = some q → q.1 ≤ F) →
      backtrack h' fuel r = backtrack h fuel r := by
  obtain ⟨hseed, hneg, _, hlink⟩ := hinv
  intro fuel
  induction fuel with
  | zero => intro r _; simp [backtrack]
  | succ n ih =>
    intro r hr
    cases r with
    | none => simp [backtrack]
    | some q =>
      obtain ⟨f, i⟩ := q
      have hf : f ≤ F := hr (f, i) rfl
      have hres : HypMap.resolve h' (f, i) = HypMap.resolve h (f, i) := by
        rw [HypMap.resolve_eq_get, HypMap.resolve_eq_get, hagree f hf]
      simp only [backtrack, hres]
      cases hx : HypMap.resolve h (f, i) with
      | none => rfl
      | some x =>
        simp only
        have hpar : ∀ q, x.parent = some q → q.1 ≤ F := by
          intro q hq
          rw [HypMap.resolve_eq_get] at hx
          have hmem : x ∈ HypMap.get h f := List.getElem?_mem hx
          by_cases hf1 : 1 ≤ f
          · obtain ⟨i', _, hp1, _, _⟩ := hlink f hf1 x hmem
            rw [hq] at hp1
            have := Option.some.inj hp1
            rw [this]
            simp only
            omega
          · by_cases hf0 : f = 0
            · subst hf0
              rw [hseed] at hmem
              simp only [List.mem_singleton] at hmem
              rw [hmem] at hq
              simp [seedState] at hq
            · rw [hneg f (by omega)] at hmem
              simp at hmem
        rw [ih x.parent hpar]

theorem decodeStep_get_below (env : DecoderEnv) (d d' : LexiconDecoder) (E : Int → Score)
    (T : Nat) (N : Int) (hd : decodeStep env d E (T : Int) N = Except.ok d') :
    liveFrame d ≤ liveFrame d' ∧
      ∀ k : Int, k ≤ liveFrame d → HypMap.get d'.hyp k = HypMap.get d.hyp k := by
  obtain ⟨hf, hD, hP⟩ := decodeStep_ok env d d' E T N hd
  refine ⟨by unfold liveFrame; omega, ?_⟩
  intro k hk
  unfold liveFrame at hk
  rw [decodeFrames_get_below env _ E N _ _ 0 _ d'.hyp hf k (by simpa using hk),
    HypMap.get_extend]

theorem decodeSteps_get_below (env : DecoderEnv) (calls : List StepCall) :
    ∀ (d d' : LexiconDecoder), decodeSteps env d calls = Except.ok d' →
    liveFrame d ≤ liveFrame d' ∧
      ∀ k : Int, k ≤ liveFrame d → HypMap.get d'.hyp k = HypMap.get d.hyp k := by
  induction calls with
  | nil =>
    intro d d' hd
    simp only [decodeSteps, Except.ok.injEq] at hd
    subst hd
    exact ⟨le_refl _, fun _ _ => rfl⟩
  | cons call rest ih =>
    intro d d' hd
    simp only [decodeSteps] at hd
    cases hf : decodeStep env d call.emissions (call.T : Int) call.N with
    | error e => rw [hf] at hd; simp at hd
    | ok d1 =>
      rw [hf] at hd
      simp only at hd
      obtain ⟨h1, h2⟩ := decodeStep_get_below env d d1 call.emissions call.T call.N hf
      obtain ⟨h3, h4⟩ := ih d1 d' hd
      refine ⟨le_trans h1 h3, ?_⟩
      intro k hk
      rw [h4 k (le_trans hk h1), h2 k hk]

theorem decodeSteps_reachableNoPrune (env : DecoderEnv) (calls : List StepCall) :
    ∀ (d d' : LexiconDecoder), ReachableNoPrune env d →
    decodeSteps env d calls = Except.ok d' → ReachableNoPrune env d' := by
  induction calls with
  | nil =>
    intro d d' hr hd
    simp only [decodeSteps, Except.ok.injEq] at hd
    subst hd
    exact hr
  | cons call rest ih =>
    intro d d' hr hd
    simp only [decodeSteps] at hd
    cases hf : decodeStep env d call.emissions (call.T : Int) call.N with
    | error e => rw [hf] at hd; simp at hd
    | ok d1 =>
      rw [hf] at hd
      simp only at hd
      exact ih d1 d' (ReachableNoPrune.step call.emissions call.T call.N hr hf) hd

/-! ### The round trip -/

theorem prune_cases_committed (env : DecoderEnv) (d d' : LexiconDecoder) (lookBack : Int)
    (hp : prune env d lookBack = Except.ok d') :
    (d' = d ∧ committedWords d lookBack = []) ∨
      (1 ≤ liveFrame d - lookBack ∧
        (∃ a, findBestAncestor d.hyp (liveFrame d) (HypMap.get d.hyp (liveFrame d))
          lookBack = some a) ∧
        d' = { hyp := pruneAndNormalize d.hyp (liveFrame d - lookBack) lookBack,
               nDecodedFrames := d.nDecodedFrames,
               nPrunedFrames := d.nDecodedFrames - lookBack }) := by
  unfold prune at hp
  unfold committedWords liveFrame
  by_cases hg : d.nDecodedFrames - d.nPrunedFrames - lookBack < 1
  · simp only [hg, if_true, Except.ok.injEq] at hp
    left
    exact ⟨hp.symm, by rw [if_pos hg]⟩
  · simp only [hg, if_false] at hp
    cases hf : HypMap.find d.hyp (d.nDecodedFrames - d.nPrunedFrames) with
    | none => rw [hf] at hp; simp at hp
    | some finalHyps =>
      rw [hf] at hp
      simp only at hp
      have hget : HypMap.get d.hyp (d.nDecodedFrames - d.nPrunedFrames) = finalHyps := by
        unfold HypMap.get; rw [hf]; rfl
      rw [hget]
      cases hb : findBestAncestor d.hyp (d.nDecodedFrames - d.nPrunedFrames) finalHyps
          lookBack with
      | none =>
        rw [hb] at hp
        simp only [Except.ok.injEq] at hp
        left
        exact ⟨hp.symm, by rw [if_neg hg]⟩
      | some r =>
        rw [hb] at hp
        simp only [Except.ok.injEq] at hp
        right
        exact ⟨by omega, ⟨r, rfl⟩, hp.symm⟩

theorem getBestHypothesis_after_end (env : DecoderEnv) (d : LexiconDecoder)
    (h0 : 0 ≤ liveFrame d) :
    getBestHypothesis env (decodeEnd env d) 0 =
      Except.ok (getHypothesis (decodeEnd env d).hyp
        (findBestAncestor (decodeEnd env d).hyp (liveFrame (decodeEnd env d))
          (HypMap.get (decodeEnd env d).hyp (liveFrame (decodeEnd env d))) 0)
        (liveFrame (decodeEnd env d))) := by
  have hlive : liveFrame (decodeEnd env d) = liveFrame d + 1 := by
    simp only [liveFrame, decodeEnd]; omega
  have hpres := decodeEnd_present env d (liveFrame d + 1) (Or.inr rfl)
  rw [← hlive] at hpres
  unfold getBestHypothesis
  unfold liveFrame at hlive h0 hpres ⊢
  have hg : ¬ ((decodeEnd env d).nDecodedFrames - (decodeEnd env d).nPrunedFrames - 0 < 1) := by
    omega
  rw [if_neg hg]
  cases hf : HypMap.find (decodeEnd env d).hyp
      ((decodeEnd env d).nDecodedFrames - (decodeEnd env d).nPrunedFrames) with
  | none => exact absurd hf hpres
  | some v =>
    have hget : HypMap.get (decodeEnd env d).hyp
        ((decodeEnd env d).nDecodedFrames - (decodeEnd env d).nPrunedFrames) = v := by
      unfold HypMap.get; rw [hf]; rfl
    simp only [hget, sub_zero]

theorem findBestAncestor_zero (h : HypMap) (frame : Int) (finals : List LexiconDecoderState) :
    findBestAncestor h frame finals 0 =
      (bestSlotFrom 0 finals).map (fun q => (frame, q.1)) := by
  unfold findBestAncestor
  cases bestSlotFrom 0 finals with
  | none => rfl
  | some q => rfl

theorem bestSlotFrom_some (l : List LexiconDecoderState) :
    ∀ (n j : Nat) (b : Score), bestSlotFrom n l = some (j, b) →
      n ≤ j ∧ ∃ x, l[j - n]? = some x := by
  induction l with
  | nil => intro n j b h; simp [bestSlotFrom] at h
  | cons y rest ih =>
    intro n j b h
    simp only [bestSlotFrom] at h
    cases hb : bestSlotFrom (n + 1) rest with
    | none =>
      rw [hb] at h
      simp only [Option.some.injEq, Prod.mk.injEq] at h
      obtain ⟨h1, _⟩ := h
      subst h1
      exact ⟨le_refl _, y, by simp⟩
    | some q =>
      obtain ⟨j', b'⟩ := q
      rw [hb] at h
      simp only at h
      by_cases hlt : y.score < b'
      · rw [if_pos hlt] at h
        simp only [Option.some.injEq, Prod.mk.injEq] at h
        obtain ⟨h1, _⟩ := h
        subst h1
        obtain ⟨hle, x, hx⟩ := ih (n + 1) j' b' hb
        refine ⟨by omega, x, ?_⟩
        have e : j' - n = (j' - (n + 1)) + 1 := by omega
        rw [e, List.getElem?_cons_succ]
        exact hx
      · rw [if_neg hlt] at h
        simp only [Option.some.injEq, Prod.mk.injEq] at h
        obtain ⟨h1, _⟩ := h
        subst h1
        exact ⟨le_refl _, y, by simp⟩

theorem reachableNoPrune_reachable (env : DecoderEnv) (d : LexiconDecoder)
    (hr : ReachableNoPrune env d) : Reachable env d := by
  induction hr with
  | begin d0 => exact Reachable.begin d0
  | step E T N _ hd ih => exact Reachable.step E T N ih hd
  | finish _ ih => exact Reachable.finish ih

theorem prune_ok_of_reachable (env : DecoderEnv) (d : LexiconDecoder) (hr : Reachable env d)
    (lookBack : Int) : ∃ d', prune env d lookBack = Except.ok d' := by
  obtain ⟨h0, hpres⟩ := reachable_livePresent env d hr
  have hlive := hpres (liveFrame d) h0 (le_refl _)
  unfold liveFrame at hlive
  unfold prune
  by_cases hg : d.nDecodedFrames - d.nPrunedFrames - lookBack < 1
  · exact ⟨d, by rw [if_pos hg]⟩
  · rw [if_neg hg]
    cases hf : HypMap.find d.hyp (d.nDecodedFrames - d.nPrunedFrames) with
    | none => exact absurd hf hlive
    | some finalHyps =>
      simp only
      cases findBestAncestor d.hyp (d.nDecodedFrames - d.nPrunedFrames) finalHyps lookBack with
      | none => exact ⟨d, rfl⟩
      | some r =>
        simp only [hg, if_false]
        exact ⟨_, rfl⟩

theorem finalWords_eq (env : DecoderEnv) (d : LexiconDecoder) (h0 : 0 ≤ liveFrame d) :
    finalWords env d =
      Except.ok (getHypothesis (decodeEnd env d).hyp
        (findBestAncestor (decodeEnd env d).hyp (liveFrame (decodeEnd env d))
          (HypMap.get (decodeEnd env d).hyp (liveFrame (decodeEnd env d))) 0)
        (liveFrame (decodeEnd env d))).words := by
  unfold finalWords
  rw [getBestHypothesis_after_end env d h0]

theorem getHypothesis_words (h : HypMap) (r : HypRef) (x : LexiconDecoderState)
    (finalFrame : Int) (hres : HypMap.resolve h r = some x) :
    (getHypothesis h (some r) finalFrame).words =
      wordsOf (backtrack h (finalFrame + 1).toNat (some r)) := by
  simp only [getHypothesis, hres]

theorem round_trip_pruned (env : DecoderEnv)
    (hnv : ∀ label, env.dictCustomVocab label = false)
    (hlse : env.opt.logAdd = true →
      ∀ a b c, env.logSumExp (a - c) (b - c) = env.logSumExp a b - c)
    (calls2 : List StepCall) (lookBack : Nat) (d1 du2 : LexiconDecoder) (s : Nat)
    (hr1 : ReachableNoPrune env d1)
    (h2 : decodeSteps env d1 calls2 = Except.ok du2)
    (hs : (s : Int) = liveFrame d1 - (lookBack : Int)) (hs1 : 1 ≤ s) (a0 : HypRef)
    (ha0 : findBestAncestor d1.hyp (liveFrame d1) (HypMap.get d1.hyp (liveFrame d1))
      (lookBack : Int) = some a0)
    (hdesc : findBestAncestor (decodeEnd env du2).hyp (liveFrame (decodeEnd env du2))
        (HypMap.get (decodeEnd env du2).hyp (liveFrame (decodeEnd env du2)))
        (liveFrame (decodeEnd env du2) - (s : Int)) = some a0) :
    ∃ dp2 wu wp,
      decodeSteps env
        { hyp := pruneAndNormalize d1.hyp (s : Int) (lookBack : Int),
          nDecodedFrames := d1.nDecodedFrames,
          nPrunedFrames := d1.nDecodedFrames - (lookBack : Int) } calls2 = Except.ok dp2 ∧
      finalWords env du2 = Except.ok wu ∧ finalWords env dp2 = Except.ok wp ∧
      wu = committedWords d1 (lookBack : Int) ++ wp := by
  have hrU : ReachableNoPrune env (decodeEnd env du2) :=
    ReachableNoPrune.finish (decodeSteps_reachableNoPrune env calls2 d1 du2 hr1 h2)
  obtain ⟨h01, hfr1⟩ := reachableNoPrune_graphInv env d1 hr1
  obtain ⟨h0U, hfrU⟩ := reachableNoPrune_graphInv env _ hrU
  obtain ⟨h0u2, _⟩ := reachableNoPrune_graphInv env du2
    (decodeSteps_reachableNoPrune env calls2 d1 du2 hr1 h2)
  have hsim0 : PrunedSim (s : Int) (committedScore d1.hyp (s : Int) (lookBack : Int)) d1
      { hyp := pruneAndNormalize d1.hyp (s : Int) (lookBack : Int),
        nDecodedFrames := d1.nDecodedFrames,
        nPrunedFrames := d1.nDecodedFrames - (lookBack : Int) } := by
    refine ⟨rfl, ?_, ?_, fun k => get_pruneAndNormalize d1.hyp _ _ k⟩
    · simp only [liveFrame] at hs ⊢; omega
    · simp only [liveFrame]; omega
  obtain ⟨dp2, hdp2, hsim2⟩ := decodeSteps_shifted env hnv (s : Int) _
    (fun h a b => hlse h a b _) calls2 d1 du2 _ hsim0 h2
  have h0p2 : 0 ≤ liveFrame dp2 := hsim2.2.2.1
  obtain ⟨_, hLE, h0P, hshE⟩ := decodeEnd_shifted env (s : Int) _
    (fun h a b => hlse h a b _) du2 dp2 hsim2
  refine ⟨dp2, _, _, hdp2, finalWords_eq env du2 h0u2, finalWords_eq env dp2 h0p2, ?_⟩
  -- the live frames of the two final decoders
  obtain ⟨K, hK⟩ : ∃ K : Nat, (K : Int) = liveFrame (decodeEnd env dp2) :=
    ⟨(liveFrame (decodeEnd env dp2)).toNat, Int.toNat_of_nonneg h0P⟩
  have hLU : liveFrame (decodeEnd env du2) = (K : Int) + (s : Int) := by omega
  rw [hLU] at hdesc hfrU ⊢
  rw [← hK]
  have hfin : HypMap.get (decodeEnd env dp2).hyp (K : Int) =
      (HypMap.get (decodeEnd env du2).hyp ((K : Int) + (s : Int))).map
        (rebaseState (s : Int) (committedScore d1.hyp (s : Int) (lookBack : Int))) := by
    rw [hshE (K : Int), if_pos (by omega)]
  -- the best final hypothesis
  unfold findBestAncestor at hdesc
  cases hb : bestSlotFrom 0
      (HypMap.get (decodeEnd env du2).hyp ((K : Int) + (s : Int))) with
  | none => rw [hb] at hdesc; simp at hdesc
  | some q =>
    obtain ⟨i, b⟩ := q
    rw [hb] at hdesc
    simp only at hdesc
    have hKs : ((K : Int) + (s : Int) - (s : Int)).toNat = K := by
      simp
    rw [hKs] at hdesc
    obtain ⟨_, x, hx⟩ := bestSlotFrom_some _ 0 i b hb
    simp only [Nat.sub_zero] at hx
    obtain ⟨a, xa, ha1, ha2, ha3, hw⟩ :=
      chain_split _ env (decodeEnd env du2).hyp (decodeEnd env dp2).hyp _ s _ hfrU hshE
        K i x hx
    rw [hdesc] at ha1
    have haa : a0 = a := Option.some.inj ha1
    subst haa
    -- the two word sequences
    have hresU : HypMap.resolve (decodeEnd env du2).hyp ((K : Int) + (s : Int), i) = some x := by
      rw [HypMap.resolve_eq_get]; exact hx
    have hresP : HypMap.resolve (decodeEnd env dp2).hyp ((K : Int), i) =
        some (rebaseState (s : Int) (committedScore d1.hyp (s : Int) (lookBack : Int)) x) := by
      rw [HypMap.resolve_eq_get, hfin]
      simp only [List.getElem?_map, hx, Option.map_some']
    have hbestP : bestSlotFrom 0 (HypMap.get (decodeEnd env dp2).hyp (K : Int)) =
        some (i, b - committedScore d1.hyp (s : Int) (lookBack : Int)) := by
      rw [hfin, bestSlotFrom_rebase, hb]
      rfl
    rw [findBestAncestor_zero, hb, findBestAncestor_zero, hbestP]
    simp only [Option.map_some']
    rw [getHypothesis_words _ _ x _ hresU, getHypothesis_words _ _ _ _ hresP]
    have e1 : ((K : Int) + (s : Int) + 1).toNat = K + s + 1 := by omega
    have e2 : ((K : Int) + 1).toNat = K + 1 := by omega
    rw [e1, e2, hw]
    congr 1
    -- the committed words
    have hagree : ∀ k : Int, k ≤ liveFrame d1 →
        HypMap.get (decodeEnd env du2).hyp k = HypMap.get d1.hyp k := by
      intro k hk
      obtain ⟨hle, hbelow⟩ := decodeSteps_get_below env calls2 d1 du2 h2
      rw [decodeEnd_get, if_neg (by omega)]
      exact hbelow k hk
    have hres1 : HypMap.resolve d1.hyp a0 = some xa := by
      obtain ⟨f, j⟩ := a0
      simp only at ha2
      rw [HypMap.resolve_eq_get] at ha3 ⊢
      rw [← hagree f (by omega)]
      exact ha3
    have hpar : ∀ q, xa.parent = some q → q.1 ≤ liveFrame d1 := by
      intro q hq
      obtain ⟨f, j⟩ := a0
      simp only at ha2
      rw [HypMap.resolve_eq_get] at hres1
      have hmem : xa ∈ HypMap.get d1.hyp f := List.getElem?_mem hres1
      obtain ⟨_, _, _, hlink⟩ := hfr1
      obtain ⟨i', _, hp1, _, _⟩ := hlink f (by omega) xa hmem
      rw [hq] at hp1
      have := Option.some.inj hp1
      rw [this]
      simp only
      omega
    have hback := backtrack_agree _ env d1.hyp (decodeEnd env du2).hyp _ (liveFrame d1)
      hfr1 hagree s xa.parent hpar
    unfold committedWords
    have hg : ¬ (liveFrame d1 - (lookBack : Int) < 1) := by omega
    rw [if_neg hg, ha0]
    simp only [hres1]
    rw [← hs, Int.toNat_ofNat, hback]

/-- Claim C1 (amended). Without a custom vocabulary (and with a log-sum-exp
that commutes with subtracting a constant), for every run `decodeBegin`, calls,
`prune(lookBack)` with `lookBack ≥ 0`, further calls, `decodeEnd`,
`getBestHypothesis(0)`: when the hypothesis returned by the same run without
`prune` has, at the frame where `prune` cut, the best ancestor that `prune`
committed, the pruned run succeeds and the unpruned word sequence is the words
committed by `prune` (those on the discarded frames of the path to that
ancestor) followed by the word sequence of the pruned run. -/
theorem prune_round_trip (env : DecoderEnv)
    (hnv : ∀ label, env.dictCustomVocab label = false)
    (hlse : env.opt.logAdd = true →
      ∀ a b c, env.logSumExp (a - c) (b - c) = env.logSumExp a b - c)
    (calls1 calls2 : List StepCall) (lookBack : Nat) (d1 du2 : LexiconDecoder)
    (h1 : decodeSteps env (decodeBegin env freshDecoder) calls1 = Except.ok d1)
    (h2 : decodeSteps env d1 calls2 = Except.ok du2)
    (hdesc : 1 ≤ liveFrame d1 - (lookBack : Int) →
      findBestAncestor (decodeEnd env du2).hyp (liveFrame (decodeEnd env du2))
          (HypMap.get (decodeEnd env du2).hyp (liveFrame (decodeEnd env du2)))
          (liveFrame (decodeEnd env du2) - (liveFrame d1 - (lookBack : Int))) =
        findBestAncestor d1.hyp (liveFrame d1) (HypMap.get d1.hyp (liveFrame d1))
          (lookBack : Int)) :
    ∃ wu wp, unprunedWords env calls1 calls2 = Except.ok wu ∧
      prunedWords env calls1 (lookBack : Int) calls2 = Except.ok wp ∧
      prunedPrefix env calls1 (lookBack : Int) =
        Except.ok (committedWords d1 (lookBack : Int)) ∧
      wu = committedWords d1 (lookBack : Int) ++ wp := by
  have hr1 : ReachableNoPrune env d1 :=
    decodeSteps_reachableNoPrune env calls1 _ d1 (ReachableNoPrune.begin freshDecoder) h1
  obtain ⟨dp, hp⟩ := prune_ok_of_reachable env d1 (reachableNoPrune_reachable env d1 hr1)
    (lookBack : Int)
  have hpre : prunedPrefix env calls1 (lookBack : Int) =
      Except.ok (committedWords d1 (lookBack : Int)) := by
    simp only [prunedPrefix, h1]
  rcases prune_cases_committed env d1 dp lookBack hp with ⟨hdp, hcw⟩ | ⟨hs, ⟨a0, ha0⟩, hdp⟩
  · subst hdp
    obtain ⟨h0u2, _⟩ := reachableNoPrune_graphInv env du2
      (decodeSteps_reachableNoPrune env calls2 dp du2 hr1 h2)
    obtain ⟨w, hw⟩ : ∃ w, finalWords env du2 = Except.ok w :=
      ⟨_, finalWords_eq env du2 h0u2⟩
    refine ⟨w, w, ?_, ?_, hpre, ?_⟩
    · simp only [unprunedWords, h1, h2]
      exact hw
    · simp only [prunedWords, h1, hp, h2]
      exact hw
    · rw [hcw]; rfl
  · obtain ⟨s, hs'⟩ : ∃ s : Nat, (s : Int) = liveFrame d1 - (lookBack : Int) :=
      ⟨(liveFrame d1 - (lookBack : Int)).toNat, Int.toNat_of_nonneg (by omega)⟩
    have hd := hdesc hs
    rw [ha0, ← hs'] at hd
    rw [← hs'] at hdp
    obtain ⟨dp2, wu, wp, hdp2, hwu, hwp, heq⟩ :=
      round_trip_pruned env hnv hlse calls2 lookBack d1 du2 s hr1 h2 hs' (by omega) a0 ha0 hd
    refine ⟨wu, wp, ?_, ?_, hpre, heq⟩
    · simp only [unprunedWords, h1, h2]
      exact hwu
    · rw [hdp] at hp
      simp only [prunedWords, h1, hp, hdp2]
      exact hwp

/-- Witness for `prune_round_trip`: `prune(0)` after two frames, then a frame
of blank; the best final hypothesis still descends from the committed one. -/
theorem prune_round_trip_witness :
    (∀ label, twoWordEnv.dictCustomVocab label = false) ∧
    decodeSteps twoWordEnv (decodeBegin twoWordEnv freshDecoder) firstCalls =
      Except.ok twoWordAfterTwo ∧
    decodeSteps twoWordEnv twoWordAfterTwo blankCalls = Except.ok twoWordAfterThree ∧
    findBestAncestor (decodeEnd twoWordEnv twoWordAfterThree).hyp
        (liveFrame (decodeEnd twoWordEnv twoWordAfterThree))
        (HypMap.get (decodeEnd twoWordEnv twoWordAfterThree).hyp
          (liveFrame (decodeEnd twoWordEnv twoWordAfterThree)))
        (liveFrame (decodeEnd twoWordEnv twoWordAfterThree) -
          (liveFrame twoWordAfterTwo - ((0 : Nat) : Int))) =
      findBestAncestor twoWordAfterTwo.hyp (liveFrame twoWordAfterTwo)
        (HypMap.get twoWordAfterTwo.hyp (liveFrame twoWordAfterTwo)) ((0 : Nat) : Int) ∧
    committedWords twoWordAfterTwo ((0 : Nat) : Int) = [0] ∧
    ∃ wu wp, unprunedWords twoWordEnv firstCalls blankCalls = Except.ok wu ∧
      prunedWords twoWordEnv firstCalls ((0 : Nat) : Int) blankCalls = Except.ok wp ∧
      prunedPrefix twoWordEnv firstCalls ((0 : Nat) : Int) =
        Except.ok (committedWords twoWordAfterTwo ((0 : Nat) : Int)) ∧
      wu = committedWords twoWordAfterTwo ((0 : Nat) : Int) ++ wp :=
  ⟨fun _ => rfl, except_of_toOption _ _ (by decide!), except_of_toOption _ _ (by decide!),
    by decide!, by decide!,
    prune_round_trip twoWordEnv (fun _ => rfl) (fun h => absurd h (by decide))
      firstCalls blankCalls 0 twoWordAfterTwo twoWordAfterThree
      (except_of_toOption _ _ (by decide!)) (except_of_toOption _ _ (by decide!))
      (fun _ => by decide!)⟩

/-! ## `decodeStep` and its arguments `T` and `N` -/

/-- Claim C11 (counterexample). `decodeStep` with `T = -1` right after
`decodeBegin` does not fail: it returns with the frames as they were and the
decoded-frame counter lowered from 0 to -1. Nor is `N` compared with anything:
on one decoder a step with `N = 4` and then a step with `N = 7` both succeed. -/
theorem decodeStep_negative_T_accepted :
    (decodeStep abEnv (decodeBegin abEnv freshDecoder) (fun _ => 0) (-1) 4).toOption =
      some { hyp := (decodeBegin abEnv freshDecoder).hyp,
             nDecodedFrames := -1, nPrunedFrames := 0 } ∧
    (-1 : Int) < (decodeBegin abEnv freshDecoder).nDecodedFrames ∧
    (decodeStep abEnv (decodeBegin abEnv freshDecoder) aaEmissions 1 4).toOption =
      some abAfterOne ∧
    (decodeStep abEnv abAfterOne (fun _ => 0) 1 7).toOption.isSome = true := by
  decide!

/-- Claim C11 (amended). `decodeStep` compares neither `T` nor `N` with any
configured value. With `N < 0` the call fails, the index vector of `N` entries
cannot be built. With `N ≥ 0` and `T ≤ 0` the call returns normally: no frame
is processed, every frame keeps its states, a frame key that was absent is
absent or empty afterwards, the pruned-frame counter is unchanged and the
decoded-frame counter becomes `nDecodedFrames_ + T`. -/
theorem decodeStep_unvalidated (env : DecoderEnv) (d : LexiconDecoder) (E : Int → Score)
    (T N : Int) :
    (N < 0 → decodeStep env d E T N = Except.error DecodeError.lengthError) ∧
    (0 ≤ N → T ≤ 0 →
      ∃ d', decodeStep env d E T N = Except.ok d' ∧
        d'.nDecodedFrames = d.nDecodedFrames + T ∧
        d'.nPrunedFrames = d.nPrunedFrames ∧
        (∀ k v, HypMap.find d.hyp k = some v → HypMap.find d'.hyp k = some v) ∧
        (∀ k, HypMap.find d.hyp k = none →
          HypMap.find d'.hyp k = none ∨ HypMap.find d'.hyp k = some []) ∧
        ∀ k, HypMap.get d'.hyp k = HypMap.get d.hyp k) := by
  constructor
  · intro hN
    unfold decodeStep
    simp only [if_pos hN]
  · intro hN hT
    have hN' : ¬ N < 0 := not_lt.mpr hN
    have hT' : T.toNat = 0 := Int.toNat_of_nonpos hT
    refine ⟨{ hyp := HypMap.extend d.hyp (d.nDecodedFrames - d.nPrunedFrames + T + 2),
              nDecodedFrames := d.nDecodedFrames + T,
              nPrunedFrames := d.nPrunedFrames }, ?_, rfl, rfl, ?_, ?_, ?_⟩
    · unfold decodeStep
      simp only [if_neg hN', hT', decodeFrames]
    · intro k v hf
      exact HypMap.find_extend_of_some _ _ _ _ hf
    · intro k hf
      rcases HypMap.find_extend_cases d.hyp (d.nDecodedFrames - d.nPrunedFrames + T + 2) k
        with h1 | ⟨_, h2⟩
      · left; rw [h1]; exact hf
      · right; exact h2
    · intro k
      exact HypMap.get_extend d.hyp _ k

/-- Witness for `decodeStep_unvalidated`: `N = -1`, and `T = -1` with `N = 4`,
right after `decodeBegin`. -/
theorem decodeStep_unvalidated_witness :
    ((-1 : Int) < 0 ∧
      decodeStep abEnv (decodeBegin abEnv freshDecoder) (fun _ => 0) 1 (-1) =
        Except.error DecodeError.lengthError) ∧
    ((0 : Int) ≤ 4 ∧ (-1 : Int) ≤ 0 ∧
      ∃ d', decodeStep abEnv (decodeBegin abEnv freshDecoder) (fun _ => 0) (-1) 4 =
          Except.ok d' ∧
        d'.nDecodedFrames = (decodeBegin abEnv freshDecoder).nDecodedFrames + (-1) ∧
        d'.nPrunedFrames = (decodeBegin abEnv freshDecoder).nPrunedFrames ∧
        (∀ k v, HypMap.find (decodeBegin abEnv freshDecoder).hyp k = some v →
          HypMap.find d'.hyp k = some v) ∧
        (∀ k, HypMap.find (decodeBegin abEnv freshDecoder).hyp k = none →
          HypMap.find d'.hyp k = none ∨ HypMap.find d'.hyp k = some []) ∧
        ∀ k, HypMap.get d'.hyp k = HypMap.get (decodeBegin abEnv freshDecoder).hyp k) :=
  ⟨⟨by decide,
      (decodeStep_unvalidated abEnv (decodeBegin abEnv freshDecoder) (fun _ => 0) 1 (-1)).1
        (by decide)⟩,
    ⟨by decide, by decide,
      (decodeStep_unvalidated abEnv (decodeBegin abEnv freshDecoder) (fun _ => 0) (-1) 4).2
        (by decide) (by decide)⟩⟩

/-! ## The candidates of branch (1), field by field -/

theorem childCandidate_ok (env : DecoderEnv) (ref : HypRef) (p : LexiconDecoderState)
    (n : Int) (lexId : Nat) (ems score : Score) (lmIn : LMStatePtr × Score)
    (y : LexiconDecoderState)
    (hy : Except.ok y ∈ childCandidate env ref p n lexId ems score lmIn) :
    (env.opt.criterionType ≠ CriterionType.CTC ∨ p.prevBlank = true ∨ n ≠ p.token) ∧
    (env.lexicon.node lexId).children ≠ [] ∧
    y = { score := score + env.opt.lmWeight *
            (if env.isLmToken then lmIn
              else (p.lmState, (env.lexicon.node lexId).maxScore - lexMaxScore env p.lex)).2,
          lmState := (if env.isLmToken then lmIn
              else (p.lmState, (env.lexicon.node lexId).maxScore - lexMaxScore env p.lex)).1,
          lex := lexId, parent := some ref, token := n, word := -1, prevBlank := false,
          emittingModelScore := p.emittingModelScore + ems,
          lmScore := p.lmScore + (if env.isLmToken then lmIn
              else (p.lmState, (env.lexicon.node lexId).maxScore - lexMaxScore env p.lex)).2 } := by
  unfold childCandidate at hy
  by_cases h1 : env.opt.criterionType ≠ CriterionType.CTC ∨ p.prevBlank = true ∨ n ≠ p.token
  · by_cases h2 : (env.lexicon.node lexId).children ≠ []
    · rw [if_pos h1, if_pos h2] at hy
      simp only [List.mem_singleton, Except.ok.injEq] at hy
      exact ⟨h1, h2, hy⟩
    · rw [if_pos h1, if_neg h2] at hy
      simp at hy
  · rw [if_neg h1] at hy
    simp at hy

theorem wordCandidate_ok (env : DecoderEnv) (ref : HypRef) (p : LexiconDecoderState)
    (n : Int) (lexId : Nat) (ems score : Score) (lmIn : LMStatePtr × Score) (label : Int)
    (y : LexiconDecoderState)
    (hy : Except.ok y ∈ wordCandidate env ref p n lexId ems score lmIn label) :
    ¬ (p.lex = env.lexicon.root ∧ p.token = n) ∧
    y.lmState = (if env.isLmToken then lmIn
        else ((env.lm.score p.lmState label).1,
              (env.lm.score p.lmState label).2 - lexMaxScore env p.lex)).1 ∧
    y.lex = env.lexicon.root ∧ y.parent = some ref ∧ y.token = n ∧ y.word = label ∧
    y.prevBlank = false ∧ y.emittingModelScore = p.emittingModelScore + ems ∧
    y.lmScore = p.lmScore + (if env.isLmToken then lmIn
        else ((env.lm.score p.lmState label).1,
              (env.lm.score p.lmState label).2 - lexMaxScore env p.lex)).2 ∧
    ((env.dictCustomVocab label = false ∧
        y.score = score + env.opt.lmWeight * (y.lmScore - p.lmScore) + env.opt.wordScore) ∨
      (env.dictCustomVocab label = true ∧
        scoreIncrement env (score + env.opt.lmWeight * (y.lmScore - p.lmScore) +
            env.opt.wordScore) (env.lexicon.node lexId).depth =
          Except.ok (y.score - (score + env.opt.lmWeight * (y.lmScore - p.lmScore) +
            env.opt.wordScore)))) := by
  unfold wordCandidate at hy
  by_cases h1 : p.lex = env.lexicon.root ∧ p.token = n
  · rw [if_pos h1] at hy
    simp at hy
  · rw [if_neg h1] at hy
    simp only at hy
    by_cases hv : env.dictCustomVocab label = true
    · simp only [hv, if_true] at hy
      cases hinc : scoreIncrement env
          (score + env.opt.lmWeight * (if env.isLmToken then lmIn
            else ((env.lm.score p.lmState label).1,
              (env.lm.score p.lmState label).2 - lexMaxScore env p.lex)).2 +
            env.opt.wordScore) (env.lexicon.node lexId).depth with
      | error e =>
        rw [hinc] at hy
        simp at hy
      | ok inc =>
        rw [hinc] at hy
        simp only [List.mem_singleton, Except.ok.injEq] at hy
        subst hy
        refine ⟨h1, rfl, rfl, rfl, rfl, rfl, rfl, rfl, rfl, Or.inr ⟨hv, ?_⟩⟩
        simp only [add_sub_cancel_left]
        exact hinc
    · have hv' : env.dictCustomVocab label = false := by
        cases h : env.dictCustomVocab label
        · rfl
        · exact absurd h hv
      simp only [hv', Bool.false_eq_true, if_false, List.mem_singleton, Except.ok.injEq] at hy
      subst hy
      refine ⟨h1, rfl, rfl, rfl, rfl, rfl, rfl, rfl, rfl, Or.inl ⟨hv', ?_⟩⟩
      simp only [add_sub_cancel_left]

theorem unkCandidate_ok (env : DecoderEnv) (ref : HypRef) (p : LexiconDecoderState)
    (n : Int) (lexId : Nat) (ems score : Score) (lmIn : LMStatePtr × Score)
    (y : LexiconDecoderState)
    (hy : Except.ok y ∈ unkCandidate env ref p n lexId ems score lmIn) :
    ∃ u, env.opt.unkScore = some u ∧ (env.lexicon.node lexId).labels = [] ∧
    y = { score := score + env.opt.lmWeight *
            (if env.isLmToken then lmIn
              else ((env.lm.score p.lmState env.unk).1,
                (env.lm.score p.lmState env.unk).2 - lexMaxScore env p.lex)).2 + u,
          lmState := (if env.isLmToken then lmIn
              else ((env.lm.score p.lmState env.unk).1,
                (env.lm.score p.lmState env.unk).2 - lexMaxScore env p.lex)).1,
          lex := env.lexicon.root, parent := some ref, token := n, word := env.unk,
          prevBlank := false,
          emittingModelScore := p.emittingModelScore + ems,
          lmScore := p.lmScore + (if env.isLmToken then lmIn
              else ((env.lm.score p.lmState env.unk).1,
                (env.lm.score p.lmState env.unk).2 - lexMaxScore env p.lex)).2 } := by
  unfold unkCandidate at hy
  cases hu : env.opt.unkScore with
  | none => rw [hu] at hy; simp at hy
  | some u =>
    rw [hu] at hy
    simp only at hy
    by_cases h1 : (env.lexicon.node lexId).labels = []
    · rw [if_pos h1] at hy
      simp only [List.mem_singleton, Except.ok.injEq] at hy
      exact ⟨u, rfl, h1, hy⟩
    · rw [if_neg h1] at hy
      simp at hy

/-! ## The CTC gate of branch (1) -/

/-- Claim C12 (counterexample). Criterion CTC, two frames that prefer token
`a = 0`. Over the lexicon `aa → [0, 0]` the hypothesis of frame 1 is inside the
word after token 0 with `prevBlank = false`, token 0 is a child of its trie node,
and frame 2 holds the word completion with token 0 and that parent. Over the
lexicon `aab → [0, 0, 1]` with unknown words, frame 2 holds the unknown-word
candidate with token 0 whose parent is the same kind of hypothesis. -/
theorem ctc_gate_spares_word_and_unk :
    aaEnv.opt.criterionType = CriterionType.CTC ∧
    (decodeStep aaEnv (decodeBegin aaEnv freshDecoder) aaEmissions 2 4).toOption.map
        (fun d => (HypMap.resolve d.hyp (1, 0), HypMap.resolve d.hyp (2, 0))) =
      some (some afterA,
            some { score := 0, lmState := 1, lex := 0, parent := some (1, 0), token := 0,
                   word := 0, prevBlank := false, emittingModelScore := 0, lmScore := 0 }) ∧
    findChild (aaEnv.lexicon.node afterA.lex).children afterA.token = some 2 ∧
    (aaEnv.lexicon.node 2).labels = [0] ∧
    aabEnv.opt.criterionType = CriterionType.CTC ∧
    (decodeStep aabEnv (decodeBegin aabEnv freshDecoder) aaEmissions 2 4).toOption.map
        (fun d => (HypMap.resolve d.hyp (1, 0), HypMap.resolve d.hyp (2, 1))) =
      some (some afterA,
            some { score := -1, lmState := 2, lex := 0, parent := some (1, 0), token := 0,
                   word := aabEnv.unk, prevBlank := false, emittingModelScore := 0,
                   lmScore := 0 }) ∧
    findChild (aabEnv.lexicon.node afterA.lex).children afterA.token = some 2 ∧
    (aabEnv.lexicon.node 2).labels = [] := by
  decide!

theorem emittingScore_ctc (env : DecoderEnv)
    (hctc : env.opt.criterionType = CriterionType.CTC) (nD : Int) (E : Int → Score)
    (t N n prevIdx : Int) : emittingScore env nD E t N n prevIdx = E (t * N + n) := by
  unfold emittingScore
  rw [if_neg]
  rintro ⟨_, h⟩
  rw [hctc] at h
  exact absurd h (by decide)

theorem tryChild_in_frame (env : DecoderEnv) (nD : Int) (E : Int → Score) (t N frame : Int)
    (hyps : List LexiconDecoderState) (slot : Nat) (p : LexiconDecoderState) (n : Int)
    (hp : hyps[slot]? = some p) (hn : n ∈ tokenBeam env E t N)
    (r : Except DecodeError LexiconDecoderState)
    (hr : r ∈ tryChild env nD E t N (frame, slot) p n) :
    r ∈ frameProposals env nD E t N frame hyps := by
  unfold frameProposals
  rw [List.mem_flatMap]
  refine ⟨((frame, slot), p), (withRefs_mem frame hyps _ p).mpr ⟨rfl, hp⟩, ?_⟩
  unfold expandHyp
  simp only [List.mem_append, List.mem_flatMap]
  exact Or.inl (Or.inl ⟨n, hn, hr⟩)

/-- Claim C12 (amended). With criterion CTC, for a live hypothesis `H` with
`prevBlank = false` whose own token is a child of its trie node, branch (1)
proposes no child extension for that token, and no word completion when `H` is
at the trie root: every candidate of branch (1) for that token returns to the
root and is a word completion (with `H` off the root) or the unknown word.
The other candidates are proposed. With `H` off the root, for every label of
the child node branch (1) yields the word completion with that label, token
`H.token` and parent `H`, with the score of lines 133-145 (the boosted score
for a label of the custom vocabulary, or the failure of the boost). When the
child node has no labels and `unkScore` is finite, branch (1) yields the
unknown-word candidate with token `H.token` and parent `H`. When `H` is a
hypothesis of the frame and its token is in the token beam, all of these are
among the candidates of the frame. -/
theorem ctc_gate_child_extension_only (env : DecoderEnv)
    (hctc : env.opt.criterionType = CriterionType.CTC)
    (nD : Int) (E : Int → Score) (t N : Int) (ref : HypRef) (H : LexiconDecoderState)
    (hpb : H.prevBlank = false) (lexId : Nat)
    (hfind : findChild (env.lexicon.node H.lex).children H.token = some lexId) :
    (∀ ems score lmIn, childCandidate env ref H H.token lexId ems score lmIn = []) ∧
    (H.lex = env.lexicon.root → ∀ ems score lmIn label,
      wordCandidate env ref H H.token lexId ems score lmIn label = []) ∧
    (∀ y, Except.ok y ∈ tryChild env nD E t N ref H H.token →
      y.parent = some ref ∧ y.token = H.token ∧ y.lex = env.lexicon.root ∧
      y.prevBlank = false ∧
      ((H.lex ≠ env.lexicon.root ∧ y.word ∈ (env.lexicon.node lexId).labels) ∨
        (y.word = env.unk ∧ (env.lexicon.node lexId).labels = [] ∧
          env.opt.unkScore ≠ none))) ∧
    (H.lex ≠ env.lexicon.root → ∀ label ∈ (env.lexicon.node lexId).labels,
      ∀ (lmSt : LMStatePtr × Score) (total : Score),
        lmSt = (if env.isLmToken then env.lm.score H.lmState H.token
          else ((env.lm.score H.lmState label).1,
                (env.lm.score H.lmState label).2 - lexMaxScore env H.lex)) →
        total = H.score + E (t * N + H.token) +
          (if H.token = env.sil then env.opt.silScore else 0) +
          env.opt.lmWeight * lmSt.2 + env.opt.wordScore →
        (env.dictCustomVocab label = false →
          Except.ok (wordState env ref H H.token lmSt (E (t * N + H.token)) total label) ∈
            tryChild env nD E t N ref H H.token) ∧
        (env.dictCustomVocab label = true →
          (scoreIncrement env total (env.lexicon.node lexId).depth).map
              (fun inc =>
                wordState env ref H H.token lmSt (E (t * N + H.token)) (total + inc) label) ∈
            tryChild env nD E t N ref H H.token)) ∧
    ((env.lexicon.node lexId).labels = [] → ∀ u, env.opt.unkScore = some u →
      ∀ (lmSt : LMStatePtr × Score),
        lmSt = (if env.isLmToken then env.lm.score H.lmState H.token
          else ((env.lm.score H.lmState env.unk).1,
                (env.lm.score H.lmState env.unk).2 - lexMaxScore env H.lex)) →
        Except.ok
            { score := H.score + E (t * N + H.token) +
                (if H.token = env.sil then env.opt.silScore else 0) +
                env.opt.lmWeight * lmSt.2 + u,
              lmState := lmSt.1, lex := env.lexicon.root, parent := some ref,
              token := H.token, word := env.unk, prevBlank := false,
              emittingModelScore := H.emittingModelScore + E (t * N + H.token),
              lmScore := H.lmScore + lmSt.2 } ∈
          tryChild env nD E t N ref H H.token) ∧
    (∀ (frame : Int) (hyps : List LexiconDecoderState) (slot : Nat),
      ref = (frame, slot) → hyps[slot]? = some H → H.token ∈ tokenBeam env E t N →
      ∀ r ∈ tryChild env nD E t N ref H H.token,
        r ∈ frameProposals env nD E t N frame hyps) := by
  have hgate : ¬ (env.opt.criterionType ≠ CriterionType.CTC ∨ H.prevBlank = true ∨
      H.token ≠ H.token) := by
    rintro (h | h | h)
    · exact h hctc
    · rw [hpb] at h
      exact absurd h (by decide)
    · exact h rfl
  have hems := emittingScore_ctc env hctc nD E t N H.token H.token
  have hscore : (if H.token = env.sil then H.score + E (t * N + H.token) + env.opt.silScore
      else H.score + E (t * N + H.token)) =
      H.score + E (t * N + H.token) + (if H.token = env.sil then env.opt.silScore else 0) := by
    by_cases hs : H.token = env.sil
    · rw [if_pos hs, if_pos hs]
    · rw [if_neg hs, if_neg hs, add_zero]
  refine ⟨?_, ?_, ?_, ?_, ?_, ?_⟩
  · intro ems score lmIn
    unfold childCandidate
    rw [if_neg hgate]
  · intro hroot ems score lmIn label
    unfold wordCandidate
    rw [if_pos ⟨hroot, rfl⟩]
  · intro y hy
    unfold tryChild at hy
    rw [hfind] at hy
    simp only [List.mem_append, List.mem_flatMap] at hy
    rcases hy with (hy | ⟨label, hl, hy⟩) | hy
    · exact absurd (childCandidate_ok env ref H _ lexId _ _ _ y hy).1 hgate
    · obtain ⟨hskip, _, hlex, hpar, htok, hword, hblank, _⟩ :=
        wordCandidate_ok env ref H _ lexId _ _ _ label y hy
      refine ⟨hpar, htok, hlex, hblank, Or.inl ⟨fun hr => hskip ⟨hr, rfl⟩, ?_⟩⟩
      rw [hword]
      exact hl
    · obtain ⟨u, hu, hlabels, rfl⟩ := unkCandidate_ok env ref H _ lexId _ _ _ y hy
      exact ⟨rfl, rfl, rfl, rfl, Or.inr ⟨rfl, hlabels, by rw [hu]; simp⟩⟩
  · intro hroot label hl lmSt total hlm htotal
    have hskip : ¬ (H.lex = env.lexicon.root ∧ H.token = H.token) := fun h => hroot h.1
    have hmem : ∀ r, r ∈ wordCandidate env ref H H.token lexId
        (emittingScore env nD E t N H.token H.token)
        (if H.token = env.sil then
            H.score + emittingScore env nD E t N H.token H.token + env.opt.silScore
          else H.score + emittingScore env nD E t N H.token H.token)
        (if env.isLmToken then env.lm.score H.lmState H.token else (0, 0)) label →
        r ∈ tryChild env nD E t N ref H H.token := by
      intro r hr
      unfold tryChild
      rw [hfind]
      simp only [List.mem_append, List.mem_flatMap]
      exact Or.inl (Or.inr ⟨label, hl, hr⟩)
    constructor
    · intro hv
      apply hmem
      unfold wordCandidate
      rw [if_neg hskip, hems, hscore]
      simp only [hv, Bool.false_eq_true, if_false, List.mem_singleton, Except.ok.injEq]
      rw [htotal, hlm]
      by_cases hl : env.isLmToken = true <;> simp [wordState, hl]
    · intro hv
      apply hmem
      unfold wordCandidate
      rw [if_neg hskip, hems, hscore]
      simp only [hv, if_true]
      rw [htotal, hlm]
      by_cases hl : env.isLmToken = true <;>
        simp only [hl, if_true, if_false, Bool.false_eq_true] <;>
        generalize scoreIncrement env _ (env.lexicon.node lexId).depth = inc <;>
        cases inc <;>
        simp [wordState, Except.map]
  · intro hlabels u hu lmSt hlm
    unfold tryChild
    rw [hfind]
    simp only [List.mem_append]
    refine Or.inr ?_
    unfold unkCandidate
    rw [hu]
    simp only
    rw [if_pos hlabels, hems, hscore, hlm]
    by_cases hl : env.isLmToken = true <;> simp [hl]
  · intro frame hyps slot href hH hn r hr
    subst href
    exact tryChild_in_frame env nD E t N frame hyps slot H H.token hH hn r hr

/-- Witness for `ctc_gate_child_extension_only`: the hypothesis `afterA` at
frame 1. Over the lexicon `aa → [0, 0]` the word completion with token 0 is
among the candidates of the frame; over `aab → [0, 0, 1]` with unknown words
branch (1) yields the unknown-word candidate with token 0. -/
theorem ctc_gate_child_extension_only_witness :
    (aaEnv.opt.criterionType = CriterionType.CTC ∧ afterA.prevBlank = false ∧
      findChild (aaEnv.lexicon.node afterA.lex).children afterA.token = some 2 ∧
      afterA.lex ≠ aaEnv.lexicon.root ∧ (0 : Int) ∈ (aaEnv.lexicon.node 2).labels ∧
      aaEnv.dictCustomVocab 0 = false ∧ [afterA][0]? = some afterA ∧
      afterA.token ∈ tokenBeam aaEnv aaEmissions 1 4 ∧
      Except.ok
          { score := 0, lmState := 1, lex := 0, parent := some (1, 0), token := 0,
            word := 0, prevBlank := false, emittingModelScore := 0, lmScore := 0 } ∈
        frameProposals aaEnv 0 aaEmissions 1 4 1 [afterA]) ∧
    (aabEnv.opt.criterionType = CriterionType.CTC ∧
      findChild (aabEnv.lexicon.node afterA.lex).children afterA.token = some 2 ∧
      (aabEnv.lexicon.node 2).labels = [] ∧ aabEnv.opt.unkScore = some (-1) ∧
      Except.ok
          { score := -1, lmState := 2, lex := 0, parent := some (1, 0), token := 0,
            word := aabEnv.unk, prevBlank := false, emittingModelScore := 0,
            lmScore := 0 } ∈
        tryChild aabEnv 0 aaEmissions 1 4 (1, 0) afterA afterA.token) := by
  have hword := ctc_gate_child_extension_only aaEnv (by decide) 0 aaEmissions 1 4 (1, 0)
    afterA (by decide) 2 (by decide)
  have hunk := ctc_gate_child_extension_only aabEnv (by decide) 0 aaEmissions 1 4 (1, 0)
    afterA (by decide) 2 (by decide)
  have h1 := hword.2.2.2.2.2 1 [afterA] 0 rfl rfl (by decide!) _
    ((hword.2.2.2.1 (by decide) 0 (by decide) _ _ rfl rfl).1 (by decide))
  have h2 := hunk.2.2.2.2.1 (by decide) (-1) (by decide!) _ rfl
  refine ⟨⟨by decide, by decide, by decide, by decide, by decide, by decide, rfl,
    by decide!, ?_⟩, by decide, by decide, by decide, by decide!, ?_⟩
  · convert h1 using 2
    decide!
  · convert h2 using 2
    decide!

/-! ## Stored hypotheses and the candidates they stand for -/

theorem keptAs_refl (env : DecoderEnv) (x : LexiconDecoderState) : KeptAs env x x :=
  ⟨sameButScore_refl x, fun _ => rfl⟩

theorem keptAs_trans (env : DecoderEnv) {x y z : LexiconDecoderState}
    (h1 : KeptAs env x y) (h2 : KeptAs env y z) : KeptAs env x z :=
  ⟨sameButScore_trans h1.1 h2.1, fun h => (h1.2 h).trans (h2.2 h)⟩

theorem mergeCandidate_kept (env : DecoderEnv) (e c : LexiconDecoderState) :
    KeptAs env (mergeCandidate env e c) e ∨ KeptAs env (mergeCandidate env e c) c := by
  unfold mergeCandidate
  by_cases h : e.score < c.score
  · right
    simp only [h, if_true]
    refine ⟨⟨rfl, rfl, rfl, rfl, rfl, rfl, rfl, rfl⟩, ?_⟩
    intro hla
    cases c
    simp only [hla, Bool.false_eq_true, if_false, LexiconDecoderState.mk.injEq, and_true]
    exact max_eq_right (le_of_lt h)
  · left
    simp only [h, if_false]
    refine ⟨⟨rfl, rfl, rfl, rfl, rfl, rfl, rfl, rfl⟩, ?_⟩
    intro hla
    cases e
    simp only [hla, Bool.false_eq_true, if_false, LexiconDecoderState.mk.injEq, and_true]
    exact max_eq_left (not_lt.mp h)

theorem mergeInto_kept (env : DecoderEnv) (c x : LexiconDecoderState)
    (l : List LexiconDecoderState) (hx : x ∈ mergeInto env c l) :
    ∃ y, (y = c ∨ y ∈ l) ∧ KeptAs env x y := by
  induction l with
  | nil =>
    simp only [mergeInto, List.mem_singleton] at hx
    subst hx
    exact ⟨x, Or.inl rfl, keptAs_refl env x⟩
  | cons e rest ih =>
    simp only [mergeInto] at hx
    by_cases hk : sameKey env e c = true
    · rw [if_pos hk, List.mem_cons] at hx
      rcases hx with hx | hx
      · subst hx
        rcases mergeCandidate_kept env e c with h | h
        · exact ⟨e, Or.inr (List.mem_cons_self _ _), h⟩
        · exact ⟨c, Or.inl rfl, h⟩
      · exact ⟨x, Or.inr (List.mem_cons_of_mem _ hx), keptAs_refl env x⟩
    · rw [if_neg hk, List.mem_cons] at hx
      rcases hx with hx | hx
      · subst hx
        exact ⟨x, Or.inr (List.mem_cons_self _ _), keptAs_refl env x⟩
      · obtain ⟨y, hy, hs⟩ := ih hx
        rcases hy with hy | hy
        · exact ⟨y, Or.inl hy, hs⟩
        · exact ⟨y, Or.inr (List.mem_cons_of_mem _ hy), hs⟩

theorem candidatesAdd_kept (env : DecoderEnv) (buf : CandidateBuffer)
    (c x : LexiconDecoderState) (hx : x ∈ (candidatesAdd env buf c).candidates) :
    ∃ y, (y = c ∨ y ∈ buf.candidates) ∧ KeptAs env x y := by
  unfold candidatesAdd at hx
  cases hb : buf.bestScore with
  | none =>
    rw [hb] at hx
    exact mergeInto_kept env c x _ hx
  | some b =>
    rw [hb] at hx
    by_cases hd : c.score < b - env.opt.beamThreshold
    · simp only [hd, if_true] at hx
      exact ⟨x, Or.inr hx, keptAs_refl env x⟩
    · simp only [hd, if_false] at hx
      exact mergeInto_kept env c x _ hx

theorem foldl_candidatesAdd_kept (env : DecoderEnv) (ps : List LexiconDecoderState) :
    ∀ (buf : CandidateBuffer) (x : LexiconDecoderState),
    x ∈ (ps.foldl (candidatesAdd env) buf).candidates →
    ∃ y, (y ∈ ps ∨ y ∈ buf.candidates) ∧ KeptAs env x y := by
  induction ps with
  | nil =>
    intro buf x hx
    exact ⟨x, Or.inr hx, keptAs_refl env x⟩
  | cons c rest ih =>
    intro buf x hx
    simp only [List.foldl_cons] at hx
    obtain ⟨y, hy, hs⟩ := ih _ x hx
    rcases hy with hy | hy
    · exact ⟨y, Or.inl (List.mem_cons_of_mem _ hy), hs⟩
    · obtain ⟨z, hz, hs2⟩ := candidatesAdd_kept env buf c y hy
      rcases hz with hz | hz
      · exact ⟨z, Or.inl (hz ▸ List.mem_cons_self _ _), keptAs_trans env hs hs2⟩
      · exact ⟨z, Or.inr hz, keptAs_trans env hs hs2⟩

theorem decodeFrame_new_origin (env : DecoderEnv) (nD : Int) (E : Int → Score) (N start : Int)
    (h h' : HypMap) (t : Int)
    (hd : decodeFrame env nD E N start h t = Except.ok h')
    (hempty : HypMap.get h (start + t + 1) = [])
    (x : LexiconDecoderState) (hx : x ∈ HypMap.get h' (start + t + 1)) :
    ∃ (slot : Nat) (p y : LexiconDecoderState),
      x.parent = some (start + t, slot) ∧ (HypMap.get h (start + t))[slot]? = some p ∧
      Except.ok y ∈ expandHyp env nD E t N (start + t, slot) p ∧ KeptAs env x y := by
  obtain ⟨proposals, hc, hg⟩ := decodeFrame_get_new env nD E N start h h' t hd
  rw [hg, hempty] at hx
  rcases candidatesStore_mem _ _ _ _ _ _ x hx with hx | hx
  · simp at hx
  · obtain ⟨y, hy, hs⟩ := foldl_candidatesAdd_kept env proposals candidatesReset x hx
    rcases hy with hy | hy
    · rw [collect_mem _ _ hc] at hy
      obtain ⟨slot, p, hp, hy⟩ := frameProposals_mem env nD E t N _ _ y hy
      obtain ⟨hpar, _⟩ := expandHyp_mem env nD E t N _ p y hy
      exact ⟨slot, p, y, hs.1.2.2.1.trans hpar, hp, hy, hs⟩
    · simp [candidatesReset] at hy

theorem decodeEnd_new_origin (env : DecoderEnv) (d : LexiconDecoder)
    (hempty : HypMap.get d.hyp (liveFrame d + 1) = [])
    (x : LexiconDecoderState) (hx : x ∈ HypMap.get (decodeEnd env d).hyp (liveFrame d + 1)) :
    ∃ (slot : Nat) (p : LexiconDecoderState),
      x.parent = some (liveFrame d, slot) ∧ (HypMap.get d.hyp (liveFrame d))[slot]? = some p ∧
      Closed env p x := by
  rw [decodeEnd_get, if_pos rfl, hempty] at hx
  rcases candidatesStore_mem _ _ _ _ _ _ x hx with hx | hx
  · simp at hx
  · obtain ⟨y, hy, hs⟩ := foldl_candidatesAdd_kept env _ candidatesReset x hx
    rcases hy with hy | hy
    · unfold finishProposals at hy
      rw [List.mem_flatMap] at hy
      obtain ⟨⟨r, p⟩, hm, hc⟩ := hy
      rw [withRefs_mem] at hm
      obtain ⟨h1, h2⟩ := hm
      have hpar : y.parent = some r := by
        unfold finishCandidate at hc
        split at hc
        · rw [List.mem_singleton] at hc
          rw [hc]
        · simp at hc
      have hr : r = (liveFrame d, r.2) := by rw [← h1]
      refine ⟨r.2, p, ?_, h2, _, r, y, hc, hs⟩
      rw [hs.1.2.2.1, hpar]
      exact congrArg some hr
    · simp [candidatesReset] at hy

theorem framesInv_decodeFrame_origin (R : LexiconDecoderState → LexiconDecoderState → Prop)
    (env : DecoderEnv) (hR : ∀ p x, Derived env p x → R p x)
    (nD : Int) (E : Int → Score) (N start : Int) (h h' : HypMap) (t : Int)
    (h0 : 0 ≤ start + t) (hinv : FramesInv R env h (start + t))
    (hd : decodeFrame env nD E N start h t = Except.ok h') :
    FramesInv R env h' (start + t + 1) := by
  obtain ⟨hseed, hneg, htop, hlink⟩ := hinv
  have hother : ∀ k, k ≠ start + t + 1 → HypMap.get h' k = HypMap.get h k :=
    fun k hk => decodeFrame_get_other env nD E N start h h' t hd k hk
  refine ⟨?_, ?_, ?_, ?_⟩
  · rw [hother 0 (by omega)]; exact hseed
  · intro k hk
    rw [hother k (by omega)]; exact hneg k hk
  · intro k hk
    rw [hother k (by omega)]; exact htop k (by omega)
  · intro k hk x hx
    by_cases hk1 : k = start + t + 1
    · subst hk1
      obtain ⟨slot, p, y, hp1, hp2, hp3, hp4⟩ :=
        decodeFrame_new_origin env nD E N start h h' t hd (htop _ (by omega)) x hx
      refine ⟨slot, p, ?_, ?_, hR p x ⟨y, ⟨nD, E, t, N, _, hp3⟩, hp4⟩⟩
      · rw [hp1]; simp
      · rw [hother _ (by omega)]
        have : start + t + 1 - 1 = start + t := by omega
        rw [this]; exact hp2
    · rw [hother k hk1] at hx
      obtain ⟨slot, p, hp1, hp2, hp3⟩ := hlink k hk x hx
      refine ⟨slot, p, hp1, ?_, hp3⟩
      by_cases hk2 : k - 1 = start + t + 1
      · have : HypMap.get h k = [] := htop k (by omega)
        rw [this] at hx
        simp at hx
      · rw [hother _ hk2]; exact hp2

theorem framesInv_decodeFrames_origin (R : LexiconDecoderState → LexiconDecoderState → Prop)
    (env : DecoderEnv) (hR : ∀ p x, Derived env p x → R p x)
    (nD : Int) (E : Int → Score) (N start : Int) (h0 : 0 ≤ start) (count : Nat) :
    ∀ (t : Nat) (h h' : HypMap), FramesInv R env h (start + (t : Int)) →
    decodeFrames env nD E N start t count h = Except.ok h' →
    FramesInv R env h' (start + (t : Int) + (count : Int)) := by
  induction count with
  | zero =>
    intro t h h' hinv hd
    simp only [decodeFrames, Except.ok.injEq] at hd
    subst hd
    simpa using hinv
  | succ n ih =>
    intro t h h' hinv hd
    simp only [decodeFrames] at hd
    cases hf : decodeFrame env nD E N start h (t : Int) with
    | error e => rw [hf] at hd; simp at hd
    | ok h1 =>
      rw [hf] at hd
      simp only at hd
      have hstep :=
        framesInv_decodeFrame_origin R env hR nD E N start h h1 t (by omega) hinv hf
      have e1 : start + ((t + 1 : Nat) : Int) = start + (t : Int) + 1 := by
        push_cast; omega
      have := ih (t + 1) h1 h' (by rw [e1]; exact hstep) hd
      have e2 : start + ((t + 1 : Nat) : Int) + (n : Int) =
          start + (t : Int) + ((n + 1 : Nat) : Int) := by
        push_cast; omega
      rw [← e2]; exact this

theorem graphInv_step_origin (R : LexiconDecoderState → LexiconDecoderState → Prop)
    (env : DecoderEnv) (hR : ∀ p x, Derived env p x → R p x)
    (d d' : LexiconDecoder) (E : Int → Score) (T : Nat) (N : Int)
    (hd : decodeStep env d E (T : Int) N = Except.ok d') (hinv : GraphInv R env d) :
    GraphInv R env d' := by
  obtain ⟨hf, hD, hP⟩ := decodeStep_ok env d d' E T N hd
  obtain ⟨h0, hfr⟩ := hinv
  unfold liveFrame at h0 hfr
  have hlive : liveFrame d' = d.nDecodedFrames - d.nPrunedFrames + (T : Int) := by
    unfold liveFrame; omega
  refine ⟨by rw [hlive]; omega, ?_⟩
  rw [hlive]
  have hext := framesInv_congr R env d.hyp
    (HypMap.extend d.hyp (d.nDecodedFrames - d.nPrunedFrames + T + 2)) _
    (fun k => HypMap.get_extend d.hyp _ k) hfr
  have := framesInv_decodeFrames_origin R env hR d.nDecodedFrames E N
    (d.nDecodedFrames - d.nPrunedFrames) h0 T 0 _ d'.hyp (by simpa using hext)
    (by simpa using hf)
  simpa using this

theorem graphInv_finish_origin (R : LexiconDecoderState → LexiconDecoderState → Prop)
    (env : DecoderEnv) (hR : ∀ p x, Closed env p x → R p x)
    (d : LexiconDecoder) (hinv : GraphInv R env d) : GraphInv R env (decodeEnd env d) := by
  obtain ⟨h0, hseed, hneg, htop, hlink⟩ := hinv
  have hlive : liveFrame (decodeEnd env d) = liveFrame d + 1 := by
    simp only [liveFrame, decodeEnd]; omega
  have hother : ∀ k, k ≠ liveFrame d + 1 →
      HypMap.get (decodeEnd env d).hyp k = HypMap.get d.hyp k :=
    fun k hk => by rw [decodeEnd_get, if_neg hk]
  refine ⟨by omega, ?_, ?_, ?_, ?_⟩
  · rw [hother 0 (by omega)]; exact hseed
  · intro k hk
    rw [hother k (by omega)]; exact hneg k hk
  · intro k hk
    rw [hother k (by omega)]; exact htop k (by omega)
  · intro k hk x hx
    by_cases hk1 : k = liveFrame d + 1
    · subst hk1
      obtain ⟨slot, p, hp1, hp2, hp3⟩ := decodeEnd_new_origin env d (htop _ (by omega)) x hx
      refine ⟨slot, p, ?_, ?_, hR p x hp3⟩
      · rw [hp1]; simp
      · rw [hother _ (by omega)]
        have : liveFrame d + 1 - 1 = liveFrame d := by omega
        rw [this]; exact hp2
    · rw [hother k hk1] at hx
      obtain ⟨slot, p, hp1, hp2, hp3⟩ := hlink k hk x hx
      refine ⟨slot, p, hp1, ?_, hp3⟩
      by_cases hk2 : k - 1 = liveFrame d + 1
      · have : HypMap.get d.hyp k = [] := htop k (by omega)
        rw [this] at hx
        simp at hx
      · rw [hother _ hk2]; exact hp2

theorem reachableBySteps_origin (env : DecoderEnv) (d : LexiconDecoder)
    (hr : ReachableBySteps env d) : GraphInv (Derived env) env d := by
  induction hr with
  | begin d0 => exact graphInv_begin _ env d0
  | step E T N _ hd ih => exact graphInv_step_origin _ env (fun _ _ h => h) _ _ E T N hd ih

theorem reachableNoPrune_origin (env : DecoderEnv) (d : LexiconDecoder)
    (hr : ReachableNoPrune env d) :
    GraphInv (fun p x => Derived env p x ∨ Closed env p x) env d := by
  induction hr with
  | begin d0 => exact graphInv_begin _ env d0
  | step E T N _ hd ih =>
    exact graphInv_step_origin _ env (fun _ _ h => Or.inl h) _ _ E T N hd ih
  | finish _ ih => exact graphInv_finish_origin _ env (fun _ _ h => Or.inr h) _ ih


/-! ## Branches (2) and (3), field by field -/

theorem trySame_ok (env : DecoderEnv) (nD : Int) (E : Int → Score) (t N : Int)
    (ref : HypRef) (p : LexiconDecoderState) (y : LexiconDecoderState)
    (hy : Except.ok y ∈ trySame env nD E t N ref p) :
    (env.opt.criterionType ≠ CriterionType.CTC ∨ p.prevBlank = false ∨
      p.lex = env.lexicon.root) ∧
    y = { score :=
            if sameNodeToken env p = env.sil then
              p.score + emittingScore env nD E t N (sameNodeToken env p) p.token +
                env.opt.silScore
            else p.score + emittingScore env nD E t N (sameNodeToken env p) p.token,
          lmState := p.lmState, lex := p.lex, parent := some ref,
          token := sameNodeToken env p, word := -1, prevBlank := false,
          emittingModelScore :=
            p.emittingModelScore + emittingScore env nD E t N (sameNodeToken env p) p.token,
          lmScore := p.lmScore } := by
  unfold trySame at hy
  by_cases h1 : env.opt.criterionType ≠ CriterionType.CTC ∨ p.prevBlank = false ∨
      p.lex = env.lexicon.root
  · rw [if_pos h1] at hy
    simp only [List.mem_singleton, Except.ok.injEq] at hy
    exact ⟨h1, hy⟩
  · rw [if_neg h1] at hy
    simp at hy

theorem tryBlank_ok (env : DecoderEnv) (E : Int → Score) (t N : Int)
    (ref : HypRef) (p : LexiconDecoderState) (y : LexiconDecoderState)
    (hy : Except.ok y ∈ tryBlank env E t N ref p) :
    env.opt.criterionType = CriterionType.CTC ∧
    y = { score := p.score + E (t * N + env.blank), lmState := p.lmState,
          lex := p.lex, parent := some ref, token := env.blank, word := -1,
          prevBlank := true,
          emittingModelScore := p.emittingModelScore + E (t * N + env.blank),
          lmScore := p.lmScore } := by
  unfold tryBlank at hy
  by_cases h1 : env.opt.criterionType = CriterionType.CTC
  · rw [if_pos h1] at hy
    simp only [List.mem_singleton, Except.ok.injEq] at hy
    exact ⟨h1, hy⟩
  · rw [if_neg h1] at hy
    simp at hy

/-! ## The LM score along a branch of the trie -/

theorem lexMaxScore_child (env : DecoderEnv) (hwf : WellFormedLexicon env) (i : Nat) (n : Int)
    (c : Nat) (hfind : findChild (env.lexicon.node i).children n = some c) :
    lexMaxScore env c = (env.lexicon.node c).maxScore := by
  unfold lexMaxScore
  rw [if_neg (hwf.1 i n c hfind)]

theorem proposes_lm (env : DecoderEnv) (hlm : env.isLmToken = false)
    (hwf : WellFormedLexicon env) (p y : LexiconDecoderState) (h : Proposes env p y) :
    (y.word = -1 ∧ y.lmState = p.lmState ∧
      y.lmScore - lexMaxScore env y.lex = p.lmScore - lexMaxScore env p.lex) ∨
    (0 ≤ y.word ∧ y.lmState = (env.lm.score p.lmState y.word).1 ∧
      y.lmScore = p.lmScore + ((env.lm.score p.lmState y.word).2 - lexMaxScore env p.lex)) := by
  obtain ⟨nD, E, t, N, ref, hy⟩ := h
  unfold expandHyp at hy
  simp only [List.mem_append, List.mem_flatMap] at hy
  rcases hy with (⟨n, _, hy⟩ | hy) | hy
  · unfold tryChild at hy
    cases hfind : findChild (env.lexicon.node p.lex).children n with
    | none => rw [hfind] at hy; simp at hy
    | some lexId =>
      rw [hfind] at hy
      simp only [List.mem_append, List.mem_flatMap] at hy
      rcases hy with (hy | ⟨label, hl, hy⟩) | hy
      · obtain ⟨_, _, rfl⟩ := childCandidate_ok env ref p n lexId _ _ _ y hy
        left
        refine ⟨rfl, by simp [hlm], ?_⟩
        simp only [hlm, Bool.false_eq_true, if_false]
        rw [lexMaxScore_child env hwf p.lex n lexId hfind]
        ring
      · obtain ⟨_, h2, _, _, _, h6, _, _, h9, _⟩ :=
          wordCandidate_ok env ref p n lexId _ _ _ label y hy
        right
        simp only [hlm, Bool.false_eq_true, if_false] at h2 h9
        rw [h6]
        exact ⟨hwf.2.1 lexId label hl, h2, h9⟩
      · obtain ⟨u, _, _, rfl⟩ := unkCandidate_ok env ref p n lexId _ _ _ y hy
        right
        exact ⟨hwf.2.2, by simp [hlm], by simp [hlm]⟩
  · obtain ⟨_, rfl⟩ := trySame_ok env nD E t N ref p y hy
    left
    exact ⟨rfl, rfl, rfl⟩
  · obtain ⟨_, rfl⟩ := tryBlank_ok env E t N ref p y hy
    left
    exact ⟨rfl, rfl, rfl⟩

theorem derived_lm (env : DecoderEnv) (hlm : env.isLmToken = false)
    (hwf : WellFormedLexicon env) (p x : LexiconDecoderState) (h : Derived env p x) :
    (x.word = -1 ∧ x.lmState = p.lmState ∧
      x.lmScore - lexMaxScore env x.lex = p.lmScore - lexMaxScore env p.lex) ∨
    (0 ≤ x.word ∧ x.lmState = (env.lm.score p.lmState x.word).1 ∧
      x.lmScore = p.lmScore + ((env.lm.score p.lmState x.word).2 - lexMaxScore env p.lex)) := by
  obtain ⟨y, hp, ⟨a1, a2, _, _, a5, _, _, a8⟩, _⟩ := h
  rw [a1, a2, a5, a8]
  exact proposes_lm env hlm hwf p y hp

theorem noWordChain_lm (env : DecoderEnv) (hlm : env.isLmToken = false)
    (hwf : WellFormedLexicon env) (h : HypMap) (top : Int)
    (hinv : FramesInv (Derived env) env h top)
    (rR : HypRef) (R : LexiconDecoderState) (hR : HypMap.resolve h rR = some R)
    (hroot : R.lex = env.lexicon.root) :
    ∀ (k : Nat) (rS : HypRef) (S : LexiconDecoderState),
      noWordChain h k rS rR = true → HypMap.resolve h rS = some S →
      S.lmState = R.lmState ∧ S.lmScore - R.lmScore = lexMaxScore env S.lex := by
  intro k
  induction k with
  | zero =>
    intro rS S hc hS
    simp only [noWordChain, decide_eq_true_eq] at hc
    subst hc
    rw [hR, Option.some.injEq] at hS
    subst hS
    refine ⟨rfl, ?_⟩
    unfold lexMaxScore
    rw [if_pos hroot]
    ring
  | succ k ih =>
    intro rS S hc hS
    simp only [noWordChain, hS, Bool.and_eq_true, decide_eq_true_eq] at hc
    obtain ⟨hword, hc⟩ := hc
    cases hpar : S.parent with
    | none => rw [hpar] at hc; simp at hc
    | some rp =>
      rw [hpar] at hc
      simp only at hc
      obtain ⟨slot', P, hp1, hp2, hp3⟩ : ∃ (slot' : Nat) (P : LexiconDecoderState),
          S.parent = some (rS.1 - 1, slot') ∧ HypMap.resolve h (rS.1 - 1, slot') = some P ∧
          Derived env P S := by
        obtain ⟨hseed, hneg, _, hlink⟩ := hinv
        obtain ⟨f, slot⟩ := rS
        rw [HypMap.resolve_eq_get] at hS
        have hmem : S ∈ HypMap.get h f := List.getElem?_mem hS
        have hf : 1 ≤ f := by
          by_contra hlt
          rcases lt_or_eq_of_le (show f ≤ 0 by omega) with hneg' | hzero
          · rw [hneg f hneg'] at hmem
            simp at hmem
          · subst hzero
            rw [hseed, List.mem_singleton] at hmem
            rw [hmem] at hpar
            simp [seedState] at hpar
        obtain ⟨slot', P, q1, q2, q3⟩ := hlink f hf S hmem
        exact ⟨slot', P, q1, by rw [HypMap.resolve_eq_get]; exact q2, q3⟩
      rw [hpar, Option.some.injEq] at hp1
      subst hp1
      obtain ⟨i1, i2⟩ := ih _ P hc hp2
      rcases derived_lm env hlm hwf P S hp3 with ⟨_, b2, b3⟩ | ⟨b1, _, _⟩
      · refine ⟨b2.trans i1, ?_⟩
        linarith
      · rw [hword] at b1
        exact absurd b1 (by decide)

theorem framesInv_parent (R : LexiconDecoderState → LexiconDecoderState → Prop)
    (env : DecoderEnv) (h : HypMap) (top : Int) (hinv : FramesInv R env h top)
    (r rp : HypRef) (s : LexiconDecoderState)
    (hs : HypMap.resolve h r = some s) (hpar : s.parent = some rp) :
    ∃ p, HypMap.resolve h rp = some p ∧ 1 ≤ r.1 ∧ rp.1 = r.1 - 1 ∧ R p s := by
  obtain ⟨hseed, hneg, _, hlink⟩ := hinv
  obtain ⟨k, slot⟩ := r
  rw [HypMap.resolve_eq_get] at hs
  have hmem : s ∈ HypMap.get h k := List.getElem?_mem hs
  have hk : 1 ≤ k := by
    by_contra hlt
    rcases lt_or_eq_of_le (show k ≤ 0 by omega) with hneg' | hzero
    · rw [hneg k hneg'] at hmem
      simp at hmem
    · subst hzero
      rw [hseed, List.mem_singleton] at hmem
      rw [hmem] at hpar
      simp [seedState] at hpar
  obtain ⟨slot', p', hp1, hp2, hp3⟩ := hlink k hk s hmem
  rw [hpar, Option.some.injEq] at hp1
  subst hp1
  exact ⟨p', by rw [HypMap.resolve_eq_get]; exact hp2, hk, rfl, hp3⟩

theorem lookaheadAfterTwo_run :
    decodeStep lookaheadEnv (decodeBegin lookaheadEnv freshDecoder) abEmissions 2 4 =
      Except.ok lookaheadAfterTwo :=
  except_of_toOption _ _ (by decide!)

theorem lookaheadEnv_wellFormed : WellFormedLexicon lookaheadEnv := by
  refine ⟨?_, ?_, by decide⟩
  · intro i n c h
    rcases i with _ | _ | _ | i <;>
      simp [lookaheadEnv, lookaheadTrie, findChild] at h ⊢ <;> omega
  · intro i l hl
    rcases i with _ | _ | _ | i <;>
      simp [lookaheadEnv, lookaheadTrie] at hl
    omega

/-- Claim C13. With `isLmToken = false` and a well-formed lexicon, in every
state reached by `decodeBegin` and `decodeStep` calls, take a stored state `R`
at the trie root. Every state reached from `R` through steps that carry no word
(child extensions, same-node steps, blanks) has the LM state of `R`, and its
`lmScore` exceeds that of `R` by exactly the look-ahead score of its trie node.
A state `W` with a word whose parent is on such a chain has the LM state and the
LM delta of `lm.score(R.lmState, W.word)`: `W.lmScore - R.lmScore` is exactly
that delta, the look-ahead scores added along the branch cancel. -/
theorem lookahead_cancels (env : DecoderEnv) (hlm : env.isLmToken = false)
    (hwf : WellFormedLexicon env) (d : LexiconDecoder) (hr : ReachableBySteps env d)
    (rR : HypRef) (R : LexiconDecoderState) (hR : HypMap.resolve d.hyp rR = some R)
    (hroot : R.lex = env.lexicon.root) :
    (∀ (k : Nat) (rS : HypRef) (S : LexiconDecoderState),
      noWordChain d.hyp k rS rR = true → HypMap.resolve d.hyp rS = some S →
      S.lmState = R.lmState ∧ S.lmScore - R.lmScore = lexMaxScore env S.lex) ∧
    (∀ (k : Nat) (rP rW : HypRef) (W : LexiconDecoderState),
      noWordChain d.hyp k rP rR = true → HypMap.resolve d.hyp rW = some W →
      W.parent = some rP → 0 ≤ W.word →
      W.lmState = (env.lm.score R.lmState W.word).1 ∧
      W.lmScore - R.lmScore = (env.lm.score R.lmState W.word).2) := by
  obtain ⟨_, hinv⟩ := reachableBySteps_origin env d hr
  have hchain := noWordChain_lm env hlm hwf d.hyp _ hinv rR R hR hroot
  refine ⟨hchain, ?_⟩
  intro k rP rW W hc hW hpar hword
  obtain ⟨P, hP, _, _, hder⟩ := framesInv_parent _ env d.hyp _ hinv rW rP W hW hpar
  obtain ⟨i1, i2⟩ := hchain k rP P hc hP
  rcases derived_lm env hlm hwf P W hder with ⟨b1, _, _⟩ | ⟨_, b2, b3⟩
  · rw [b1] at hword
    exact absurd hword (by decide)
  · rw [i1] at b2 b3
    refine ⟨b2, ?_⟩
    linarith

/-- Witness for `lookahead_cancels`: the decoder `lookaheadEnv` after the
frames `a`, `b`; `R` is the seed, the chain is the child extension of frame 1
and `W` the completion of `ab` at frame 2. -/
theorem lookahead_cancels_witness :
    lookaheadEnv.isLmToken = false ∧ WellFormedLexicon lookaheadEnv ∧
    ReachableBySteps lookaheadEnv lookaheadAfterTwo ∧
    HypMap.resolve lookaheadAfterTwo.hyp (0, 0) = some (seedState lookaheadEnv) ∧
    (seedState lookaheadEnv).lex = lookaheadEnv.lexicon.root ∧
    noWordChain lookaheadAfterTwo.hyp 1 (1, 0) (0, 0) = true ∧
    HypMap.resolve lookaheadAfterTwo.hyp (2, 0) =
      some { score := -2, lmState := 1, lex := 0, parent := some (1, 0), token := 1,
             word := 0, prevBlank := false, emittingModelScore := 0, lmScore := -2 } ∧
    (1 : LMStatePtr) = (lookaheadEnv.lm.score (seedState lookaheadEnv).lmState 0).1 ∧
    (-2 : Score) - (seedState lookaheadEnv).lmScore =
      (lookaheadEnv.lm.score (seedState lookaheadEnv).lmState 0).2 :=
  ⟨rfl, lookaheadEnv_wellFormed,
    ReachableBySteps.step abEmissions 2 4 (ReachableBySteps.begin freshDecoder)
      lookaheadAfterTwo_run,
    by decide!, rfl, by decide!, by decide!,
    ((lookahead_cancels lookaheadEnv rfl lookaheadEnv_wellFormed lookaheadAfterTwo
      (ReachableBySteps.step abEmissions 2 4 (ReachableBySteps.begin freshDecoder)
        lookaheadAfterTwo_run)
      (0, 0) (seedState lookaheadEnv) (by decide!) rfl).2 1 (1, 0) (2, 0)
      { score := -2, lmState := 1, lex := 0, parent := some (1, 0), token := 1,
        word := 0, prevBlank := false, emittingModelScore := 0, lmScore := -2 }
      (by decide!) (by decide!) rfl (by decide)).1,
    ((lookahead_cancels lookaheadEnv rfl lookaheadEnv_wellFormed lookaheadAfterTwo
      (ReachableBySteps.step abEmissions 2 4 (ReachableBySteps.begin freshDecoder)
        lookaheadAfterTwo_run)
      (0, 0) (seedState lookaheadEnv) (by decide!) rfl).2 1 (1, 0) (2, 0)
      { score := -2, lmState := 1, lex := 0, parent := some (1, 0), token := 1,
        word := 0, prevBlank := false, emittingModelScore := 0, lmScore := -2 }
      (by decide!) (by decide!) rfl (by decide)).2⟩

/-! ## The custom-vocabulary boost -/

/-- Claim C14 (counterexample). The decoder `customEnv` on the frames `a`,
`b`, `a`: the completion of the custom word `aba` (trie depth 3, `word_len = 2`)
has base score `total = -8 + -6 = -14` and is stored with score `-12`, that is
`total + |total / 7|` with the quotient `15 / 2 = 7` of integers, and not
`total + |total| * 2 / 15 = -182/15`. -/
theorem custom_boost_truncates :
    (decodeStep customEnv (decodeBegin customEnv freshDecoder) abaEmissions 3 4).toOption.map
        (fun d => (HypMap.resolve d.hyp (2, 1), HypMap.resolve d.hyp (3, 0))) =
      some (some afterAB,
            some { score := -12, lmState := 1, lex := 0, parent := some (2, 1), token := 0,
                   word := 0, prevBlank := false, emittingModelScore := -14, lmScore := 0 }) ∧
    customEnv.dictCustomVocab 0 = true ∧
    findChild (customEnv.lexicon.node afterAB.lex).children 0 = some 3 ∧
    (customEnv.lexicon.node 3).labels = [0] ∧
    (customEnv.lexicon.node 3).depth - 1 = 2 ∧
    afterAB.score + abaEmissions (2 * 4 + 0) + customEnv.opt.lmWeight * 0 +
        customEnv.opt.wordScore = -14 ∧
    (-14 : Score) + |(-14 : Score) * customEnv.opt.customWordFactor| * 2 / 15 ≠ -12 := by
  decide!

/-- Claim C14 (amended). For a word completion that is not skipped, with
`total = s + lmWeight * lmDelta + wordScore` and `word_len = depth - 1` of the
trie node entered: a label outside the custom vocabulary gives the score
`total`; a label in it gives `total + |total * customWordFactor / q|` where
`q = 15 / word_len` is the quotient of integers, whenever `word_len ≠ 0` and
`q ≠ 0`; and that is `total + |total * customWordFactor| * word_len / 15` when
`word_len > 0` divides 15. -/
theorem custom_boost_value (env : DecoderEnv) (ref : HypRef) (H : LexiconDecoderState)
    (n : Int) (lexId : Nat) (ems s : Score) (lmIn : LMStatePtr × Score) (label : Int)
    (hskip : ¬ (H.lex = env.lexicon.root ∧ H.token = n))
    (lmSt : LMStatePtr × Score)
    (hlm : lmSt = if env.isLmToken then lmIn
      else ((env.lm.score H.lmState label).1,
            (env.lm.score H.lmState label).2 - lexMaxScore env H.lex))
    (total : Score) (htotal : total = s + env.opt.lmWeight * lmSt.2 + env.opt.wordScore)
    (wordLen : Int) (hlen : wordLen = (env.lexicon.node lexId).depth - 1) :
    (env.dictCustomVocab label = false →
      wordCandidate env ref H n lexId ems s lmIn label =
        [Except.ok (wordState env ref H n lmSt ems total label)]) ∧
    (env.dictCustomVocab label = true → wordLen ≠ 0 → Int.tdiv 15 wordLen ≠ 0 →
      wordCandidate env ref H n lexId ems s lmIn label =
        [Except.ok (wordState env ref H n lmSt ems
          (total + |total * env.opt.customWordFactor / ((Int.tdiv 15 wordLen : Int) : Score)|)
          label)]) ∧
    (env.dictCustomVocab label = true → 0 < wordLen → wordLen ∣ 15 →
      wordCandidate env ref H n lexId ems s lmIn label =
        [Except.ok (wordState env ref H n lmSt ems
          (total + |total * env.opt.customWordFactor| * (wordLen : Score) / 15) label)]) := by
  have hgen : env.dictCustomVocab label = true → wordLen ≠ 0 → Int.tdiv 15 wordLen ≠ 0 →
      wordCandidate env ref H n lexId ems s lmIn label =
        [Except.ok (wordState env ref H n lmSt ems
          (total + |total * env.opt.customWordFactor / ((Int.tdiv 15 wordLen : Int) : Score)|)
          label)] := by
    intro hv h1 h2
    subst hlm htotal hlen
    unfold wordCandidate scoreIncrement wordState
    rw [if_neg hskip]
    simp only [hv, if_true, if_neg h1, if_neg h2]
  refine ⟨?_, hgen, ?_⟩
  · intro hv
    subst hlm htotal
    unfold wordCandidate wordState
    rw [if_neg hskip]
    simp only [hv, Bool.false_eq_true, if_false]
  · intro hv hpos hdiv
    obtain ⟨q, hq⟩ := hdiv
    have hqpos : 0 < q := by
      by_contra hle
      have : wordLen * q ≤ 0 := Int.mul_nonpos_of_nonneg_of_nonpos hpos.le (not_lt.mp hle)
      omega
    have htd : Int.tdiv 15 wordLen = q := by
      rw [Int.tdiv_eq_ediv (by norm_num) hpos.le, hq,
        Int.mul_ediv_cancel_left _ (ne_of_gt hpos)]
    rw [hgen hv (ne_of_gt hpos) (by rw [htd]; exact ne_of_gt hqpos), htd]
    have hcast : (wordLen : Score) * (q : Score) = 15 := by exact_mod_cast hq.symm
    have hq' : (0 : Score) < (q : Score) := by exact_mod_cast hqpos
    have hval : |total * env.opt.customWordFactor / (q : Score)| =
        |total * env.opt.customWordFactor| * (wordLen : Score) / 15 := by
      rw [abs_div, abs_of_pos hq', ← hcast]
      field_simp
      ring
    rw [hval]

/-- Witness for `custom_boost_value`: in `customEnv`, the completion of `aba`
from `afterAB` (`word_len = 2`, quotient 7) and the completion of `ab` from the
hypothesis after `a` (`word_len = 1`, which divides 15). -/
theorem custom_boost_value_witness :
    (¬ (afterAB.lex = customEnv.lexicon.root ∧ afterAB.token = 0) ∧
      customEnv.dictCustomVocab 0 = true ∧ (2 : Int) ≠ 0 ∧ Int.tdiv 15 2 ≠ 0 ∧
      wordCandidate customEnv (2, 1) afterAB 0 3 (-6) (-14) (0, 0) 0 =
        [Except.ok (wordState customEnv (2, 1) afterAB 0 (1, 0) (-6)
          (-14 + |(-14 : Score) * customEnv.opt.customWordFactor /
            ((Int.tdiv 15 2 : Int) : Score)|) 0)]) ∧
    (customEnv.dictCustomVocab 1 = true ∧ (0 : Int) < 1 ∧ (1 : Int) ∣ 15 ∧
      wordCandidate customEnv (1, 0)
          { score := -4, lmState := 0, lex := 1, parent := some (0, 0), token := 0,
            word := -1, prevBlank := false, emittingModelScore := -4, lmScore := 0 }
          1 2 (-4) (-8) (0, 0) 1 =
        [Except.ok (wordState customEnv (1, 0)
          { score := -4, lmState := 0, lex := 1, parent := some (0, 0), token := 0,
            word := -1, prevBlank := false, emittingModelScore := -4, lmScore := 0 }
          1 (2, 0) (-4)
          (-8 + |(-8 : Score) * customEnv.opt.customWordFactor| * ((1 : Int) : Score) / 15)
          1)]) :=
  ⟨⟨by decide, rfl, by decide, by decide,
      (custom_boost_value customEnv (2, 1) afterAB 0 3 (-6) (-14) (0, 0) 0 (by decide)
        (1, 0) (by decide!) (-14) (by decide!) 2 (by decide)).2.1 rfl (by decide)
        (by decide)⟩,
    ⟨rfl, by decide, by decide,
      (custom_boost_value customEnv (1, 0)
        { score := -4, lmState := 0, lex := 1, parent := some (0, 0), token := 0,
          word := -1, prevBlank := false, emittingModelScore := -4, lmScore := 0 }
        1 2 (-4) (-8) (0, 0) 1 (by decide) (2, 0) (by decide!) (-8) (by decide!) 1
        (by decide)).2.2 rfl (by decide) (by decide)⟩⟩

/-- Claim C15 (the code at the failing inputs). With the one-token word
`a → [0]` (trie depth 1) in the custom vocabulary, the first frame reaches its
word completion with `word_len = 0` and the step stops at the division `15 / 0`
of integers. With a custom word of 17 tokens, the 17th frame reaches its word
completion with `word_len = 16`, the quotient `15 / 16` is `0`, and the step
stops at the division of the score by that quotient. -/
theorem custom_boost_divides_by_zero :
    oneTokenCustomEnv.dictCustomVocab 0 = true ∧
    findChild (oneTokenCustomEnv.lexicon.node oneTokenCustomEnv.lexicon.root).children 0 =
      some 1 ∧
    (oneTokenCustomEnv.lexicon.node 1).labels = [0] ∧
    (oneTokenCustomEnv.lexicon.node 1).depth - 1 = 0 ∧
    errorOf (decodeStep oneTokenCustomEnv (decodeBegin oneTokenCustomEnv freshDecoder)
      aaEmissions 1 4) = some DecodeError.intDivByZero ∧
    longWordEnv.dictCustomVocab 0 = true ∧
    (longWordEnv.lexicon.node 17).labels = [0] ∧
    (longWordEnv.lexicon.node 17).depth - 1 = 16 ∧
    Int.tdiv 15 16 = 0 ∧
    errorOf (decodeStep longWordEnv (decodeBegin longWordEnv freshDecoder)
      allAEmissions 17 4) = some DecodeError.nonFiniteScore := by
  decide!

/-! ## Branch (2): the same lexicon node -/

/-- Claim C16. For a live hypothesis `H` of the frame `t` of a `decodeStep`
call, the same-node branch proposes one candidate exactly when the criterion is
not CTC, or `H.prevBlank` is false, or `H` is at the trie root, and none
otherwise. Its token `n` is `SIL` at the root and `H.token` elsewhere; `lex`,
`lmState` and `lmScore` are those of `H`, `word = -1`, `prevBlank = false`; its
score is `H.score + E[t, n]`, plus the transition `transitions[n * N + H.token]`
when the criterion is ASG and `nDecodedFrames + t > 0`, plus `silScore` iff
`n = SIL`. The candidate is among the proposals of the frame. -/
theorem same_node_branch (env : DecoderEnv) (nD : Int) (E : Int → Score) (t N : Int)
    (frame : Int) (hyps : List LexiconDecoderState) (slot : Nat) (H : LexiconDecoderState) :
    sameNodeToken env H = (if H.lex = env.lexicon.root then env.sil else H.token) ∧
    trySame env nD E t N (frame, slot) H =
      (if env.opt.criterionType ≠ CriterionType.CTC ∨ H.prevBlank = false ∨
          H.lex = env.lexicon.root then
        [Except.ok
          { score := H.score + E (t * N + sameNodeToken env H) +
              (if nD + t > 0 ∧ env.opt.criterionType = CriterionType.ASG then
                env.transitions (sameNodeToken env H * N + H.token) else 0) +
              (if sameNodeToken env H = env.sil then env.opt.silScore else 0),
            lmState := H.lmState, lex := H.lex, parent := some (frame, slot),
            token := sameNodeToken env H, word := -1, prevBlank := false,
            emittingModelScore := H.emittingModelScore + E (t * N + sameNodeToken env H) +
              (if nD + t > 0 ∧ env.opt.criterionType = CriterionType.ASG then
                env.transitions (sameNodeToken env H * N + H.token) else 0),
            lmScore := H.lmScore }]
      else []) ∧
    (hyps[slot]? = some H →
      ∀ r ∈ trySame env nD E t N (frame, slot) H,
        r ∈ frameProposals env nD E t N frame hyps) := by
  refine ⟨rfl, ?_, ?_⟩
  · unfold trySame
    by_cases hg : env.opt.criterionType ≠ CriterionType.CTC ∨ H.prevBlank = false ∨
        H.lex = env.lexicon.root
    · rw [if_pos hg, if_pos hg]
      simp only [emittingScore]
      by_cases ha : nD + t > 0 ∧ env.opt.criterionType = CriterionType.ASG <;>
        by_cases hs : sameNodeToken env H = env.sil <;>
        simp only [ha, hs, if_true, if_false, List.cons.injEq, Except.ok.injEq,
          LexiconDecoderState.mk.injEq, and_true, true_and] <;>
        constructor <;> ring
    · rw [if_neg hg, if_neg hg]
  · intro hH r hr
    unfold frameProposals
    rw [List.mem_flatMap]
    refine ⟨((frame, slot), H), ?_, ?_⟩
    · rw [withRefs_mem]
      exact ⟨rfl, hH⟩
    · unfold expandHyp
      simp only [List.mem_append]
      exact Or.inl (Or.inr hr)

/-- Witness for `same_node_branch`: the seed of the example decoder at frame
0, where the same-node candidate is the silence. -/
theorem same_node_branch_witness :
    [seedState abEnv][0]? = some (seedState abEnv) ∧
    ∀ r ∈ trySame abEnv 0 aaEmissions 0 4 (0, 0) (seedState abEnv),
      r ∈ frameProposals abEnv 0 aaEmissions 0 4 0 [seedState abEnv] :=
  ⟨rfl,
    (same_node_branch abEnv 0 aaEmissions 0 4 0 [seedState abEnv] 0 (seedState abEnv)).2.2
      rfl⟩

/-! ## The token beam -/

theorem sorted_take_rank {α : Type} (f : α → Score) :
    ∀ (L : List α), L.Pairwise (fun a b => f a ≥ f b) → ∀ (k : Nat) (n : α),
      n ∈ L.take k → (L.filter (fun m => decide (f m > f n))).length < k := by
  intro L
  induction L with
  | nil =>
    intro _ k n hn
    simp at hn
  | cons a L ih =>
    intro hs k n hn
    cases k with
    | zero => simp at hn
    | succ k =>
      rw [List.take_succ_cons, List.mem_cons] at hn
      rw [List.pairwise_cons] at hs
      rcases hn with hn | hn
      · subst hn
        have hnil : (n :: L).filter (fun m => decide (f m > f n)) = [] := by
          rw [List.filter_eq_nil_iff]
          intro x hx
          simp only [gt_iff_lt, decide_eq_true_eq, not_lt]
          rcases List.mem_cons.mp hx with hx | hx
          · rw [hx]
          · exact hs.1 x hx
        rw [hnil]
        simp
      · have h1 := ih hs.2 k n hn
        have hle : ((a :: L).filter (fun m => decide (f m > f n))).length ≤
            (L.filter (fun m => decide (f m > f n))).length + 1 := by
          rw [List.filter_cons]
          split <;> simp
        omega

theorem tokenBeam_mem (env : DecoderEnv) (E : Int → Score) (t N n : Int)
    (hn : n ∈ tokenBeam env E t N) :
    0 ≤ n ∧ n < N ∧
    (N > env.opt.beamSizeToken →
      (((List.range N.toNat).filter
        (fun m : Nat => decide (E (t * N + (m : Int)) > E (t * N + n)))).length : Int) <
        env.opt.beamSizeToken) := by
  haveI : IsTotal Int (fun l r => E (t * N + l) ≥ E (t * N + r)) :=
    ⟨fun a b => le_total _ _⟩
  haveI : IsTrans Int (fun l r => E (t * N + l) ≥ E (t * N + r)) :=
    ⟨fun _ _ _ h1 h2 => le_trans h2 h1⟩
  unfold tokenBeam at hn
  simp only at hn
  have hidx : ∀ m : Int, m ∈ (List.range N.toNat).map (fun (i : Nat) => (i : Int)) → 0 ≤ m ∧ m < N := by
    intro m hm
    rw [List.mem_map] at hm
    obtain ⟨i, hi, rfl⟩ := hm
    rw [List.mem_range] at hi
    omega
  by_cases hN : N > env.opt.beamSizeToken
  · rw [if_pos hN] at hn
    have hperm := List.perm_insertionSort (fun l r => E (t * N + l) ≥ E (t * N + r))
      ((List.range N.toNat).map (fun (i : Nat) => (i : Int)))
    have hmem := hidx n (hperm.subset (List.mem_of_mem_take hn))
    refine ⟨hmem.1, hmem.2, fun _ => ?_⟩
    have hsorted := List.sorted_insertionSort (fun l r => E (t * N + l) ≥ E (t * N + r))
      ((List.range N.toNat).map (fun (i : Nat) => (i : Int)))
    have hrank := sorted_take_rank (fun m : Int => E (t * N + m)) _ hsorted _ n hn
    have hlen := (hperm.filter (fun m => decide (E (t * N + m) > E (t * N + n)))).length_eq
    rw [hlen, List.filter_map, List.length_map] at hrank
    have hk : ((min env.opt.beamSizeToken N).toNat : Int) ≤ env.opt.beamSizeToken := by
      have : 0 < (min env.opt.beamSizeToken N).toNat := by omega
      omega
    have hrank' : (((List.range N.toNat).filter
        ((fun m => decide (E (t * N + m) > E (t * N + n))) ∘ fun (i : Nat) => (i : Int))).length :
          Int) < ((min env.opt.beamSizeToken N).toNat : Int) := by
      exact_mod_cast hrank
    exact lt_of_lt_of_le hrank' hk
  · rw [if_neg hN] at hn
    have hmem := hidx n (List.mem_of_mem_take hn)
    exact ⟨hmem.1, hmem.2, fun h => absurd h hN⟩

theorem tokenBeam_all (env : DecoderEnv) (E : Int → Score) (t N n : Int)
    (hN : N ≤ env.opt.beamSizeToken) (h0 : 0 ≤ n) (hn : n < N) :
    n ∈ tokenBeam env E t N := by
  unfold tokenBeam
  simp only
  rw [if_neg (not_lt.mpr hN), min_eq_right hN]
  have hlen : ((List.range N.toNat).map (fun (i : Nat) => (i : Int))).length = N.toNat := by simp
  rw [List.take_of_length_le (by rw [hlen])]
  rw [List.mem_map]
  exact ⟨n.toNat, by rw [List.mem_range]; omega, by omega⟩

/-- Claim C17. For a frame `t` of `decodeStep` and a live hypothesis `H`, every
candidate of the child branch (child extension, word completion, unknown word)
has its token `n` in the token beam, with `0 ≤ n < N`; when
`N > beamSizeToken`, fewer than `beamSizeToken` tokens `m` of `[0, N)` have
`E[t, m] > E[t, n]`. When `N ≤ beamSizeToken` every token of `[0, N)` is in the
token beam, and what branch (1) yields for it is proposed. -/
theorem token_beam_top (env : DecoderEnv) (nD : Int) (E : Int → Score) (t N : Int)
    (ref : HypRef) (H : LexiconDecoderState) :
    (∀ y, Except.ok y ∈ (tokenBeam env E t N).flatMap (tryChild env nD E t N ref H) →
      y.token ∈ tokenBeam env E t N ∧ 0 ≤ y.token ∧ y.token < N ∧
      (N > env.opt.beamSizeToken →
        (((List.range N.toNat).filter
          (fun m : Nat => decide (E (t * N + (m : Int)) > E (t * N + y.token)))).length : Int) <
          env.opt.beamSizeToken)) ∧
    (N ≤ env.opt.beamSizeToken → ∀ n : Int, 0 ≤ n → n < N →
      n ∈ tokenBeam env E t N ∧
      ∀ r ∈ tryChild env nD E t N ref H n, r ∈ expandHyp env nD E t N ref H) := by
  constructor
  · intro y hy
    rw [List.mem_flatMap] at hy
    obtain ⟨n, hn, hy⟩ := hy
    obtain ⟨_, htok, _⟩ := tryChild_mem env nD E t N ref H n y hy
    rw [htok]
    obtain ⟨h1, h2, h3⟩ := tokenBeam_mem env E t N n hn
    exact ⟨hn, h1, h2, h3⟩
  · intro hN n h0 hn
    have hmem := tokenBeam_all env E t N n hN h0 hn
    refine ⟨hmem, fun r hr => ?_⟩
    unfold expandHyp
    simp only [List.mem_append, List.mem_flatMap]
    exact Or.inl (Or.inl ⟨n, hmem, hr⟩)

/-- Witness for `token_beam_top`: with a token beam of one token and four
tokens, the child extension of the seed by the best token `a`; with a token
beam of four tokens, token `b`. -/
theorem token_beam_top_witness :
    (Except.ok { score := 0, lmState := 0, lex := 1, parent := some (0, 0), token := 0,
                 word := -1, prevBlank := false, emittingModelScore := 0, lmScore := 0 } ∈
        (tokenBeam narrowEnv aaEmissions 0 4).flatMap
          (tryChild narrowEnv 0 aaEmissions 0 4 (0, 0) (seedState narrowEnv)) ∧
      (4 : Int) > narrowEnv.opt.beamSizeToken ∧
      (((List.range (4 : Int).toNat).filter
        (fun m : Nat => decide (aaEmissions (0 * 4 + (m : Int)) >
          aaEmissions (0 * 4 + 0)))).length : Int) < narrowEnv.opt.beamSizeToken) ∧
    ((4 : Int) ≤ abEnv.opt.beamSizeToken ∧ (0 : Int) ≤ 1 ∧ (1 : Int) < 4 ∧
      (1 : Int) ∈ tokenBeam abEnv aaEmissions 0 4) :=
  ⟨⟨by decide!, by decide,
      ((token_beam_top narrowEnv 0 aaEmissions 0 4 (0, 0) (seedState narrowEnv)).1
        { score := 0, lmState := 0, lex := 1, parent := some (0, 0), token := 0,
          word := -1, prevBlank := false, emittingModelScore := 0, lmScore := 0 }
        (by decide!)).2.2.2 (by decide)⟩,
    ⟨by decide, by decide, by decide,
      ((token_beam_top abEnv 0 aaEmissions 0 4 (0, 0) (seedState abEnv)).2
        (by decide) 1 (by decide) (by decide)).1⟩⟩

/-! ## The run of the one-token word decoder -/

theorem aWordAfterFour_run :
    decodeStep aWordEnv (decodeBegin aWordEnv freshDecoder) aabaEmissions 4 4 =
      Except.ok aWordAfterFour :=
  except_of_toOption _ _ (by decide!)

/-! ## The parts of a score: lemmas -/

theorem proposes_residual (env : DecoderEnv) (p y : LexiconDecoderState)
    (h : Proposes env p y) :
    (y.word = -1 ∧ scoreResidual env y = scoreResidual env p + silBonus env y) ∨
    (∃ lexId, findChild (env.lexicon.node p.lex).children y.token = some lexId ∧
      y.word ∈ (env.lexicon.node lexId).labels ∧
      ((env.dictCustomVocab y.word = false ∧
          scoreResidual env y = scoreResidual env p + silBonus env y + env.opt.wordScore) ∨
        (env.dictCustomVocab y.word = true ∧
          scoreIncrement env
              (p.score + (y.emittingModelScore - p.emittingModelScore) + silBonus env y +
                env.opt.lmWeight * (y.lmScore - p.lmScore) + env.opt.wordScore)
              (env.lexicon.node lexId).depth =
            Except.ok (scoreResidual env y -
              (scoreResidual env p + silBonus env y + env.opt.wordScore))))) ∨
    (∃ u, env.opt.unkScore = some u ∧ y.word = env.unk ∧
      scoreResidual env y = scoreResidual env p + silBonus env y + u) := by
  obtain ⟨nD, E, t, N, ref, hy⟩ := h
  unfold expandHyp at hy
  simp only [List.mem_append, List.mem_flatMap] at hy
  rcases hy with (⟨n, _, hy⟩ | hy) | hy
  · unfold tryChild at hy
    cases hfind : findChild (env.lexicon.node p.lex).children n with
    | none => rw [hfind] at hy; simp at hy
    | some lexId =>
      rw [hfind] at hy
      simp only [List.mem_append, List.mem_flatMap] at hy
      rcases hy with (hy | ⟨label, hl, hy⟩) | hy
      · obtain ⟨_, _, rfl⟩ := childCandidate_ok env ref p n lexId _ _ _ y hy
        left
        refine ⟨rfl, ?_⟩
        simp only [scoreResidual, silBonus, true_and]
        by_cases hs : n = env.sil
        · simp only [hs, if_true]; ring
        · simp only [hs, if_false]; ring
      · obtain ⟨_, _, _, _, h5, h6, h7, h8, _, h10⟩ :=
          wordCandidate_ok env ref p n lexId _ _ _ label y hy
        right; left
        refine ⟨lexId, by rw [h5]; exact hfind, by rw [h6]; exact hl, ?_⟩
        have hsil : (if n = env.sil then
              p.score + emittingScore env nD E t N n p.token + env.opt.silScore
            else p.score + emittingScore env nD E t N n p.token) =
            p.score + (y.emittingModelScore - p.emittingModelScore) + silBonus env y := by
          simp only [silBonus, h5, h7, h8, true_and]
          by_cases hs : n = env.sil
          · simp only [hs, if_true]; ring
          · simp only [hs, if_false]; ring
        rw [hsil] at h10
        rcases h10 with ⟨hv, hsc⟩ | ⟨hv, hsc⟩
        · left
          refine ⟨by rw [h6]; exact hv, ?_⟩
          simp only [scoreResidual]
          rw [hsc]
          ring
        · right
          refine ⟨by rw [h6]; exact hv, ?_⟩
          rw [hsc]
          congr 1
          simp only [scoreResidual]
          ring
      · obtain ⟨u, hu, _, rfl⟩ := unkCandidate_ok env ref p n lexId _ _ _ y hy
        right; right
        refine ⟨u, hu, rfl, ?_⟩
        simp only [scoreResidual, silBonus, true_and]
        by_cases hs : n = env.sil
        · simp only [hs, if_true]; ring
        · simp only [hs, if_false]; ring
  · obtain ⟨_, rfl⟩ := trySame_ok env nD E t N ref p y hy
    left
    refine ⟨rfl, ?_⟩
    simp only [scoreResidual, silBonus, true_and]
    by_cases hs : sameNodeToken env p = env.sil
    · simp only [hs, if_true]; ring
    · simp only [hs, if_false]; ring
  · obtain ⟨_, rfl⟩ := tryBlank_ok env E t N ref p y hy
    left
    refine ⟨rfl, ?_⟩
    simp only [scoreResidual, silBonus, Bool.true_eq_false, false_and, if_false]
    ring

theorem closed_residual (env : DecoderEnv) (hla : env.opt.logAdd = false)
    (p x : LexiconDecoderState) (h : Closed env p x) :
    scoreResidual env x = scoreResidual env p := by
  obtain ⟨flag, ref, y, hy, hk⟩ := h
  rw [hk.2 hla]
  unfold finishCandidate at hy
  split at hy
  · rw [List.mem_singleton] at hy
    subst hy
    simp only [scoreResidual]
    ring
  · simp at hy

theorem derived_residual_plain (env : DecoderEnv) (hla : env.opt.logAdd = false)
    (hsil : env.opt.silScore = 0) (hword : env.opt.wordScore = 0)
    (hunk : ∀ u, env.opt.unkScore = some u → u = 0)
    (hnv : ∀ label, env.dictCustomVocab label = false)
    (p x : LexiconDecoderState) (h : Derived env p x) :
    scoreResidual env x = scoreResidual env p := by
  obtain ⟨y, hp, hk⟩ := h
  rw [hk.2 hla]
  have hs0 : silBonus env y = 0 := by
    unfold silBonus
    rw [hsil]
    simp
  rcases proposes_residual env p y hp with ⟨_, h1⟩ | ⟨lexId, _, _, h1⟩ | ⟨u, hu, _, h1⟩
  · rw [h1, hs0, add_zero]
  · rcases h1 with ⟨_, h1⟩ | ⟨hv, _⟩
    · rw [h1, hs0, hword, add_zero, add_zero]
    · rw [hnv] at hv
      exact absurd hv (by decide)
  · rw [h1, hs0, hunk u hu, add_zero, add_zero]

theorem derived_stepBonus (env : DecoderEnv) (hla : env.opt.logAdd = false)
    (hlabels : ∀ (i : Nat), ∀ l ∈ (env.lexicon.node i).labels, (0 : Int) ≤ l)
    (hunk0 : 0 ≤ env.unk)
    (hunk : ∀ i : Nat, env.unk ∉ (env.lexicon.node i).labels)
    (p x : LexiconDecoderState) (h : Derived env p x) :
    scoreResidual env x = scoreResidual env p + stepBonus env p x := by
  obtain ⟨y, hp, hk⟩ := h
  rw [hk.2 hla]
  rcases proposes_residual env p y hp with ⟨hw, h1⟩ | ⟨lexId, hfind, hl, h1⟩ | ⟨u, hu, hw, h1⟩
  · unfold stepBonus
    rw [if_pos hw]
    exact h1
  · have hw0 : 0 ≤ y.word := hlabels lexId _ hl
    have hne : y.word ≠ -1 := by omega
    have hnu : y.word ≠ env.unk := fun he => hunk lexId (he ▸ hl)
    unfold stepBonus
    rw [if_neg hne, if_neg hnu]
    rcases h1 with ⟨hv, h1⟩ | ⟨hv, h1⟩
    · rw [hv, h1]
      simp only [Bool.false_eq_true, if_false, add_zero]
      ring
    · rw [hv]
      simp only [if_true, customBoost, hfind, h1]
      ring
  · have hne : y.word ≠ -1 := by omega
    unfold stepBonus
    rw [if_neg hne, if_pos hw, hu, h1]
    simp only [Option.getD_some]
    ring

theorem framesInv_induct (R : LexiconDecoderState → LexiconDecoderState → Prop)
    (env : DecoderEnv) (h : HypMap) (top : Int) (hinv : FramesInv R env h top)
    (P : HypRef → LexiconDecoderState → Prop)
    (hseed : P (0, 0) (seedState env))
    (hstep : ∀ (r rp : HypRef) (s p : LexiconDecoderState),
      HypMap.resolve h r = some s → s.parent = some rp → HypMap.resolve h rp = some p →
      R p s → P rp p → P r s) :
    ∀ (r : HypRef) (s : LexiconDecoderState), HypMap.resolve h r = some s → P r s := by
  obtain ⟨hseed', hneg, _, hlink⟩ := hinv
  have hnat : ∀ (n : Nat) (slot : Nat) (s : LexiconDecoderState),
      HypMap.resolve h ((n : Int), slot) = some s → P ((n : Int), slot) s := by
    intro n
    induction n with
    | zero =>
      intro slot s hs
      rw [HypMap.resolve_eq_get] at hs
      simp only [Nat.cast_zero, hseed'] at hs
      cases slot with
      | zero =>
        simp only [List.getElem?_cons_zero, Option.some.injEq] at hs
        subst hs
        exact hseed
      | succ m => simp at hs
    | succ n ih =>
      intro slot s hs
      have hs' := hs
      rw [HypMap.resolve_eq_get] at hs'
      have hmem : s ∈ HypMap.get h ((n + 1 : Nat) : Int) := List.getElem?_mem hs'
      obtain ⟨slot', p, hp1, hp2, hp3⟩ := hlink _ (by push_cast; omega) s hmem
      have e : ((n + 1 : Nat) : Int) - 1 = (n : Int) := by push_cast; omega
      rw [e] at hp1 hp2
      have hp : HypMap.resolve h ((n : Int), slot') = some p := by
        rw [HypMap.resolve_eq_get]; exact hp2
      exact hstep _ _ s p hs hp1 hp hp3 (ih slot' p hp)
  intro r s hs
  obtain ⟨k, slot⟩ := r
  have hk : 0 ≤ k := by
    by_contra hlt
    rw [HypMap.resolve_eq_get, hneg k (by omega)] at hs
    simp at hs
  obtain ⟨n, rfl⟩ := Int.eq_ofNat_of_zero_le hk
  exact hnat n slot s hs

/-- Claim C19. With `logAdd = false`, in every state reached by `decodeBegin`,
`decodeStep` and `decodeEnd` calls (no `prune`): when `silScore`, `wordScore`
and `unkScore` are zero (or the unknown word is disabled) and no word is in the
custom vocabulary, every stored hypothesis has
`score = emittingModelScore + lmWeight * lmScore`, in exact arithmetic; and in
general, over a lexicon whose labels are not negative and differ from the
unknown-word label, `score - emittingModelScore - lmWeight * lmScore` is the sum
of the silence, word, unknown-word and custom-boost bonuses collected along the
parent chain of the state. -/
theorem score_decomposition (env : DecoderEnv) (hla : env.opt.logAdd = false)
    (d : LexiconDecoder) (hr : ReachableNoPrune env d) :
    (env.opt.silScore = 0 → env.opt.wordScore = 0 →
      (∀ u, env.opt.unkScore = some u → u = 0) →
      (∀ label, env.dictCustomVocab label = false) →
      ∀ (r : HypRef) (s : LexiconDecoderState), HypMap.resolve d.hyp r = some s →
        s.score = s.emittingModelScore + env.opt.lmWeight * s.lmScore) ∧
    ((∀ (i : Nat), ∀ l ∈ (env.lexicon.node i).labels, (0 : Int) ≤ l) → 0 ≤ env.unk →
      (∀ i : Nat, env.unk ∉ (env.lexicon.node i).labels) →
      ∀ (r : HypRef) (s : LexiconDecoderState), HypMap.resolve d.hyp r = some s →
        ChainBonus env d.hyp r (scoreResidual env s)) := by
  obtain ⟨_, hinv⟩ := reachableNoPrune_origin env d hr
  have hres0 : scoreResidual env (seedState env) = 0 := by
    simp [scoreResidual, seedState]
  constructor
  · intro hsil hword hunk hnv r s hs
    have hzero : scoreResidual env s = 0 := by
      refine framesInv_induct _ env d.hyp _ hinv (fun _ s => scoreResidual env s = 0) hres0
        ?_ r s hs
      intro r rp s p _ _ _ hR hp
      show scoreResidual env s = 0
      have hp' : scoreResidual env p = 0 := hp
      rcases hR with hd | hc
      · rw [derived_residual_plain env hla hsil hword hunk hnv p s hd]
        exact hp'
      · rw [closed_residual env hla p s hc]
        exact hp'
    unfold scoreResidual at hzero
    linarith
  · intro hlabels hunk0 hunk r s hs
    have hseed : HypMap.resolve d.hyp (0, 0) = some (seedState env) := by
      rw [HypMap.resolve_eq_get, hinv.1]
      rfl
    refine framesInv_induct _ env d.hyp _ hinv
      (fun r s => ChainBonus env d.hyp r (scoreResidual env s)) ?_ ?_ r s hs
    · show ChainBonus env d.hyp (0, 0) (scoreResidual env (seedState env))
      rw [hres0]
      exact ChainBonus.seed (0, 0) (seedState env) hseed rfl
    · intro r rp s p hs hpar hp hR hb
      show ChainBonus env d.hyp r (scoreResidual env s)
      have hb' : ChainBonus env d.hyp rp (scoreResidual env p) := hb
      rcases hR with hd | hc
      · rw [derived_stepBonus env hla hlabels hunk0 hunk p s hd]
        exact ChainBonus.step r rp s p _ hs hpar hp hd hb'
      · rw [closed_residual env hla p s hc]
        exact ChainBonus.finish r rp s p _ hs hpar hp hc hb'

theorem aWordEnv_labels :
    ∀ (i : Nat), ∀ l ∈ (aWordEnv.lexicon.node i).labels, (0 : Int) ≤ l := by
  intro i l hl
  rcases i with _ | _ | i <;> simp [aWordEnv, aWordTrie] at hl
  omega

theorem aWordEnv_unk : ∀ i : Nat, aWordEnv.unk ∉ (aWordEnv.lexicon.node i).labels := by
  intro i hl
  rcases i with _ | _ | i <;> simp [aWordEnv, aWordTrie, greedyEnv, abEnv] at hl

/-- Witness for `score_decomposition`: the decoder over the lexicon `a → [0]`
after the frames `a`, `a`, `BLANK`, `a`, and the second word `a` of frame 4. -/
theorem score_decomposition_witness :
    aWordEnv.opt.logAdd = false ∧ ReachableNoPrune aWordEnv aWordAfterFour ∧
    aWordEnv.opt.silScore = 0 ∧ aWordEnv.opt.wordScore = 0 ∧
    (∀ u, aWordEnv.opt.unkScore = some u → u = 0) ∧
    (∀ label, aWordEnv.dictCustomVocab label = false) ∧
    (∀ (i : Nat), ∀ l ∈ (aWordEnv.lexicon.node i).labels, (0 : Int) ≤ l) ∧
    0 ≤ aWordEnv.unk ∧ (∀ i : Nat, aWordEnv.unk ∉ (aWordEnv.lexicon.node i).labels) ∧
    HypMap.resolve aWordAfterFour.hyp (4, 0) =
      some { score := -2, lmState := 11, lex := 0, parent := some (3, 0), token := 0,
             word := 0, prevBlank := false, emittingModelScore := -2, lmScore := 0 } ∧
    (-2 : Score) = -2 + aWordEnv.opt.lmWeight * 0 ∧
    ChainBonus aWordEnv aWordAfterFour.hyp (4, 0)
      (scoreResidual aWordEnv
        { score := -2, lmState := 11, lex := 0, parent := some (3, 0), token := 0,
          word := 0, prevBlank := false, emittingModelScore := -2, lmScore := 0 }) :=
  have hreach : ReachableNoPrune aWordEnv aWordAfterFour :=
    ReachableNoPrune.step aabaEmissions 4 4 (ReachableNoPrune.begin freshDecoder)
      aWordAfterFour_run
  ⟨rfl, hreach, rfl, rfl, fun u hu => by simp [aWordEnv, greedyEnv] at hu, fun _ => rfl,
    aWordEnv_labels, by decide, aWordEnv_unk, by decide!,
    (score_decomposition aWordEnv rfl aWordAfterFour hreach).1 rfl rfl
      (fun u hu => by simp [aWordEnv, greedyEnv] at hu) (fun _ => rfl) (4, 0)
      { score := -2, lmState := 11, lex := 0, parent := some (3, 0), token := 0,
        word := 0, prevBlank := false, emittingModelScore := -2, lmScore := 0 }
      (by decide!),
    (score_decomposition aWordEnv rfl aWordAfterFour hreach).2 aWordEnv_labels (by decide)
      aWordEnv_unk (4, 0)
      { score := -2, lmState := 11, lex := 0, parent := some (3, 0), token := 0,
        word := 0, prevBlank := false, emittingModelScore := -2, lmScore := 0 }
      (by decide!)⟩

/-! ## The live beam is never empty -/

theorem candidatesStore_best_survives (env : DecoderEnv) (hbeam : 1 ≤ env.opt.beamSize)
    (hthr : 0 ≤ env.opt.beamThreshold)
    (hls : env.opt.logAdd = true → ∀ a b, max a b ≤ env.logSumExp a b)
    (ps outputs : List LexiconDecoderState) (hne : ps ≠ []) (la rs : Bool) :
    ∃ b, (ps.foldl (candidatesAdd env) candidatesReset).bestScore = some b ∧
      ∃ s ∈ candidatesStore (ps.foldl (candidatesAdd env) candidatesReset).candidates outputs
          env.opt.beamSize (scoreFloor env (ps.foldl (candidatesAdd env) candidatesReset))
          la rs,
        b ≤ s.score := by
  obtain ⟨y, hy⟩ := List.exists_mem_of_ne_nil ps hne
  obtain ⟨b, hb, _⟩ := foldl_candidatesAdd_best env hthr ps candidatesReset y hy
  have hinv : BufferHoldsBest (ps.foldl (candidatesAdd env) candidatesReset) :=
    foldl_candidatesAdd_holdsBest env hls ps candidatesReset
      (by intro b hb; simp [candidatesReset] at hb)
  obtain ⟨x, hx, hle⟩ := hinv b hb
  have hpass : x ∈ (ps.foldl (candidatesAdd env) candidatesReset).candidates.filter
      (fun c => aboveFloor (scoreFloor env (ps.foldl (candidatesAdd env) candidatesReset))
        c.score) := by
    rw [List.mem_filter]
    refine ⟨hx, ?_⟩
    simp only [scoreFloor, hb, Option.map_some', aboveFloor, decide_eq_true_eq]
    linarith
  obtain ⟨hd, tl, hsort, hge⟩ := insertionSort_head_ge _ x hpass
  obtain ⟨n, hn⟩ : ∃ n, env.opt.beamSize.toNat = n + 1 :=
    ⟨env.opt.beamSize.toNat - 1, by omega⟩
  refine ⟨b, hb, hd, ?_, le_trans hle hge⟩
  unfold candidatesStore
  rw [hsort, hn, List.take_succ_cons]
  exact List.mem_append_right _ (List.mem_cons_self _ _)

theorem expandHyp_proposes (env : DecoderEnv) (nD : Int) (E : Int → Score) (t N : Int)
    (ref : HypRef) (p : LexiconDecoderState) :
    (env.opt.criterionType = CriterionType.CTC →
      ∃ y, Except.ok y ∈ tryBlank env E t N ref p) ∧
    (env.opt.criterionType = CriterionType.ASG →
      ∃ y, Except.ok y ∈ trySame env nD E t N ref p) ∧
    ∃ y, Except.ok y ∈ expandHyp env nD E t N ref p := by
  have hblank : env.opt.criterionType = CriterionType.CTC →
      ∃ y, Except.ok y ∈ tryBlank env E t N ref p := by
    intro hc
    unfold tryBlank
    rw [if_pos hc]
    exact ⟨_, List.mem_singleton.mpr rfl⟩
  have hsame : env.opt.criterionType = CriterionType.ASG →
      ∃ y, Except.ok y ∈ trySame env nD E t N ref p := by
    intro hc
    unfold trySame
    rw [if_pos (Or.inl (by rw [hc]; decide))]
    exact ⟨_, List.mem_singleton.mpr rfl⟩
  refine ⟨hblank, hsame, ?_⟩
  unfold expandHyp
  cases hc : env.opt.criterionType with
  | ASG =>
    obtain ⟨y, hy⟩ := hsame hc
    exact ⟨y, List.mem_append_left _ (List.mem_append_right _ hy)⟩
  | CTC =>
    obtain ⟨y, hy⟩ := hblank hc
    exact ⟨y, List.mem_append_right _ hy⟩

theorem decodeFrame_nonempty (env : DecoderEnv) (hbeam : 1 ≤ env.opt.beamSize)
    (hthr : 0 ≤ env.opt.beamThreshold)
    (hls : env.opt.logAdd = true → ∀ a b, max a b ≤ env.logSumExp a b)
    (nD : Int) (E : Int → Score) (N start : Int) (h h' : HypMap) (t : Int)
    (hd : decodeFrame env nD E N start h t = Except.ok h')
    (hne : HypMap.get h (start + t) ≠ []) : HypMap.get h' (start + t + 1) ≠ [] := by
  obtain ⟨ps, hc, hnew⟩ := decodeFrame_get_new env nD E N start h h' t hd
  obtain ⟨p, hp⟩ := List.exists_mem_of_ne_nil _ hne
  obtain ⟨slot, hslot⟩ := List.mem_iff_getElem?.mp hp
  obtain ⟨y, hy⟩ := (expandHyp_proposes env nD E t N (start + t, slot) p).2.2
  have hyps : y ∈ ps := expandHyp_in_frame env nD E t N _ _ ps slot p y hslot hc hy
  obtain ⟨_, _, s, hs, _⟩ := candidatesStore_best_survives env hbeam hthr hls ps
    (HypMap.get h (start + t + 1)) (List.ne_nil_of_mem hyps) env.opt.logAdd false
  rw [hnew]
  exact List.ne_nil_of_mem hs

theorem decodeFrames_nonempty (env : DecoderEnv) (hbeam : 1 ≤ env.opt.beamSize)
    (hthr : 0 ≤ env.opt.beamThreshold)
    (hls : env.opt.logAdd = true → ∀ a b, max a b ≤ env.logSumExp a b)
    (nD : Int) (E : Int → Score) (N start : Int) (count : Nat) :
    ∀ (t : Nat) (h h' : HypMap),
    decodeFrames env nD E N start t count h = Except.ok h' →
    HypMap.get h (start + (t : Int)) ≠ [] →
    HypMap.get h' (start + (t : Int) + (count : Int)) ≠ [] := by
  induction count with
  | zero =>
    intro t h h' hd hne
    simp only [decodeFrames, Except.ok.injEq] at hd
    subst hd
    simpa using hne
  | succ n ih =>
    intro t h h' hd hne
    simp only [decodeFrames] at hd
    cases hf : decodeFrame env nD E N start h (t : Int) with
    | error e => rw [hf] at hd; simp at hd
    | ok h1 =>
      rw [hf] at hd
      simp only at hd
      have hstep := decodeFrame_nonempty env hbeam hthr hls nD E N start h h1 t hf hne
      have e1 : start + ((t + 1 : Nat) : Int) = start + (t : Int) + 1 := by
        push_cast; omega
      have := ih (t + 1) h1 h' hd (by rw [e1]; exact hstep)
      have e2 : start + ((t + 1 : Nat) : Int) + (n : Int) =
          start + (t : Int) + ((n + 1 : Nat) : Int) := by
        push_cast; omega
      rw [← e2]; exact this

theorem finishProposals_nonempty (env : DecoderEnv) (frame : Int)
    (hyps : List LexiconDecoderState) (hne : hyps ≠ []) :
    finishProposals env frame hyps ≠ [] := by
  by_cases hroot : ∃ q ∈ hyps, q.lex = env.lexicon.root
  · obtain ⟨q, hq, hlex⟩ := hroot
    obtain ⟨slot, hslot⟩ := List.mem_iff_getElem?.mp hq
    exact List.ne_nil_of_mem
      ((finishProposals_mem env frame hyps _).mpr ⟨slot, q, hslot, Or.inl hlex, rfl⟩)
  · obtain ⟨p, hp⟩ := List.exists_mem_of_ne_nil _ hne
    obtain ⟨slot, hslot⟩ := List.mem_iff_getElem?.mp hp
    have hall : ∀ q ∈ hyps, q.lex ≠ env.lexicon.root := fun q hq hlex => hroot ⟨q, hq, hlex⟩
    exact List.ne_nil_of_mem
      ((finishProposals_mem env frame hyps _).mpr ⟨slot, p, hslot, Or.inr hall, rfl⟩)

theorem decodeEnd_nonempty (env : DecoderEnv) (hbeam : 1 ≤ env.opt.beamSize)
    (hthr : 0 ≤ env.opt.beamThreshold)
    (hls : env.opt.logAdd = true → ∀ a b, max a b ≤ env.logSumExp a b)
    (d : LexiconDecoder) (hne : HypMap.get d.hyp (liveFrame d) ≠ []) :
    HypMap.get (decodeEnd env d).hyp (liveFrame d + 1) ≠ [] := by
  rw [decodeEnd_get, if_pos rfl]
  obtain ⟨_, _, s, hs, _⟩ := candidatesStore_best_survives env hbeam hthr hls
    (finishProposals env (liveFrame d) (HypMap.get d.hyp (liveFrame d)))
    (HypMap.get d.hyp (liveFrame d + 1))
    (finishProposals_nonempty env _ _ hne) env.opt.logAdd true
  exact List.ne_nil_of_mem hs

theorem reachableNoPrune_live_nonempty (env : DecoderEnv) (hbeam : 1 ≤ env.opt.beamSize)
    (hthr : 0 ≤ env.opt.beamThreshold)
    (hls : env.opt.logAdd = true → ∀ a b, max a b ≤ env.logSumExp a b)
    (d : LexiconDecoder) (hr : ReachableNoPrune env d) :
    HypMap.get d.hyp (liveFrame d) ≠ [] := by
  induction hr with
  | begin d0 =>
    have h0 := (graphInv_begin (fun _ _ => True) env d0).2.1
    have hl : liveFrame (decodeBegin env d0) = 0 := by simp [liveFrame, decodeBegin]
    rw [hl, h0]
    simp
  | @step d d' E T N _ hd ih =>
    obtain ⟨hf, hD, hP⟩ := decodeStep_ok env d d' E T N hd
    have hlive : liveFrame d' = d.nDecodedFrames - d.nPrunedFrames + (0 : Nat) + (T : Int) := by
      unfold liveFrame; push_cast; omega
    rw [hlive]
    refine decodeFrames_nonempty env hbeam hthr hls d.nDecodedFrames E N
      (d.nDecodedFrames - d.nPrunedFrames) T 0 _ d'.hyp (by simpa using hf) ?_
    rw [HypMap.get_extend]
    simpa [liveFrame] using ih
  | @finish d _ ih =>
    have hlive : liveFrame (decodeEnd env d) = liveFrame d + 1 := by
      simp only [liveFrame, decodeEnd]; omega
    rw [hlive]
    exact decodeEnd_nonempty env hbeam hthr hls d ih

theorem finishCandidate_nonempty_iff (env : DecoderEnv) (hyps : List LexiconDecoderState)
    (ref : HypRef) (p : LexiconDecoderState) :
    finishCandidate env (hasNiceEnding env hyps) ref p ≠ [] ↔
      (p.lex = env.lexicon.root ∨ ∀ q ∈ hyps, q.lex ≠ env.lexicon.root) := by
  have hnice : hasNiceEnding env hyps = false ↔ ∀ q ∈ hyps, q.lex ≠ env.lexicon.root := by
    unfold hasNiceEnding
    rw [List.any_eq_false]
    simp
  unfold finishCandidate
  by_cases hg : hasNiceEnding env hyps = false ∨ p.lex = env.lexicon.root
  · rw [if_pos hg]
    refine ⟨fun _ => ?_, fun _ => by simp⟩
    rcases hg with hg | hg
    · exact Or.inr (hnice.mp hg)
    · exact Or.inl hg
  · rw [if_neg hg]
    refine ⟨fun h => absurd rfl h, fun h => ?_⟩
    rcases h with h | h
    · exact absurd (Or.inr h) hg
    · exact absurd (Or.inl (hnice.mpr h)) hg

/-- Claim C20 (counterexample). The example decoder after one frame that
prefers `a`: the live frame holds the hypothesis inside the word `ab` (trie node
1) next to three hypotheses at the root, so `hasNiceEnding` holds and the
hypothesis inside the word proposes no finish candidate in `decodeEnd`; the
final frame has two states, none with that parent. -/
theorem decodeEnd_skips_open_word :
    (decodeStep abEnv (decodeBegin abEnv freshDecoder) aaEmissions 1 4).toOption =
      some abAfterOne ∧
    HypMap.find abAfterOne.hyp (liveFrame abAfterOne) = some abFrameOne ∧
    abFrameOne[0]? =
      some { score := 0, lmState := 0, lex := 1, parent := some (0, 0), token := 0,
             word := -1, prevBlank := false, emittingModelScore := 0, lmScore := 0 } ∧
    hasNiceEnding abEnv abFrameOne = true ∧
    finishCandidate abEnv (hasNiceEnding abEnv abFrameOne) (1, 0)
      { score := 0, lmState := 0, lex := 1, parent := some (0, 0), token := 0,
        word := -1, prevBlank := false, emittingModelScore := 0, lmScore := 0 } = [] ∧
    (HypMap.get (decodeEnd abEnv abAfterOne).hyp 2).map (fun s => s.parent) =
      [some (1, 1), some (1, 2)] := by
  decide!

/-- Claim C20 (amended). With `beamSize ≥ 1` and `beamThreshold ≥ 0`, in every
state reached by `decodeBegin`, `decodeStep` (`T ≥ 0`) and `decodeEnd` calls,
the live frame is present and holds at least one hypothesis, so `nHypothesis`
is at least 1. In `decodeStep` every live hypothesis proposes a candidate, the
blank under CTC and the same-node candidate under ASG. In `decodeEnd` a live
hypothesis proposes its finish candidate exactly when it is at the trie root or
no live hypothesis is, so a non-empty live frame yields a candidate. And after
a non-empty list of candidates the store holds a state at least as good as the
best score of the buffer. -/
theorem live_beam_nonempty (env : DecoderEnv) (hbeam : 1 ≤ env.opt.beamSize)
    (hthr : 0 ≤ env.opt.beamThreshold)
    (hls : env.opt.logAdd = true → ∀ a b, max a b ≤ env.logSumExp a b)
    (d : LexiconDecoder) (hr : ReachableNoPrune env d) :
    (∃ v, HypMap.find d.hyp (liveFrame d) = some v ∧ v ≠ [] ∧
      nHypothesis d = Except.ok (v.length : Int) ∧ (1 : Int) ≤ (v.length : Int)) ∧
    (∀ (nD : Int) (E : Int → Score) (t N : Int) (ref : HypRef) (p : LexiconDecoderState),
      (env.opt.criterionType = CriterionType.CTC →
        ∃ y, Except.ok y ∈ tryBlank env E t N ref p) ∧
      (env.opt.criterionType = CriterionType.ASG →
        ∃ y, Except.ok y ∈ trySame env nD E t N ref p) ∧
      ∃ y, Except.ok y ∈ expandHyp env nD E t N ref p) ∧
    (∀ (frame : Int) (hyps : List LexiconDecoderState), hyps ≠ [] →
      finishProposals env frame hyps ≠ [] ∧
      ∀ (slot : Nat) (p : LexiconDecoderState), hyps[slot]? = some p →
        (finishCandidate env (hasNiceEnding env hyps) (frame, slot) p ≠ [] ↔
          (p.lex = env.lexicon.root ∨ ∀ q ∈ hyps, q.lex ≠ env.lexicon.root))) ∧
    (∀ (ps outputs : List LexiconDecoderState) (la rs : Bool), ps ≠ [] →
      ∃ b, (ps.foldl (candidatesAdd env) candidatesReset).bestScore = some b ∧
        ∃ s ∈ candidatesStore (ps.foldl (candidatesAdd env) candidatesReset).candidates
            outputs env.opt.beamSize
            (scoreFloor env (ps.foldl (candidatesAdd env) candidatesReset)) la rs,
          b ≤ s.score) := by
  refine ⟨?_, fun nD E t N ref p => expandHyp_proposes env nD E t N ref p, ?_, ?_⟩
  · have hne := reachableNoPrune_live_nonempty env hbeam hthr hls d hr
    cases hf : HypMap.find d.hyp (liveFrame d) with
    | none =>
      exfalso
      apply hne
      unfold HypMap.get
      rw [hf]
      rfl
    | some v =>
      have hv : v ≠ [] := by
        intro hv
        apply hne
        unfold HypMap.get
        rw [hf, hv]
        rfl
      refine ⟨v, rfl, hv, ?_, ?_⟩
      · unfold liveFrame at hf
        unfold nHypothesis
        rw [hf]
      · have : 0 < v.length := List.length_pos.mpr hv
        omega
  · intro frame hyps hne
    exact ⟨finishProposals_nonempty env frame hyps hne,
      fun slot p _ => finishCandidate_nonempty_iff env hyps (frame, slot) p⟩
  · intro ps outputs la rs hne
    exact candidatesStore_best_survives env hbeam hthr hls ps outputs hne la rs

/-- Witness for `live_beam_nonempty`: the example decoder after one frame and
`decodeEnd`, whose final frame holds two hypotheses. -/
theorem live_beam_nonempty_witness :
    1 ≤ abEnv.opt.beamSize ∧ 0 ≤ abEnv.opt.beamThreshold ∧
    (abEnv.opt.logAdd = true → ∀ a b, max a b ≤ abEnv.logSumExp a b) ∧
    ReachableNoPrune abEnv (decodeEnd abEnv abAfterOne) ∧
    ∃ v, HypMap.find (decodeEnd abEnv abAfterOne).hyp (liveFrame (decodeEnd abEnv abAfterOne)) =
        some v ∧ v ≠ [] ∧
      nHypothesis (decodeEnd abEnv abAfterOne) = Except.ok (v.length : Int) ∧
      (1 : Int) ≤ (v.length : Int) :=
  have hreach : ReachableNoPrune abEnv (decodeEnd abEnv abAfterOne) :=
    ReachableNoPrune.finish
      (ReachableNoPrune.step aaEmissions 1 4 (ReachableNoPrune.begin freshDecoder)
        abAfterOne_run)
  ⟨by decide, by decide!, fun h => absurd h (by decide), hreach,
    (live_beam_nonempty abEnv (by decide) (by decide!) (fun h => absurd h (by decide))
      (decodeEnd abEnv abAfterOne) hreach).1⟩

/-! ## The hypothesis graph with pruning -/

theorem linkFrames_congr (R : LexiconDecoderState → LexiconDecoderState → Prop)
    (Q : LexiconDecoderState → Prop) (h h' : HypMap) (top : Int)
    (hget : ∀ k, HypMap.get h' k = HypMap.get h k) (hinv : LinkFrames R Q h top) :
    LinkFrames R Q h' top := by
  obtain ⟨hneg, htop, hlink⟩ := hinv
  refine ⟨fun k hk => by rw [hget]; exact hneg k hk,
    fun k hk => by rw [hget]; exact htop k hk, ?_⟩
  intro k x hx
  rw [hget] at hx
  obtain ⟨hq, hl⟩ := hlink k x hx
  refine ⟨hq, fun rp hpar => ?_⟩
  obtain ⟨h1, h2⟩ := hl rp hpar
  refine ⟨h1, fun p hp => h2 p ?_⟩
  rw [← HypMap.resolve_congr h h' hget rp]
  exact hp

theorem linkFrames_decodeFrame (R : LexiconDecoderState → LexiconDecoderState → Prop)
    (Q : LexiconDecoderState → Prop)
    (env : DecoderEnv) (hR : ∀ p x, Transition env p x → R p x ∧ Q x)
    (nD : Int) (E : Int → Score) (N start : Int) (h h' : HypMap) (t : Int)
    (h0 : 0 ≤ start + t) (hinv : LinkFrames R Q h (start + t))
    (hd : decodeFrame env nD E N start h t = Except.ok h') :
    LinkFrames R Q h' (start + t + 1) := by
  obtain ⟨hneg, htop, hlink⟩ := hinv
  have hother : ∀ k, k ≠ start + t + 1 → HypMap.get h' k = HypMap.get h k :=
    fun k hk => decodeFrame_get_other env nD E N start h h' t hd k hk
  refine ⟨?_, ?_, ?_⟩
  · intro k hk
    rw [hother k (by omega)]; exact hneg k hk
  · intro k hk
    rw [hother k (by omega)]; exact htop k (by omega)
  · intro k x hx
    by_cases hk1 : k = start + t + 1
    · subst hk1
      obtain ⟨slot, p, hp1, hp2, hp3⟩ :=
        decodeFrame_new_mem env nD E N start h h' t hd (htop _ (by omega)) x hx
      refine ⟨(hR p x hp3).2, fun rp hpar => ?_⟩
      rw [hp1, Option.some.injEq] at hpar
      subst hpar
      refine ⟨by simp, fun p' hp' => ?_⟩
      rw [HypMap.resolve_eq_get, hother _ (by omega), hp2, Option.some.injEq] at hp'
      subst hp'
      exact (hR p x hp3).1
    · rw [hother k hk1] at hx
      obtain ⟨hq, hl⟩ := hlink k x hx
      refine ⟨hq, fun rp hpar => ?_⟩
      obtain ⟨h1, h2⟩ := hl rp hpar
      refine ⟨h1, fun p hp => h2 p ?_⟩
      obtain ⟨rk, rslot⟩ := rp
      simp only at h1
      subst h1
      by_cases hk2 : k - 1 = start + t + 1
      · have : HypMap.get h k = [] := htop k (by omega)
        rw [this] at hx
        simp at hx
      · rw [HypMap.resolve_eq_get, hother _ hk2] at hp
        rw [HypMap.resolve_eq_get]
        exact hp

theorem linkFrames_decodeFrames (R : LexiconDecoderState → LexiconDecoderState → Prop)
    (Q : LexiconDecoderState → Prop)
    (env : DecoderEnv) (hR : ∀ p x, Transition env p x → R p x ∧ Q x)
    (nD : Int) (E : Int → Score) (N start : Int) (h0 : 0 ≤ start) (count : Nat) :
    ∀ (t : Nat) (h h' : HypMap), LinkFrames R Q h (start + (t : Int)) →
    decodeFrames env nD E N start t count h = Except.ok h' →
    LinkFrames R Q h' (start + (t : Int) + (count : Int)) := by
  induction count with
  | zero =>
    intro t h h' hinv hd
    simp only [decodeFrames, Except.ok.injEq] at hd
    subst hd
    simpa using hinv
  | succ n ih =>
    intro t h h' hinv hd
    simp only [decodeFrames] at hd
    cases hf : decodeFrame env nD E N start h (t : Int) with
    | error e => rw [hf] at hd; simp at hd
    | ok h1 =>
      rw [hf] at hd
      simp only at hd
      have hstep := linkFrames_decodeFrame R Q env hR nD E N start h h1 t (by omega) hinv hf
      have e1 : start + ((t + 1 : Nat) : Int) = start + (t : Int) + 1 := by
        push_cast; omega
      have := ih (t + 1) h1 h' (by rw [e1]; exact hstep) hd
      have e2 : start + ((t + 1 : Nat) : Int) + (n : Int) =
          start + (t : Int) + ((n + 1 : Nat) : Int) := by
        push_cast; omega
      rw [← e2]; exact this

theorem linkFrames_decodeEnd (R : LexiconDecoderState → LexiconDecoderState → Prop)
    (Q : LexiconDecoderState → Prop)
    (env : DecoderEnv) (hR : ∀ p x, FinishLink env p x → R p x ∧ Q x)
    (d : LexiconDecoder) (h0 : 0 ≤ liveFrame d) (hinv : LinkFrames R Q d.hyp (liveFrame d)) :
    LinkFrames R Q (decodeEnd env d).hyp (liveFrame d + 1) := by
  obtain ⟨hneg, htop, hlink⟩ := hinv
  have hother : ∀ k, k ≠ liveFrame d + 1 →
      HypMap.get (decodeEnd env d).hyp k = HypMap.get d.hyp k :=
    fun k hk => by rw [decodeEnd_get, if_neg hk]
  refine ⟨?_, ?_, ?_⟩
  · intro k hk
    rw [hother k (by omega)]; exact hneg k hk
  · intro k hk
    rw [hother k (by omega)]; exact htop k (by omega)
  · intro k x hx
    by_cases hk1 : k = liveFrame d + 1
    · subst hk1
      obtain ⟨slot, p, hp1, hp2, hp3⟩ := decodeEnd_new_mem env d (htop _ (by omega)) x hx
      refine ⟨(hR p x hp3).2, fun rp hpar => ?_⟩
      rw [hp1, Option.some.injEq] at hpar
      subst hpar
      refine ⟨by simp, fun p' hp' => ?_⟩
      rw [HypMap.resolve_eq_get, hother _ (by omega), hp2, Option.some.injEq] at hp'
      subst hp'
      exact (hR p x hp3).1
    · rw [hother k hk1] at hx
      obtain ⟨hq, hl⟩ := hlink k x hx
      refine ⟨hq, fun rp hpar => ?_⟩
      obtain ⟨h1, h2⟩ := hl rp hpar
      refine ⟨h1, fun p hp => h2 p ?_⟩
      obtain ⟨rk, rslot⟩ := rp
      simp only at h1
      subst h1
      by_cases hk2 : k - 1 = liveFrame d + 1
      · have : HypMap.get d.hyp k = [] := htop k (by omega)
        rw [this] at hx
        simp at hx
      · rw [HypMap.resolve_eq_get, hother _ hk2] at hp
        rw [HypMap.resolve_eq_get]
        exact hp

theorem linkFrames_prune (R : LexiconDecoderState → LexiconDecoderState → Prop)
    (Q : LexiconDecoderState → Prop)
    (hreb : ∀ s c p x, R p x → R (rebaseState s c p) (rebaseState s c x))
    (hrebQ : ∀ s c x, Q x → Q (rebaseState s c x))
    (h : HypMap) (top s L : Int) (hinv : LinkFrames R Q h top) :
    LinkFrames R Q (pruneAndNormalize h s L) (top - s) := by
  obtain ⟨_, htop, hlink⟩ := hinv
  refine ⟨?_, ?_, ?_⟩
  · intro k hk
    rw [get_pruneAndNormalize, if_neg (by omega)]
  · intro k hk
    rw [get_pruneAndNormalize]
    by_cases hk0 : 0 ≤ k
    · rw [if_pos hk0, htop (k + s) (by omega)]
      rfl
    · rw [if_neg hk0]
  · intro k x' hx'
    rw [get_pruneAndNormalize] at hx'
    by_cases hk0 : 0 ≤ k
    · rw [if_pos hk0, List.mem_map] at hx'
      obtain ⟨x, hx, rfl⟩ := hx'
      obtain ⟨hq, hl⟩ := hlink (k + s) x hx
      refine ⟨hrebQ _ _ x hq, fun rp hpar => ?_⟩
      cases hxp : x.parent with
      | none =>
        simp only [rebaseState, hxp] at hpar
        exact absurd hpar (by simp)
      | some q =>
        obtain ⟨h1, h2⟩ := hl q hxp
        simp only [rebaseState, hxp] at hpar
        by_cases hqs : q.1 < s
        · rw [if_pos hqs] at hpar
          exact absurd hpar (by simp)
        · rw [if_neg hqs, Option.some.injEq] at hpar
          subst hpar
          refine ⟨by simp only; omega, fun p' hp' => ?_⟩
          rw [HypMap.resolve_eq_get, get_pruneAndNormalize, if_pos (by omega),
            List.getElem?_map] at hp'
          have e : q.1 - s + s = q.1 := by omega
          simp only [e] at hp'
          cases hp : (HypMap.get h q.1)[q.2]? with
          | none => rw [hp] at hp'; simp at hp'
          | some p =>
            rw [hp, Option.map_some', Option.some.injEq] at hp'
            subst hp'
            exact hreb _ _ p x (h2 p (by rw [HypMap.resolve_eq_get]; exact hp))
    · rw [if_neg hk0] at hx'
      simp at hx'

theorem reachable_linkFrames (R : LexiconDecoderState → LexiconDecoderState → Prop)
    (Q : LexiconDecoderState → Prop) (env : DecoderEnv)
    (hseed : Q (seedState env))
    (hstep : ∀ p x, Transition env p x → R p x ∧ Q x)
    (hfin : ∀ p x, FinishLink env p x → R p x ∧ Q x)
    (hreb : ∀ s c p x, R p x → R (rebaseState s c p) (rebaseState s c x))
    (hrebQ : ∀ s c x, Q x → Q (rebaseState s c x))
    (d : LexiconDecoder) (hr : Reachable env d) :
    0 ≤ liveFrame d ∧ LinkFrames R Q d.hyp (liveFrame d) := by
  induction hr with
  | begin d0 =>
    have hget : ∀ k, HypMap.get (decodeBegin env d0).hyp k =
        if k = 0 then [seedState env] else [] := by
      intro k
      simp only [decodeBegin, HypMap.get_set, HypMap.get_emplace_nil]
      by_cases hk : k = 0 <;> simp [hk, HypMap.get, HypMap.find]
    have hl : liveFrame (decodeBegin env d0) = 0 := by simp [liveFrame, decodeBegin]
    refine ⟨by omega, ?_, ?_, ?_⟩
    · intro k hk
      rw [hget, if_neg (by omega)]
    · intro k hk
      rw [hget, if_neg (by omega)]
    · intro k x hx
      rw [hget] at hx
      by_cases hk : k = 0
      · rw [if_pos hk, List.mem_singleton] at hx
        subst hx
        exact ⟨hseed, fun rp hpar => by simp [seedState] at hpar⟩
      · rw [if_neg hk] at hx
        simp at hx
  | @step d d' E T N _ hd ih =>
    obtain ⟨hf, hD, hP⟩ := decodeStep_ok env d d' E T N hd
    obtain ⟨h0, hfr⟩ := ih
    unfold liveFrame at h0 hfr
    have hlive : liveFrame d' = d.nDecodedFrames - d.nPrunedFrames + (T : Int) := by
      unfold liveFrame; omega
    refine ⟨by rw [hlive]; omega, ?_⟩
    rw [hlive]
    have hext := linkFrames_congr R Q d.hyp
      (HypMap.extend d.hyp (d.nDecodedFrames - d.nPrunedFrames + T + 2)) _
      (fun k => HypMap.get_extend d.hyp _ k) hfr
    have := linkFrames_decodeFrames R Q env hstep d.nDecodedFrames E N
      (d.nDecodedFrames - d.nPrunedFrames) h0 T 0 _ d'.hyp (by simpa using hext)
      (by simpa using hf)
    simpa using this
  | @finish d _ ih =>
    obtain ⟨h0, hfr⟩ := ih
    have hlive : liveFrame (decodeEnd env d) = liveFrame d + 1 := by
      simp only [liveFrame, decodeEnd]; omega
    rw [hlive]
    exact ⟨by omega, linkFrames_decodeEnd R Q env hfin d h0 hfr⟩
  | @prune d d' L _ hp ih =>
    rcases prune_ok_cases env d d' L hp with rfl | ⟨hs, rfl⟩
    · exact ih
    · obtain ⟨h0, hfr⟩ := ih
      have hl : liveFrame
          { hyp := pruneAndNormalize d.hyp (liveFrame d - L) L,
            nDecodedFrames := d.nDecodedFrames,
            nPrunedFrames := d.nDecodedFrames - L } = (L : Int) := by
        simp [liveFrame]
      rw [hl]
      refine ⟨by omega, ?_⟩
      have := linkFrames_prune R Q hreb hrebQ d.hyp (liveFrame d) (liveFrame d - L) L hfr
      have e : liveFrame d - (liveFrame d - (L : Int)) = (L : Int) := by omega
      rw [e] at this
      exact this

theorem transition_rebase (env : DecoderEnv) (s : Int) (c : Score)
    (p x : LexiconDecoderState) (ht : Transition env p x) :
    Transition env (rebaseState s c p) (rebaseState s c x) := by
  cases ht with
  | child lexId hfind hlex hword hblank hgate hchildren =>
    exact Transition.child lexId hfind hlex hword hblank hgate hchildren
  | word lexId hfind hlabel hlex hblank hskip =>
    exact Transition.word lexId hfind hlabel hlex hblank hskip
  | unk lexId hfind hlabels hunk hword hlex hblank =>
    exact Transition.unk lexId hfind hlabels hunk hword hlex hblank
  | same hguard htoken hlex hword hblank =>
    exact Transition.same hguard htoken hlex hword hblank
  | blank hctc htoken hlex hword hblank =>
    exact Transition.blank hctc htoken hlex hword hblank

/-! ## One-token words are not repeated -/

/-- Claim C18. For either criterion, in every state reached by `decodeBegin`,
`decodeStep`, `decodeEnd` and `prune` calls, over a lexicon whose labels are not
negative and do not contain the unknown-word label: a stored state whose word
is a lexicon label is at the trie root and its parent is not a root state with
the same token. Hence when the parent carries a lexicon word too, the two
tokens differ: a word spelled by one token is not emitted at two consecutive
frames of one path. -/
theorem no_duplicate_single_token_word (env : DecoderEnv)
    (hlabels : ∀ (i : Nat), ∀ l ∈ (env.lexicon.node i).labels, (0 : Int) ≤ l)
    (hunk : ∀ i : Nat, env.unk ∉ (env.lexicon.node i).labels)
    (d : LexiconDecoder) (hr : Reachable env d)
    (r rp : HypRef) (s p : LexiconDecoderState)
    (hs : HypMap.resolve d.hyp r = some s) (hpar : s.parent = some rp)
    (hp : HypMap.resolve d.hyp rp = some p)
    (i : Nat) (hlab : s.word ∈ (env.lexicon.node i).labels) :
    s.lex = env.lexicon.root ∧
    ¬ (p.lex = env.lexicon.root ∧ p.token = s.token) ∧
    (∀ j : Nat, p.word ∈ (env.lexicon.node j).labels →
      p.lex = env.lexicon.root ∧ p.token ≠ s.token) := by
  have hneg : ∀ i : Nat, (-1 : Int) ∉ (env.lexicon.node i).labels := by
    intro i hmem
    have := hlabels i _ hmem
    omega
  obtain ⟨_, _, _, hlink⟩ := reachable_linkFrames
    (fun p x => (∃ i : Nat, x.word ∈ (env.lexicon.node i).labels) →
      ¬ (p.lex = env.lexicon.root ∧ p.token = x.token))
    (fun x => (∃ i : Nat, x.word ∈ (env.lexicon.node i).labels) → x.lex = env.lexicon.root)
    env
    (by
      rintro ⟨i, hi⟩
      exact absurd hi (hneg i))
    (by
      intro p x ht
      cases ht with
      | child lexId hfind hlex hword hblank hgate hchildren =>
        constructor <;> (rintro ⟨i, hi⟩; rw [hword] at hi; exact absurd hi (hneg i))
      | word lexId hfind hlabel hlex hblank hskip =>
        exact ⟨fun _ => hskip, fun _ => hlex⟩
      | unk lexId hfind hlabels' hunk' hword hlex hblank =>
        constructor <;> (rintro ⟨i, hi⟩; rw [hword] at hi; exact absurd hi (hunk i))
      | same hguard htoken hlex hword hblank =>
        constructor <;> (rintro ⟨i, hi⟩; rw [hword] at hi; exact absurd hi (hneg i))
      | blank hctc htoken hlex hword hblank =>
        constructor <;> (rintro ⟨i, hi⟩; rw [hword] at hi; exact absurd hi (hneg i)))
    (by
      intro p x hf
      constructor <;> (rintro ⟨i, hi⟩; rw [hf.2.1] at hi; exact absurd hi (hneg i)))
    (fun _ _ _ _ h => h) (fun _ _ _ h => h) d hr
  have hsmem : s ∈ HypMap.get d.hyp r.1 := by
    obtain ⟨k, slot⟩ := r
    rw [HypMap.resolve_eq_get] at hs
    exact List.getElem?_mem hs
  have hpmem : p ∈ HypMap.get d.hyp rp.1 := by
    obtain ⟨k, slot⟩ := rp
    rw [HypMap.resolve_eq_get] at hp
    exact List.getElem?_mem hp
  obtain ⟨hq, hl⟩ := hlink r.1 s hsmem
  have hskip := (hl rp hpar).2 p hp ⟨i, hlab⟩
  refine ⟨hq ⟨i, hlab⟩, hskip, fun j hj => ?_⟩
  have hplex := (hlink rp.1 p hpmem).1 ⟨j, hj⟩
  exact ⟨hplex, fun heq => hskip ⟨hplex, heq⟩⟩

/-- Witness for `no_duplicate_single_token_word`: the CTC decoder over the
lexicon `a → [0]`. On the frames `a`, `a`, `BLANK`, `a` the second word `a` of
frame 4 has a blank as parent, and the words read back are `[a, a]`; on the
frames `a`, `a` they are `[a]`. -/
theorem no_duplicate_single_token_word_witness :
    (∀ (i : Nat), ∀ l ∈ (aWordEnv.lexicon.node i).labels, (0 : Int) ≤ l) ∧
    (∀ i : Nat, aWordEnv.unk ∉ (aWordEnv.lexicon.node i).labels) ∧
    Reachable aWordEnv aWordAfterFour ∧
    (¬ ((0 : Nat) = aWordEnv.lexicon.root ∧ (2 : Int) = 0)) ∧
    (unprunedWords aWordEnv [{ emissions := aaEmissions, T := 2, N := 4 }] []).toOption =
      some [0] ∧
    (unprunedWords aWordEnv [{ emissions := aabaEmissions, T := 4, N := 4 }] []).toOption =
      some [0, 0] :=
  have hreach : Reachable aWordEnv aWordAfterFour :=
    Reachable.step aabaEmissions 4 4 (Reachable.begin freshDecoder) aWordAfterFour_run
  ⟨aWordEnv_labels, aWordEnv_unk, hreach,
    (no_duplicate_single_token_word aWordEnv aWordEnv_labels aWordEnv_unk aWordAfterFour
      hreach (4, 0) (3, 0)
      { score := -2, lmState := 11, lex := 0, parent := some (3, 0), token := 0,
        word := 0, prevBlank := false, emittingModelScore := -2, lmScore := 0 }
      { score := -2, lmState := 1, lex := 0, parent := some (2, 0), token := 2,
        word := -1, prevBlank := true, emittingModelScore := -2, lmScore := 0 }
      (by decide!) rfl (by decide!) 1 (by decide)).2.1,
    by decide!, by decide!⟩

/-! ## `prune` at the boundary `look_back = D - 1` -/

theorem prune_eq_pruneWith (env : DecoderEnv) (d : LexiconDecoder) (lookBack : Int) :
    prune env d lookBack =
      pruneWith (fun h frame finalHyps lb =>
        (findBestAncestor h frame finalHyps lb).map (fun r => (r, lb))) env d lookBack := by
  unfold prune pruneWith
  by_cases hg : d.nDecodedFrames - d.nPrunedFrames - lookBack < 1
  · rw [if_pos hg, if_pos hg]
  · simp only [hg, if_false]
    cases HypMap.find d.hyp (d.nDecodedFrames - d.nPrunedFrames) with
    | none => rfl
    | some finalHyps =>
      simp only
      cases findBestAncestor d.hyp (d.nDecodedFrames - d.nPrunedFrames) finalHyps lookBack with
      | none => rfl
      | some r => simp only [Option.map_some', hg, if_false]

end Flashlight
